import Mathlib

/-!
# Path and directory utilities of `common/fs_utils.hpp`, output operators of `common/print_utils.hpp`

A shallow embedding of the pure string functions of `fs_utils.hpp`
(`path_join`, `normpath`, `path_split`, `splitext`, `get_file_ext`,
`remove_file_ext`, `dirname`, `basename`), of the directory traversals
(`path_walk`, `walkdir`, `list_dir`) and of the functions that change the file
system (`makedirs`, `remove_path`) for the POSIX build (`path_separator = '/'`),
and of `operator<<` for `std::vector` and `std::list` of `print_utils.hpp`,
followed by theorems about them.

A `std::string` is modelled as a `List Char`; a `std::vector<std::string>` as a
`List (List Char)` whose last element is `back()`. The file system that the
traversals read is modelled as a finite tree of nodes (`Node`). The functions
that change the file system are written over the system calls they make
(`OS`), with a list of keyed entries (`ModelFS`) as one implementation of them.
-/

namespace FsUtils

/-- A `std::string`, as the list of its characters. -/
abbrev Str := List Char

/-- The constant `path_separator` of the non-Windows build. -/
def path_separator : Char := '/'

/-- The string `"."`. -/
def dot : Str := ['.']

/-- The string `".."`. -/
def dotdot : Str := ['.', '.']

/-! ## `normpath` -/

/-- The sequence of values that `while (std::getline(ss, part, path_separator))`
assigns to `part`, for a stream whose unread content is the second argument.
`cur` holds, in reverse, the characters the current `getline` call has extracted
so far. A separator ends the current call with the characters read so far (the
separator is extracted and discarded); at the end of the stream the call
succeeds only when it extracted at least one character. -/
def getlineParts (cur : Str) : Str → List Str
  | [] => if cur = [] then [] else [cur.reverse]
  | c :: cs =>
    if c = path_separator then cur.reverse :: getlineParts [] cs
    else getlineParts (c :: cur) cs

/-- The body of the splitting loop of `normpath`: one `part` against the
vector `parts`. -/
def normStep (parts : List Str) (part : Str) : List Str :=
  if part = [] ∨ part = dot then parts
  else if part = dotdot ∧ parts ≠ [] ∧ parts.getLast? ≠ some dotdot then parts.dropLast
  else parts ++ [part]

/-- The recombination loop of `normpath`:
`for (part : parts) normalized_path += part + path_separator`. -/
def recombine (parts : List Str) : Str :=
  parts.foldl (fun acc part => acc ++ (part ++ [path_separator])) []

/-- The step "remove the trailing separator" of `normpath`. -/
def stripTrailing (s : Str) : Str :=
  if 1 < s.length ∧ s.getLast? = some path_separator then s.dropLast else s

/-- The function `normpath` of `fs_utils.hpp`. -/
def normpath (path : Str) : Str :=
  if path = [] ∨ path = dot then dot
  else
    let parts := (getlineParts [] path).foldl normStep []
    let normalized_path := stripTrailing (recombine parts)
    if 0 < path.length ∧ path.head? = some path_separator then
      path_separator :: normalized_path
    else normalized_path

/-! ## `path_join` -/

/-- The value of `s.front()`; on an empty `std::string` this reads the
terminating null character. -/
def front (s : Str) : Char := s.headD (Char.ofNat 0)

/-- The body of the loop of `path_join`. -/
def joinStep (result path : Str) : Str :=
  if result ≠ [] ∧ result.getLast? ≠ some path_separator ∧ front path ≠ path_separator then
    (result ++ [path_separator]) ++ path
  else result ++ path

/-- The function `path_join(const std::initializer_list<std::string>&)`. -/
def path_join (paths : List Str) : Str :=
  paths.foldl joinStep []

/-! ## `path_split`, `dirname`, `basename` -/

/-- The value of `s.find_last_of(c)`: the greatest index holding `c`, or `none` for `npos`. -/
def find_last_of (s : Str) (c : Char) : Option Nat :=
  match s with
  | [] => none
  | x :: xs =>
    match find_last_of xs c with
    | some i => some (i + 1)
    | none => if x = c then some 0 else none

/-- The function `path_split`. -/
def path_split (path : Str) : Str × Str :=
  match find_last_of path path_separator with
  | none => ([], path)
  | some pos => (path.take pos, path.drop (pos + 1))

/-- The function `dirname`. -/
def dirname (path : Str) : Str :=
  if path = [] then dot
  else if path.length = 1 then
    (if path.head? = some path_separator then [path_separator] else dot)
  else
    match find_last_of path path_separator with
    | none => dot
    | some pos => if pos = 0 then [path_separator] else path.take pos

/-- The function `basename`. -/
def basename (path : Str) : Str :=
  if path = [] then []
  else if path.length = 1 then
    (if path.head? = some path_separator then [path_separator] else [path.headD (Char.ofNat 0)])
  else
    match find_last_of path path_separator with
    | none => path
    | some pos => path.drop (pos + 1)

/-! ## Vocabulary of the specification -/

/-- The separator-delimited segments of a string: `n` separators delimit
`n + 1` segments. -/
def segments (s : Str) : List Str := s.splitOn path_separator

/-- A segment that the splitting loop of a normalization keeps: neither empty
nor `"."`. -/
def kept (s : Str) : Bool := decide (s ≠ [] ∧ s ≠ dot)

/-- The segments of a path after dropping the empty and the `"."` segments. -/
def keptSegments (p : Str) : List Str := (segments p).filter kept

/-- The root marker of a path: one separator when the path begins with one. -/
def rootPrefix (p : Str) : Str :=
  if p.head? = some path_separator then [path_separator] else []

/-- The components of a path: the segments of what follows its root marker. -/
def pathComponents (p : Str) : List Str :=
  segments (if p.head? = some path_separator then p.tail else p)

/-- Every `".."` of the list is in its leading run: no `".."` comes after an
element that is not `".."`. -/
def DotdotsLead (cs : List Str) : Prop :=
  cs.Pairwise (fun a b => b = dotdot → a = dotdot)

/-- The shape of the vector `parts` inside `normpath`: every element is
non-empty, is not `"."`, holds no separator, and every `".."` is in the leading
run. -/
def NormalParts (parts : List Str) : Prop :=
  (∀ t ∈ parts, t ≠ [] ∧ t ≠ dot ∧ path_separator ∉ t) ∧ DotdotsLead parts

/-- The parts that `normpath` recombines: the fold of the loop body over the kept
segments of the path. -/
def normParts (p : Str) : List Str := (keptSegments p).foldl normStep []

/-- The normalized-path invariant, as a predicate on a string: no two adjacent
separators; a trailing separator only on the lone separator; no `"."` segment
unless the string is `"."`; no empty component unless the string is empty or the
lone separator; and every `".."` component in the leading run of components. -/
def NormalizedPath (r : Str) : Prop :=
  ¬ [path_separator, path_separator] <:+: r ∧
  (r.getLast? = some path_separator → r = [path_separator]) ∧
  (∀ c ∈ segments r, c = dot → r = dot) ∧
  (∀ c ∈ pathComponents r, c = [] → r = [] ∨ r = [path_separator]) ∧
  DotdotsLead (pathComponents r)

/-- The separator that the specification of a join puts between two adjacent
components: one separator when the left one does not end with the separator and
the right one does not begin with it, nothing otherwise. -/
def glue (a b : Str) : Str :=
  if a.getLast? ≠ some path_separator ∧ b.head? ≠ some path_separator then [path_separator]
  else []

/-- The join of the specification: the components in order, every character
kept, with `glue` between each adjacent pair. -/
def joinSpec : List Str → Str
  | [] => []
  | [a] => a
  | a :: b :: rest => a ++ glue a b ++ joinSpec (b :: rest)

/-! ## `splitext`, `get_file_ext`, `remove_file_ext` -/

/-- The function `splitext`. -/
def splitext (path : Str) : Str × Str :=
  match find_last_of path '.' with
  | none => (path, [])
  | some last_dot => if last_dot = 0 then (path, []) else (path.take last_dot, path.drop last_dot)

/-- The function `get_file_ext`: `ext.empty() ? ext : ext.substr(1)`. -/
def get_file_ext (fpath : Str) : Str :=
  let ext := (splitext fpath).2
  if ext = [] then ext else ext.drop 1

/-- The function `remove_file_ext`. -/
def remove_file_ext (filename : Str) : Str := (splitext filename).1

/-- An ordinary path component: not empty, free of separators, neither `"."` nor
`".."`. -/
def Ordinary (c : Str) : Prop :=
  c ≠ [] ∧ path_separator ∉ c ∧ c ≠ dot ∧ c ≠ dotdot

/-! ## A model directory tree and `path_walk` -/

/-- What stands at a path of the model file system: a regular file (or any other
non-directory that is not a link), a symbolic link, or a directory. A directory
carries whether `opendir` succeeds on it, whether `lstat` succeeds on the paths
of its children (search permission), and the entries that `readdir` enumerates,
in enumeration order. The enumeration may hold the pseudo-entries `"."` and
`".."`; the node paired with such a name is never looked at. -/
inductive Node where
  | file : Node
  | link (target : Str) : Node
  | dir (openable searchable : Bool) (entries : List (Str × Node)) : Node

/-- The test `S_ISDIR(statbuf.st_mode)` after `lstat`: true on a directory only,
a symbolic link is not followed. -/
def Node.isDir : Node → Bool
  | .dir _ _ _ => true
  | _ => false

/-- The call `opendir` and the enumeration that `readdir` then gives: `none` when
`opendir` returns `NULL`. -/
def Node.opendir : Node → Option (List (Str × Node))
  | .dir true _ entries => some entries
  | _ => none

/-- Whether `lstat` succeeds on the children of the node. -/
def Node.searchable : Node → Bool
  | .dir _ s _ => s
  | _ => false

mutual
/-- The number of nodes of a tree. -/
def Node.size : Node → Nat
  | .file => 1
  | .link _ => 1
  | .dir _ _ entries => 1 + sizeEntries entries
/-- The number of nodes of the trees of an enumeration. -/
def sizeEntries : List (Str × Node) → Nat
  | [] => 0
  | e :: es => e.2.size + sizeEntries es
end

mutual
/-- Every directory of the tree can be opened. -/
def Node.allOpenable : Node → Bool
  | .file => true
  | .link _ => true
  | .dir openable _ entries => openable && allOpenableEntries entries
/-- Every directory of the trees of an enumeration can be opened. -/
def allOpenableEntries : List (Str × Node) → Bool
  | [] => true
  | e :: es => e.2.allOpenable && allOpenableEntries es
end

/-- One tuple of the result of `path_walk`: the path of a directory, the names of
its subdirectories, the names of its files. -/
abbrev WalkTuple := Str × List Str × List Str

/-- What one visit of a directory builds in its `readdir` loop: the paths pushed
onto `subdir_list`, each with what stands at it, and the vectors `dirnames` and
`filenames`. The vector `file_list` is written and never read, and is left out. -/
structure Scan where
  pushed : List (Str × Node)
  dirnames : List Str
  filenames : List Str

/-- The body of the `readdir` loop of `path_walk` for the entry `entry` of the
directory `subdir`; `lstatOk` tells whether `lstat(filepath)` succeeds. -/
def scanStep (subdir : Str) (lstatOk : Bool) (st : Scan) (entry : Str × Node) : Scan :=
  if entry.1 = dot ∨ entry.1 = dotdot then st
  else if lstatOk = false then st
  else if entry.2.isDir = true then
    ⟨st.pushed ++ [(subdir ++ path_separator :: entry.1, entry.2)],
      st.dirnames ++ [entry.1], st.filenames⟩
  else ⟨st.pushed, st.dirnames, st.filenames ++ [entry.1]⟩

/-- The loop `for (i = 0; i < subdir_list.size(); i++)` of `path_walk`. `pending`
is the part of `subdir_list` from index `i` on, each path paired with what
stands at it; `result` is the vector built so far. A directory that cannot be
opened is skipped by `continue`. The first argument bounds the number of
iterations. -/
def walkLoop : Nat → List (Str × Node) → List WalkTuple → List WalkTuple
  | 0, _, result => result
  | _ + 1, [], result => result
  | fuel + 1, (subdir, node) :: pending, result =>
    match node.opendir with
    | none => walkLoop fuel pending result
    | some entries =>
      let st := entries.foldl (scanStep subdir node.searchable) ⟨[], [], []⟩
      walkLoop fuel (pending ++ st.pushed) (result ++ [(subdir, st.dirnames, st.filenames)])

/-- The function `path_walk`, on the path `root_path` at which `root` stands. Each
iteration of the loop visits a different node of the tree, so `root.size`
iterations are enough. -/
def path_walk (root_path : Str) (root : Node) : List WalkTuple :=
  walkLoop root.size [(root_path, root)] []

/-- The subdirectories that a visit of the directory `node` at `subdir` discovers,
each with its path: the enumerated entries, without `"."` and `".."`, that
`lstat` reports as directories. -/
def discovered (subdir : Str) (node : Node) : List (Str × Node) :=
  match node.opendir with
  | none => []
  | some entries =>
    if node.searchable = true then
      (entries.filter (fun e => decide (e.1 ≠ dot ∧ e.1 ≠ dotdot) && e.2.isDir)).map
        (fun e => (subdir ++ path_separator :: e.1, e.2))
    else []

/-- The directories at depth `d` below a directory, each with its path, in
enumeration order. -/
def dirsAtDepth : Nat → Str × Node → List (Str × Node)
  | 0, x => [x]
  | d + 1, x => (discovered x.1 x.2).flatMap (dirsAtDepth d)

/-- The paths that the subdirectory names of a result tuple stand for: the
path of the tuple, one separator, the name. -/
def subdirPaths (t : WalkTuple) : List Str :=
  t.2.1.map (fun name => t.1 ++ path_separator :: name)

/-- The root path of the test of `path_walk`. -/
def root_path_of_test : Str := "test_dir".toList

/-- The tree of the test of `path_walk`:
`test_dir/{sub3/{file4.txt}, sub1/{sub2/{file3.txt}, file2.txt}, file.txt}`, with
the pseudo-entries in the enumeration of the root. -/
def testTree : Node :=
  .dir true true [
    (".".toList, .file), ("..".toList, .file),
    ("sub3".toList, .dir true true [("file4.txt".toList, .file)]),
    ("file.txt".toList, .file),
    ("sub1".toList, .dir true true [
      ("sub2".toList, .dir true true [("file3.txt".toList, .file)]),
      ("file2.txt".toList, .file)])]

/-- The total number of nodes of the trees of a work list. -/
def qsize (q : List (Str × Node)) : Nat := (q.map (fun x => x.2.size)).sum

/-- Every element of a work list is a directory all of whose directories can be
opened. -/
def QueueOk (q : List (Str × Node)) : Prop :=
  ∀ x ∈ q, x.2.isDir = true ∧ x.2.allOpenable = true

/-- The subdirectory entries of an enumeration, as `path_walk` classifies them. -/
def subdirEntries (lstatOk : Bool) (entries : List (Str × Node)) : List (Str × Node) :=
  if lstatOk = true then
    entries.filter (fun e => decide (e.1 ≠ dot ∧ e.1 ≠ dotdot) && e.2.isDir)
  else []

/-- The directories of the first `n` depths below the directories of a work
list, depth by depth, each depth in the order of the list and of the
enumerations. -/
def levelOrder (n : Nat) (q : List (Str × Node)) : List (Str × Node) :=
  (List.range n).flatMap (fun d => q.flatMap (dirsAtDepth d))

/-- The tuple that one visit of the directory `node` at `subdir` records, from the
enumeration `entries` of the directory. -/
def visitTuple (subdir : Str) (node : Node) (entries : List (Str × Node)) : WalkTuple :=
  (subdir, (entries.foldl (scanStep subdir node.searchable) ⟨[], [], []⟩).dirnames,
    (entries.foldl (scanStep subdir node.searchable) ⟨[], [], []⟩).filenames)

/-- The children of an enumeration on which `path_walk` gets a type: the entries
other than `"."` and `".."`, when `lstat` succeeds on them. -/
def stattedEntries (lstatOk : Bool) (entries : List (Str × Node)) : List (Str × Node) :=
  if lstatOk = true then entries.filter (fun e => decide (e.1 ≠ dot ∧ e.1 ≠ dotdot)) else []

/-- The file entries of an enumeration, as `path_walk` classifies them: the
entries other than `"."` and `".."` on which `lstat` succeeds and reports
something else than a directory. -/
def fileEntries (lstatOk : Bool) (entries : List (Str × Node)) : List (Str × Node) :=
  if lstatOk = true then
    entries.filter (fun e => decide (e.1 ≠ dot ∧ e.1 ≠ dotdot) && !e.2.isDir)
  else []

/-- The tuple that a visit of a queued directory adds to the result: none when
the directory cannot be opened. -/
def visit (x : Str × Node) : Option WalkTuple :=
  match x.2.opendir with
  | none => none
  | some entries => some (visitTuple x.1 x.2 entries)

/-- The directories that `path_walk` queues, in the order of the queue: the root,
then the discovered subdirectories depth by depth. -/
def queued (root_path : Str) (root : Node) : List (Str × Node) :=
  levelOrder root.size [(root_path, root)]

/-- A tree whose root can be read but not searched: `lstat` fails on its
children `a` (a file) and `d` (a directory). -/
def unsearchableTree : Node :=
  .dir true false [("a".toList, .file), ("d".toList, .dir true true [])]

/-- A tree with a directory `locked` that cannot be opened, between two
directories that can. -/
def lockedTree : Node :=
  .dir true true [
    ("x".toList, .dir true true [("f".toList, .file)]),
    ("locked".toList, .dir false true [("g".toList, .file), ("h".toList, .dir true true [])]),
    ("y".toList, .dir true true [("z".toList, .dir true true [])])]

/-- A tree with a directory `real` and a symbolic link `lnk` to it. -/
def linkTree : Node :=
  .dir true true [
    ("real".toList, .dir true true [("f".toList, .file)]),
    ("lnk".toList, .link "real".toList)]

/-! ## `list_dir` and `walkdir` -/

/-- The names that `readdir` enumerates after `opendir` on what stands at a
path, in enumeration order: none when `opendir` returns `NULL`. -/
def Node.readdirNames (node : Node) : Option (List Str) :=
  node.opendir.map (fun entries => entries.map Prod.fst)

/-- The call `entries.clear()`. -/
def clear (_entries : List Str) : List Str := []

/-- The body of the `readdir` loop of `list_dir(path, entries)`. -/
def listStep (entries : List Str) (entry_name : Str) : List Str :=
  if entry_name ≠ dot ∧ entry_name ≠ dotdot then entries ++ [entry_name] else entries

/-- The function `list_dir(const std::string &path, std::vector<std::string>
&entries)`: `enumeration` is what `opendir` and `readdir` give on `path`,
`entries` the content of the vector at the call. The result is the returned
`bool` and the content of the vector at the return. -/
def list_dir (enumeration : Option (List Str)) (entries : List Str) : Bool × List Str :=
  match enumeration with
  | none => (false, clear entries)
  | some names => (true, names.foldl listStep (clear entries))

/-- The field `d_type` of a directory entry. -/
inductive DType where
  | reg : DType
  | dir : DType
  | lnk : DType
  deriving DecidableEq

/-- The `d_type` of an enumerated entry: `DT_DIR` for the pseudo-entries `"."`
and `".."` and for a directory, `DT_REG` for a file, `DT_LNK` for a symbolic
link. -/
def dtype (e : Str × Node) : DType :=
  if e.1 = dot ∨ e.1 = dotdot then DType.dir
  else match e.2 with
    | .file => DType.reg
    | .link _ => DType.lnk
    | .dir _ _ _ => DType.dir

/-- The call `scandir(path, &namelist, nullptr, versionsort)`: none when it
returns a negative count, else the enumerated entries, each with its `d_type`,
sorted by the comparison of `versionsort`; `versionLe a b` tells whether
`versionsort` puts the name `a` before or level with the name `b`. -/
def scandir (versionLe : Str → Str → Bool) (node : Node) : Option (List (Str × DType)) :=
  node.opendir.map (fun entries =>
    (entries.map (fun e => (e.1, dtype e))).insertionSort
      (fun a b => versionLe a.1 b.1 = true))

/-- The body of the loop of `list_dir(path, filter)`. -/
def filterStep (filter : Str → Bool) (filenames : List Str) (f : Str × DType) : List Str :=
  if f.2 = DType.reg ∧ filter f.1 = true then filenames ++ [f.1] else filenames

/-- The function `list_dir(const std::string &path, const std::function<bool(const
std::string &)> &filter)`. -/
def list_dir_filter (versionLe : Str → Str → Bool) (filter : Str → Bool) (node : Node) :
    List Str :=
  match scandir versionLe node with
  | none => []
  | some namelist => namelist.foldl (filterStep filter) []

/-- The order of `strcmp` on names: `versionsort` orders names without digits
this way. -/
def byteLe : Str → Str → Bool
  | [], _ => true
  | _ :: _, [] => false
  | a :: as, b :: bs =>
    if a.toNat < b.toNat then true
    else if b.toNat < a.toNat then false
    else byteLe as bs

/-- A directory that `readdir` enumerates as `b`, `sub`, `a`: two regular files
around a subdirectory. -/
def unsortedDir : Node :=
  .dir true true [("b".toList, .file), ("sub".toList, .dir true true []), ("a".toList, .file)]

mutual
/-- The function `walkdir`, on the path `path` at which the node stands. The last
argument is the sequence of the calls of `cb` made so far, the result the
sequence after the call: `cb(filepath)` appends `filepath`. -/
def walkdir : Str → Node → List Str → List Str
  | path, .dir true _ entries, calls => walkdirLoop path entries calls
  | _, _, calls => calls
/-- The `readdir` loop of `walkdir` on the entries not yet read. -/
def walkdirLoop : Str → List (Str × Node) → List Str → List Str
  | _, [], calls => calls
  | path, (filename, child) :: es, calls =>
    if filename ≠ dot ∧ filename ≠ dotdot then
      if dtype (filename, child) = DType.dir then
        walkdirLoop path es (walkdir (path ++ path_separator :: filename) child calls)
      else walkdirLoop path es (calls ++ [path ++ path_separator :: filename])
    else walkdirLoop path es calls
end

/-- The children of a directory that `walkdir` looks at, each with its path: the
enumerated entries other than `"."` and `".."`; none when the directory cannot
be opened. -/
def walkChildren (x : Str × Node) : List (Str × Node) :=
  match x.2.opendir with
  | none => []
  | some entries =>
    (entries.filter (fun e => decide (e.1 ≠ dot ∧ e.1 ≠ dotdot))).map
      (fun e => (x.1 ++ path_separator :: e.1, e.2))

/-- The directory children of a directory, each with its path. -/
def walkSubdirs (x : Str × Node) : List (Str × Node) :=
  (walkChildren x).filter (fun c => c.2.isDir)

/-- The paths of the non-directory children of a directory. -/
def walkFiles (x : Str × Node) : List Str :=
  ((walkChildren x).filter (fun c => !c.2.isDir)).map Prod.fst

/-- The directories at depth `d` below a directory that `walkdir` can reach, each
with its path. -/
def subdirsAtDepth : Nat → Str × Node → List (Str × Node)
  | 0, x => [x]
  | d + 1, x => (walkSubdirs x).flatMap (subdirsAtDepth d)

/-- The paths of the non-directory children of the directories of the first `n`
depths below a directory, depth by depth. -/
def filesBelow (n : Nat) (x : Str × Node) : List Str :=
  (List.range n).flatMap (fun d => (subdirsAtDepth d x).flatMap walkFiles)

/-! ## The operating system as an interface; `makedirs` and `remove_path` -/

/-- The outcome of a call of `mkdir`: it returned 0; it failed with `errno ==
EEXIST`; it failed with another `errno`. -/
inductive MkdirResult where
  | created : MkdirResult
  | eexist : MkdirResult
  | error : MkdirResult
  deriving DecidableEq

/-- What a successful `stat` reports of a path: `S_ISDIR`, `S_ISREG`, or
neither. -/
inductive StatKind where
  | directory : StatKind
  | regular : StatKind
  | other : StatKind
  deriving DecidableEq

/-- The system calls that `fs_utils.hpp` makes, on a state `σ` of the file
system. `stat` is none when the call fails; `readdir` is the sequence of names
that `readdir` gives after `opendir`, none when `opendir` fails; `mkdir` gives
its outcome and the new state; `rmdir` and `unlink` tell whether they returned 0
and give the new state. -/
structure OS (σ : Type) where
  stat : σ → Str → Option StatKind
  readdir : σ → Str → Option (List Str)
  mkdir : σ → Str → MkdirResult × σ
  rmdir : σ → Str → Bool × σ
  unlink : σ → Str → Bool × σ

/-- The function `path_exists`: true exactly when `stat` succeeds. -/
def path_exists {σ : Type} (os : OS σ) (s : σ) (path : Str) : Bool :=
  match os.stat s path with
  | some _ => true
  | none => false

/-- The function `is_dir`. -/
def is_dir {σ : Type} (os : OS σ) (s : σ) (path : Str) : Bool :=
  match os.stat s path with
  | some StatKind.directory => true
  | _ => false

/-- The function `is_file`. -/
def is_file {σ : Type} (os : OS σ) (s : σ) (path : Str) : Bool :=
  match os.stat s path with
  | some StatKind.regular => true
  | _ => false

/-- The value of `s.find_first_of(c, start)`: the least index from `start` on
that holds `c`, or none for `npos`. -/
def find_first_of : Str → Char → Nat → Option Nat
  | [], _, _ => none
  | x :: xs, c, 0 =>
    if x = c then some 0
    else match find_first_of xs c 0 with
      | some i => some (i + 1)
      | none => none
  | _ :: xs, c, start + 1 =>
    match find_first_of xs c start with
    | some i => some (i + 1)
    | none => none

/-- The `while` loop of `makedirs`, entered with the value `pos`. The result is
false with the state at that point when the loop body runs `return false`, true
with the state at the end of the loop otherwise. The first argument bounds the
number of iterations. The mode is handed to `mkdir` unchanged and is left out. -/
def makedirsLoop {σ : Type} (os : OS σ) (path : Str) : Nat → Nat → σ → Bool × σ
  | 0, _, s => (true, s)
  | fuel + 1, pos, s =>
    match find_first_of path path_separator (pos + 1) with
    | none => (true, s)
    | some pos2 =>
      if path.take pos2 = [] then makedirsLoop os path fuel pos2 s
      else
        match os.mkdir s (path.take pos2) with
        | (MkdirResult.error, s2) => (false, s2)
        | (_, s2) => makedirsLoop os path fuel pos2 s2

/-- The function `makedirs`: the returned `bool` and the state of the file system
at the return. Every iteration of the loop moves `pos` to a later index of the
path, so `path.length` iterations are enough. -/
def makedirs {σ : Type} (os : OS σ) (path : Str) (s : σ) : Bool × σ :=
  if path = [] then (false, s)
  else
    match makedirsLoop os path path.length 0 s with
    | (false, s2) => (false, s2)
    | (true, s2) =>
      match os.mkdir s2 path with
      | (MkdirResult.error, s3) => (false, s3)
      | (_, s3) => (true, s3)

/-- The loop of `remove_path` over the entries of the directory `path`; `remove`
is the recursive call. It stops with false at the first entry whose removal
returns false. -/
def removeEntries {σ : Type} (remove : Str → σ → Option (Bool × σ)) (path : Str) :
    List Str → σ → Option (Bool × σ)
  | [], s => some (true, s)
  | entry :: entries, s =>
    if entry ≠ dot ∧ entry ≠ dotdot then
      match remove (path_join [path, entry]) s with
      | none => none
      | some (false, s2) => some (false, s2)
      | some (true, s2) => removeEntries remove path entries s2
    else removeEntries remove path entries s

/-- The function `remove_path`: the returned `bool` and the state of the file
system at the return. The first argument bounds the depth of the recursion; the
result is none when that bound is reached. -/
def remove_path {σ : Type} (os : OS σ) : Nat → Str → σ → Option (Bool × σ)
  | 0, _, _ => none
  | depth + 1, path, s =>
    if is_dir os s path = true then
      match list_dir (os.readdir s path) [] with
      | (false, _) => some (false, s)
      | (true, entries) =>
        match removeEntries (remove_path os depth) path entries s with
        | none => none
        | some (false, s2) => some (false, s2)
        | some (true, s2) =>
          match os.rmdir s2 path with
          | (false, s3) => some (false, s3)
          | (true, s3) => some (true, s3)
    else
      match os.unlink s path with
      | (false, s2) => some (false, s2)
      | (true, s2) => some (true, s2)

/-- The prefixes of a path that end just before one of its separators, the first
character of the path left aside: `pre` is the part of the path already gone
through, the second argument the rest. -/
def prefixesBeforeSep (pre : Str) : Str → List Str
  | [] => []
  | c :: cs =>
    (if c = path_separator ∧ pre ≠ [] then [pre] else []) ++ prefixesBeforeSep (pre ++ [c]) cs

/-- The directories that `makedirs` is to create for a path, in order: each
prefix that ends just before a separator at an index of 1 or more, then the
path itself. -/
def mkdirTargets (path : Str) : List Str := prefixesBeforeSep [] path ++ [path]

/-- Calling `mkdir` on the targets in order, up to the first call that fails
with another error than `EEXIST`: false with the state after that call, or true
with the state after all the calls. -/
def attemptAll {σ : Type} (os : OS σ) : List Str → σ → Bool × σ
  | [], s => (true, s)
  | t :: ts, s =>
    match os.mkdir s t with
    | (MkdirResult.error, s2) => (false, s2)
    | (_, s2) => attemptAll os ts s2

/-- A call of the operating system that changes the file system. -/
inductive Call where
  | mkdir (path : Str) : Call
  | rmdir (path : Str) : Call
  | unlink (path : Str) : Call
  deriving DecidableEq

/-- An operating system that only records the calls made: the state is the list
of the calls of `mkdir`, `rmdir` and `unlink` so far, `outcome` fixes what each
call of `mkdir` returns, and `rmdir` and `unlink` return 0. -/
def recordingOS (outcome : Str → MkdirResult) : OS (List Call) where
  stat := fun _ _ => none
  readdir := fun _ _ => none
  mkdir := fun log path => (outcome path, log ++ [Call.mkdir path])
  rmdir := fun log path => (true, log ++ [Call.rmdir path])
  unlink := fun log path => (true, log ++ [Call.unlink path])

/-! ## A model file system -/

/-- A resolved path: its components from the root. -/
abbrev Key := List Str

/-- A state of the model file system: the entries below the root, each with its
resolved path and whether it is a directory (a regular file otherwise), in the
order in which a directory enumerates them. The root directory is always there
and is not listed. The model has no symbolic links. -/
abbrev ModelFS := List (Key × Bool)

/-- The resolution of a path string, with the root as the current directory:
the path is gone through component by component, empty and `"."` components are
skipped. A `".."` component is not resolved: no entry has one in its key. -/
def resolve (path : Str) : Key := keptSegments path

/-- The entry at a key: whether it is a directory, or none when nothing is
there. -/
def lookupKey : ModelFS → Key → Option Bool
  | [], _ => none
  | e :: es, k => if e.1 = k then some e.2 else lookupKey es k

/-- The names of the children of the directory at a key, in enumeration order. -/
def childNames (fs : ModelFS) (k : Key) : List Str :=
  (fs.map Prod.fst).filterMap (fun key => if key.dropLast = k then key.getLast? else none)

/-- The call `stat` of the model: it fails on the empty path and where nothing
stands. -/
def modelStat (fs : ModelFS) (path : Str) : Option StatKind :=
  if path = [] then none
  else if resolve path = [] then some StatKind.directory
  else
    match lookupKey fs (resolve path) with
    | some true => some StatKind.directory
    | some false => some StatKind.regular
    | none => none

/-- The calls `opendir` and `readdir` of the model: on a directory, the
pseudo-entries and then the names of the children. -/
def modelReaddir (fs : ModelFS) (path : Str) : Option (List Str) :=
  match modelStat fs path with
  | some StatKind.directory => some (dot :: dotdot :: childNames fs (resolve path))
  | _ => none

/-- The call `mkdir` of the model: `EEXIST` when something stands at the path,
success when the parent is a directory, another error otherwise and on a path
that is empty or goes through `".."`. -/
def modelMkdir (fs : ModelFS) (path : Str) : MkdirResult × ModelFS :=
  if path = [] then (MkdirResult.error, fs)
  else if resolve path = [] then (MkdirResult.eexist, fs)
  else if dotdot ∈ resolve path then (MkdirResult.error, fs)
  else
    match lookupKey fs (resolve path) with
    | some _ => (MkdirResult.eexist, fs)
    | none =>
      if (resolve path).dropLast = [] ∨ lookupKey fs (resolve path).dropLast = some true then
        (MkdirResult.created, fs ++ [(resolve path, true)])
      else (MkdirResult.error, fs)

/-- The call `rmdir` of the model: it succeeds on an empty directory other than
the root, unless `deny` refuses the key, and removes its entry. -/
def modelRmdir (deny : Key → Bool) (fs : ModelFS) (path : Str) : Bool × ModelFS :=
  if path ≠ [] ∧ lookupKey fs (resolve path) = some true ∧
      childNames fs (resolve path) = [] ∧ deny (resolve path) = false then
    (true, fs.filter (fun e => decide (e.1 ≠ resolve path)))
  else (false, fs)

/-- The call `unlink` of the model: it succeeds on a regular file, unless `deny`
refuses the key, and removes its entry. -/
def modelUnlink (deny : Key → Bool) (fs : ModelFS) (path : Str) : Bool × ModelFS :=
  if path ≠ [] ∧ lookupKey fs (resolve path) = some false ∧ deny (resolve path) = false then
    (true, fs.filter (fun e => decide (e.1 ≠ resolve path)))
  else (false, fs)

/-- The model file system as an operating system; `rmdir` and `unlink` fail on
the keys that `deny` refuses. -/
def modelOS (deny : Key → Bool) : OS ModelFS where
  stat := modelStat
  readdir := modelReaddir
  mkdir := modelMkdir
  rmdir := modelRmdir deny
  unlink := modelUnlink deny

/-- No key is refused: `unlink` and `rmdir` succeed on the existing entries. -/
def allowAll : Key → Bool := fun _ => false

/-- A state without the entry at a key and without everything beneath it. -/
def removeTree (k : Key) (fs : ModelFS) : ModelFS :=
  fs.filter (fun e => decide (¬ k <+: e.1))

/-- A well-formed state: no two entries have the same key, every component of a
key is an ordinary name, and every entry that is not directly below the root has
a directory as its parent. -/
def WellFormed (fs : ModelFS) : Prop :=
  (fs.map Prod.fst).Nodup ∧
  ∀ e ∈ fs, e.1 ≠ [] ∧ (∀ c ∈ e.1, Ordinary c) ∧
    (e.1.dropLast = [] ∨ (e.1.dropLast, true) ∈ fs)

/-- A directory `d` with the files `x`, `y`, `z`, and a file `w` beside it. -/
def siblingsFS : ModelFS :=
  [(["d".toList], true), (["d".toList, "x".toList], false), (["w".toList], false),
   (["d".toList, "y".toList], false), (["d".toList, "z".toList], false)]

/-! ## The directories of a tree -/

mutual
/-- The directories of the tree that stands at a path, each with its path, the
directory itself first and then those beneath it, enumeration by enumeration.
Symbolic links are not followed, and the pseudo-entries `"."` and `".."` are
not counted. -/
def treeDirs : Str → Node → List (Str × Node)
  | path, .dir openable searchable entries =>
    (path, .dir openable searchable entries) :: treeDirsEntries path entries
  | _, _ => []
/-- The directories of the trees of the enumeration of the directory at a
path. -/
def treeDirsEntries : Str → List (Str × Node) → List (Str × Node)
  | _, [] => []
  | path, (filename, child) :: es =>
    if filename ≠ dot ∧ filename ≠ dotdot then
      treeDirs (path ++ path_separator :: filename) child ++ treeDirsEntries path es
    else treeDirsEntries path es
end

/-- A tree whose symbolic links form cycles: `sub/back` points to the parent of
`sub`, `self` to the root itself, and `sub/twin` to `sub`. -/
def cycleTree : Node :=
  .dir true true [
    ("sub".toList, .dir true true [
      ("back".toList, .link "..".toList),
      ("twin".toList, .link "../sub".toList)]),
    ("self".toList, .link ".".toList)]

/-- What is left of `subdir_list` from index `i` on after the loop of
`path_walk` has run the given number of iterations, or has ended before that:
the loop ends when this part is empty (`i == subdir_list.size()`). -/
def walkPending : Nat → List (Str × Node) → List (Str × Node)
  | 0, pending => pending
  | _ + 1, [] => []
  | fuel + 1, (subdir, node) :: pending =>
    match node.opendir with
    | none => walkPending fuel pending
    | some entries =>
      walkPending fuel
        (pending ++ (entries.foldl (scanStep subdir node.searchable) ⟨[], [], []⟩).pushed)

end FsUtils

namespace PrintUtils

/-! ## The output operators of `common/print_utils.hpp`

The text written to `os` is modelled as a `List Char`. For an element `v`,
`render v` is the content of the string stream after `ss << v`, or none when
the stream is in a failed state after it; `addr i` is the text that `os`
writes for the address of the element at position `i` of the container. -/

/-- The text that one iteration writes for an element: `ss.str()` when `ss << v`
succeeds, the address of the element otherwise. -/
def elementText {T : Type} (render : T → Option (List Char)) (addr : Nat → List Char)
    (i : Nat) (v : T) : List Char :=
  match render v with
  | some s => s
  | none => addr i

/-- The loop of `operator<<` for `std::vector`, from index `i` on, over the
elements from that index on; `size` is `vec.size()`. The separator follows an
element unless `i == vec.size() - 1`. -/
def vectorLoop {T : Type} (render : T → Option (List Char)) (addr : Nat → List Char)
    (size : Nat) : Nat → List T → List Char
  | _, [] => []
  | i, v :: rest =>
    elementText render addr i v ++ (if i ≠ size - 1 then ", ".toList else []) ++
      vectorLoop render addr size (i + 1) rest

/-- The function `operator<<` for `std::vector`: the text written to `os`. -/
def operatorLtLt_vector {T : Type} (render : T → Option (List Char)) (addr : Nat → List Char)
    (vec : List T) : List Char :=
  "[".toList ++ vectorLoop render addr vec.length 0 vec ++ "]".toList

/-- The loop of `operator<<` for `std::list`, over the elements from position
`i` on; `back` is `*list.rbegin()`. The separator follows an element unless
`v != *list.rbegin()` is false. -/
def listLoop {T : Type} [DecidableEq T] (render : T → Option (List Char))
    (addr : Nat → List Char) (back : T) : Nat → List T → List Char
  | _, [] => []
  | i, v :: rest =>
    elementText render addr i v ++ (if v ≠ back then ", ".toList else []) ++
      listLoop render addr back (i + 1) rest

/-- The function `operator<<` for `std::list`: the text written to `os`. On an
empty list the loop body never runs and `*list.rbegin()` is not evaluated. -/
def operatorLtLt_list {T : Type} [DecidableEq T] (render : T → Option (List Char))
    (addr : Nat → List Char) (list : List T) : List Char :=
  match list.getLast? with
  | none => "[".toList ++ "]".toList
  | some back => "[".toList ++ listLoop render addr back 0 list ++ "]".toList

/-- The text that `operator<<` writes for a `char`: the character itself. -/
def renderChar (c : Char) : Option (List Char) := some [c]

/-- An address text, for the elements whose `ss << v` fails. -/
def addrText (i : Nat) : List Char := "0x".toList ++ List.replicate (i + 1) 'f'

end PrintUtils

namespace FsUtils

/-! ## Lemmas on the splitting loop -/

theorem getlineParts_filter (cur s : Str) :
    (getlineParts cur s).filter (fun t => decide (t ≠ [])) =
      ((segments s).modifyHead (cur.reverse ++ ·)).filter (fun t => decide (t ≠ [])) := by
  induction s generalizing cur with
  | nil =>
    by_cases h : cur = []
    · simp [getlineParts, segments, h]
    · simp [getlineParts, segments, h]
  | cons c cs ih =>
    by_cases h : c = path_separator
    · have := ih []
      simp only [List.reverse_nil, List.nil_append] at this
      have hid : (fun x : Str => x) = id := rfl
      rw [hid, List.modifyHead_id] at this
      simp only [id] at this
      simp [getlineParts, segments, List.splitOn, h, List.filter_cons] at this ⊢
      simp [this]
    · have := ih (c :: cur)
      simp [getlineParts, segments, List.splitOn, h, List.modifyHead_modifyHead] at this ⊢
      rw [this]
      congr

theorem normStep_of_not_kept (parts : List Str) (t : Str) (h : kept t = false) :
    normStep parts t = parts := by
  have : t = [] ∨ t = dot := by
    simp only [kept, decide_eq_false_iff_not, not_and_or, not_not] at h
    exact h
  simp [normStep, this]

theorem foldl_normStep_filter (l : List Str) (acc : List Str) :
    l.foldl normStep acc = (l.filter kept).foldl normStep acc := by
  induction l generalizing acc with
  | nil => rfl
  | cons t ts ih =>
    cases h : kept t with
    | true => simp [List.filter_cons, h, ih]
    | false => simp [List.filter_cons, h, ih, normStep_of_not_kept]

theorem filter_kept_filter_nonempty (l : List Str) :
    (l.filter (fun t => decide (t ≠ []))).filter kept = l.filter kept := by
  rw [List.filter_filter]
  congr 1
  funext t
  by_cases h : t = [] <;> simp [kept, h]

/-- The parts that the loop of `normpath` keeps are the kept segments of the path. -/
theorem getlineParts_kept (p : Str) :
    (getlineParts [] p).filter kept = keptSegments p := by
  have h := getlineParts_filter [] p
  simp only [List.reverse_nil, List.nil_append] at h
  have hid : (fun x : Str => x) = id := rfl
  rw [hid, List.modifyHead_id] at h
  simp only [id] at h
  rw [← filter_kept_filter_nonempty, h, filter_kept_filter_nonempty]
  rfl

theorem mem_splitOnP_no_sep (P : Char → Bool) (xs : Str) :
    ∀ t ∈ xs.splitOnP P, ∀ x ∈ t, P x = false := by
  induction xs with
  | nil => simp
  | cons c cs ih =>
    rw [List.splitOnP_cons]
    by_cases h : P c = true
    · simp only [h, if_true, List.mem_cons]
      rintro t (rfl | ht)
      · simp
      · exact ih t ht
    · simp only [h]
      cases hs : List.splitOnP P cs with
      | nil => simp
      | cons a as =>
        rw [hs] at ih
        simp only [Bool.false_eq_true, if_false, List.modifyHead_cons, List.mem_cons]
        rintro t (rfl | ht)
        · intro x hx
          rcases List.mem_cons.1 hx with rfl | hx
          · simpa using h
          · exact ih a (List.mem_cons_self _ _) x hx
        · exact ih t (List.mem_cons_of_mem _ ht)

theorem mem_segments_no_sep (s t : Str) (ht : t ∈ segments s) : path_separator ∉ t := by
  intro hmem
  have := mem_splitOnP_no_sep (· == path_separator) s t ht path_separator hmem
  simp at this

theorem mem_keptSegments (p t : Str) (ht : t ∈ keptSegments p) :
    t ≠ [] ∧ t ≠ dot ∧ path_separator ∉ t := by
  simp only [keptSegments, List.mem_filter, kept, decide_eq_true_eq] at ht
  exact ⟨ht.2.1, ht.2.2, mem_segments_no_sep p t ht.1⟩

/-! ## The vector `parts` stays in normal shape -/

theorem normalParts_nil : NormalParts [] :=
  ⟨by simp, List.Pairwise.nil⟩

theorem allDotdot_of_last (parts : List Str) (h : DotdotsLead parts)
    (hl : parts.getLast? = some dotdot) : ∀ a ∈ parts, a = dotdot := by
  obtain ⟨init, rfl⟩ : ∃ init, parts = init ++ [dotdot] := by
    rcases List.eq_nil_or_concat parts with rfl | ⟨init, b, rfl⟩
    · simp at hl
    · have hb : b = dotdot := by simpa using hl
      exact ⟨init, by simp [hb]⟩
  intro a ha
  rcases List.mem_append.1 ha with ha | ha
  · exact (List.pairwise_append.1 h).2.2 a ha dotdot (by simp) rfl
  · simpa using ha

theorem normStep_normalParts (parts : List Str) (t : Str) (hp : NormalParts parts)
    (ht : path_separator ∉ t) : NormalParts (normStep parts t) := by
  unfold normStep
  split_ifs with h1 h2
  · exact hp
  · refine ⟨fun a ha => hp.1 a (List.mem_of_mem_dropLast ha), ?_⟩
    exact List.Pairwise.sublist (List.dropLast_sublist parts) hp.2
  · simp only [not_or] at h1
    refine ⟨?_, ?_⟩
    · intro a ha
      rcases List.mem_append.1 ha with ha | ha
      · exact hp.1 a ha
      · have : a = t := by simpa using ha
        subst this
        exact ⟨h1.1, h1.2, ht⟩
    · refine List.pairwise_append.2 ⟨hp.2, List.pairwise_singleton _ _, ?_⟩
      intro a ha b hb hbd
      have hbt : b = t := by simpa using hb
      subst hbt
      by_cases hnil : parts = []
      · subst hnil; simp at ha
      · have hl : parts.getLast? = some dotdot := by
          by_contra hne
          exact h2 ⟨hbd, hnil, hne⟩
        exact allDotdot_of_last parts hp.2 hl a ha

theorem foldl_normStep_normalParts (l : List Str) (acc : List Str) (hacc : NormalParts acc)
    (hl : ∀ t ∈ l, path_separator ∉ t) : NormalParts (l.foldl normStep acc) := by
  induction l generalizing acc with
  | nil => exact hacc
  | cons t ts ih =>
    exact ih _ (normStep_normalParts acc t hacc (hl t (List.mem_cons_self _ _)))
      (fun u hu => hl u (List.mem_cons_of_mem _ hu))

/-- When the kept parts already have every `".."` in the leading run, the loop
pushes each of them and pops none. -/
theorem foldl_normStep_of_lead (l acc : List Str)
    (hk : ∀ t ∈ l, t ≠ [] ∧ t ≠ dot) (hlead : DotdotsLead (acc ++ l)) :
    l.foldl normStep acc = acc ++ l := by
  induction l generalizing acc with
  | nil => simp
  | cons t ts ih =>
    have hstep : normStep acc t = acc ++ [t] := by
      unfold normStep
      have h1 := hk t (List.mem_cons_self _ _)
      rw [if_neg (by simp [h1.1, h1.2])]
      rw [if_neg]
      rintro ⟨hd, hne, hlast⟩
      obtain ⟨init, b, rfl⟩ : ∃ init b, acc = init ++ [b] := by
        rcases List.eq_nil_or_concat acc with rfl | ⟨init, b, rfl⟩
        · exact absurd rfl hne
        · exact ⟨init, b, by simp⟩
      have hb : b = dotdot :=
        (List.pairwise_append.1 hlead).2.2 b (by simp) t (List.mem_cons_self _ _) hd
      simp [hb] at hlast
    simp only [List.foldl_cons, hstep]
    rw [ih (acc ++ [t]) (fun u hu => hk u (List.mem_cons_of_mem _ hu)) (by simpa using hlead)]
    simp

/-! ## Recombination -/

theorem intercalate_single (a : Str) : [path_separator].intercalate [a] = a := by
  simp [List.intercalate]

theorem intercalate_cons_cons (a b : Str) (l : List Str) :
    [path_separator].intercalate (a :: b :: l) =
      a ++ path_separator :: [path_separator].intercalate (b :: l) := by
  simp [List.intercalate]

theorem foldl_recombine_acc (parts : List Str) (acc : Str) :
    parts.foldl (fun acc part => acc ++ (part ++ [path_separator])) acc =
      acc ++ recombine parts := by
  induction parts generalizing acc with
  | nil => simp [recombine]
  | cons t ts ih =>
    simp only [recombine, List.foldl_cons, List.nil_append]
    rw [ih, ih (t ++ [path_separator])]
    simp

theorem recombine_cons (t : Str) (ts : List Str) :
    recombine (t :: ts) = t ++ path_separator :: recombine ts := by
  simp only [recombine, List.foldl_cons, List.nil_append]
  rw [foldl_recombine_acc]
  simp [recombine]

theorem recombine_eq (parts : List Str) (h : parts ≠ []) :
    recombine parts = [path_separator].intercalate parts ++ [path_separator] := by
  induction parts with
  | nil => exact absurd rfl h
  | cons t ts ih =>
    cases ts with
    | nil => simp [recombine_cons, recombine, intercalate_single]
    | cons u us =>
      rw [recombine_cons, ih (by simp), intercalate_cons_cons]
      simp

/-- The shape of the separator-joined text of non-empty, separator-free parts:
it is non-empty, neither begins nor ends with a separator, and holds no two
adjacent separators. -/
theorem intercalate_shape (parts : List Str) (h : parts ≠ [])
    (hp : ∀ t ∈ parts, t ≠ [] ∧ path_separator ∉ t) :
    [path_separator].intercalate parts ≠ [] ∧
    ([path_separator].intercalate parts).head? ≠ some path_separator ∧
    ([path_separator].intercalate parts).getLast? ≠ some path_separator ∧
    ([path_separator].intercalate parts).Chain'
      (fun a b => ¬ (a = path_separator ∧ b = path_separator)) := by
  have single : ∀ t : Str, t ≠ [] → path_separator ∉ t →
      t.head? ≠ some path_separator ∧ t.getLast? ≠ some path_separator ∧
      t.Chain' (fun a b => ¬ (a = path_separator ∧ b = path_separator)) := by
    intro t _ hs
    refine ⟨?_, ?_, ?_⟩
    · intro hh; exact hs (List.mem_of_mem_head? hh)
    · intro hh; exact hs (List.mem_of_mem_getLast? hh)
    · apply List.Pairwise.chain'
      apply List.pairwise_of_forall_mem_list
      rintro a ha b _ ⟨rfl, _⟩
      exact hs ha
  induction parts with
  | nil => exact absurd rfl h
  | cons t ts ih =>
    have ht := hp t (List.mem_cons_self _ _)
    obtain ⟨s1, s2, s3⟩ := single t ht.1 ht.2
    cases ts with
    | nil =>
      rw [intercalate_single]
      exact ⟨ht.1, s1, s2, s3⟩
    | cons u us =>
      obtain ⟨i1, i2, i3, i4⟩ := ih (by simp) (fun v hv => hp v (List.mem_cons_of_mem _ hv))
      rw [intercalate_cons_cons]
      refine ⟨by simp, ?_, ?_, ?_⟩
      · cases t with
        | nil => exact absurd rfl ht.1
        | cons c cs => simpa using s1
      · rw [List.getLast?_append]
        cases hX : [path_separator].intercalate (u :: us) with
        | nil => exact absurd hX i1
        | cons c cs =>
          rw [hX] at i3
          rw [List.getLast?_cons_cons]
          cases hl : (c :: cs).getLast? with
          | none => simp at hl
          | some d =>
            rw [hl] at i3
            simpa using i3
      · rw [List.chain'_append]
        refine ⟨s3, ?_, ?_⟩
        · rw [List.chain'_cons']
          refine ⟨?_, i4⟩
          intro y hy hh
          exact i2 (by rw [hy, hh.2])
        · intro x hx y hy hh
          apply s2
          rw [hx, hh.1]

theorem stripTrailing_recombine (parts : List Str)
    (hp : ∀ t ∈ parts, t ≠ [] ∧ path_separator ∉ t) :
    stripTrailing (recombine parts) = [path_separator].intercalate parts := by
  by_cases h : parts = []
  · subst h
    simp [stripTrailing, recombine, List.intercalate]
  · obtain ⟨hne, _⟩ := intercalate_shape parts h hp
    rw [recombine_eq parts h]
    unfold stripTrailing
    rw [if_pos]
    · simp
    · refine ⟨?_, by simp⟩
      have : 0 < ([path_separator].intercalate parts).length := List.length_pos.2 hne
      simp only [List.length_append, List.length_singleton]
      omega

theorem normParts_normal (p : Str) : NormalParts (normParts p) :=
  foldl_normStep_normalParts _ _ normalParts_nil (fun t ht => (mem_keptSegments p t ht).2.2)

/-- The result of `normpath` outside its early return: the root marker of the
input followed by the separator-joined parts. -/
theorem normpath_eq (p : Str) (h1 : p ≠ []) (h2 : p ≠ dot) :
    normpath p = rootPrefix p ++ [path_separator].intercalate (normParts p) := by
  have hparts : (getlineParts [] p).foldl normStep [] = normParts p := by
    rw [foldl_normStep_filter, getlineParts_kept]; rfl
  have hn := normParts_normal p
  unfold normpath
  rw [if_neg (by simp [h1, h2])]
  simp only [hparts]
  rw [stripTrailing_recombine _ (fun t ht => ⟨(hn.1 t ht).1, (hn.1 t ht).2.2⟩)]
  have hlen : 0 < p.length := List.length_pos.2 h1
  by_cases hh : p.head? = some path_separator
  · simp [rootPrefix, hh, hlen]
  · simp [rootPrefix, hh]

/-! ## The normalized-path invariant -/

theorem segments_intercalate (parts : List Str) (h : parts ≠ [])
    (hp : ∀ t ∈ parts, path_separator ∉ t) :
    segments ([path_separator].intercalate parts) = parts :=
  List.splitOn_intercalate parts path_separator hp h

theorem segments_sep_cons (s : Str) : segments (path_separator :: s) = [] :: segments s := by
  simp [segments, List.splitOn]

theorem normalizedPath_of_parts (b : Bool) (parts : List Str) (hn : NormalParts parts) :
    NormalizedPath ((if b then [path_separator] else []) ++ [path_separator].intercalate parts) := by
  by_cases h : parts = []
  · subst h
    cases b
    · refine ⟨?_, ?_, ?_, ?_, ?_⟩ <;>
        simp [List.intercalate, segments, pathComponents, DotdotsLead, dot]
    · refine ⟨?_, ?_, ?_, ?_, ?_⟩
      · intro hi
        have := hi.length_le
        simp [List.intercalate] at this
      · simp [List.intercalate]
      · intro c hc hd
        have hs : segments [path_separator] = [[], []] := by
          rw [segments_sep_cons]; simp [segments]
        simp only [List.intercalate, List.intersperse, List.flatten, List.append_nil,
          if_true, hs] at hc
        subst hd
        simp [dot] at hc
      · simp [List.intercalate]
      · simp [List.intercalate, pathComponents, segments, DotdotsLead]
  · have hp : ∀ t ∈ parts, t ≠ [] ∧ path_separator ∉ t :=
      fun t ht => ⟨(hn.1 t ht).1, (hn.1 t ht).2.2⟩
    obtain ⟨x1, x2, x3, x4⟩ := intercalate_shape parts h hp
    have hseg := segments_intercalate parts h (fun t ht => (hp t ht).2)
    generalize hX : [path_separator].intercalate parts = X at x1 x2 x3 x4 hseg
    have hcomp : pathComponents ((if b then [path_separator] else []) ++ X) = parts := by
      cases b
      · simp [pathComponents, x2, hseg]
      · simp [pathComponents, hseg]
    have hchain : ((if b then [path_separator] else []) ++ X).Chain'
        (fun a b => ¬ (a = path_separator ∧ b = path_separator)) := by
      cases b
      · simpa using x4
      · simp only [if_true, List.singleton_append]
        rw [List.chain'_cons']
        exact ⟨fun y hy hh => x2 (by rw [hy, hh.2]), x4⟩
    have hlast : ((if b then [path_separator] else []) ++ X).getLast? = X.getLast? := by
      rw [List.getLast?_append]
      cases hl : X.getLast? with
      | none => exact absurd (List.getLast?_eq_none_iff.1 hl) x1
      | some c => simp
    refine ⟨?_, ?_, ?_, ?_, ?_⟩
    · intro hi
      have := List.Chain'.infix hchain hi
      simp at this
    · rw [hlast]
      intro hh
      exact absurd hh x3
    · intro c hc hd
      have hc2 : c = [] ∨ c ∈ parts := by
        cases b
        · right; simpa [hseg] using hc
        · simpa [segments_sep_cons, hseg] using hc
      rcases hc2 with rfl | hc2
      · simp [dot] at hd
      · exact absurd hd (hn.1 c hc2).2.1
    · rw [hcomp]
      intro c hc hd
      exact absurd hd (hn.1 c hc).1
    · rw [hcomp]
      exact hn.2

/-- The invariant discriminates: `"a//b"`, `"a/"`, `"a/./b"` and `"a/../b"` do
not satisfy it. -/
theorem normalizedPath_rejects :
    ¬ NormalizedPath "a//b".toList ∧ ¬ NormalizedPath "a/".toList ∧
    ¬ NormalizedPath "a/./b".toList ∧ ¬ NormalizedPath "a/../b".toList := by
  refine ⟨fun h => h.1 ⟨['a'], ['b'], rfl⟩, fun h => ?_, fun h => ?_, fun h => ?_⟩
  · have := h.2.1 (by decide)
    exact absurd this (by decide)
  · have := h.2.2.1 dot (by decide) rfl
    exact absurd this (by decide)
  · have := h.2.2.2.2
    unfold DotdotsLead at this
    exact absurd this (by decide)

theorem normpath_form (p : Str) :
    normpath p = dot ∨
      normpath p = rootPrefix p ++ [path_separator].intercalate (normParts p) := by
  by_cases h1 : p = []
  · left; simp [normpath, h1]
  · by_cases h2 : p = dot
    · left; simp [normpath, h2]
    · right; exact normpath_eq p h1 h2

/-- C2: for every path `p`, `normpath p` satisfies the normalized-path invariant:
it holds no two adjacent separators, it ends with a separator only when it is the
lone separator, none of its segments is `"."` unless it is `"."` itself, none of
its components is empty unless it is empty or the lone separator, and every
`".."` component is in the leading run of its components. -/
theorem normpath_normalized (p : Str) : NormalizedPath (normpath p) := by
  rcases normpath_form p with h | h
  · rw [h]
    refine ⟨?_, ?_, ?_, ?_, ?_⟩
    · intro hi
      have := hi.length_le
      simp [dot] at this
    · simp [dot, path_separator]
    · simp
    · simp [pathComponents, segments, dot, path_separator, List.splitOn]
    · simp [pathComponents, segments, dot, path_separator, List.splitOn, DotdotsLead]
  · rw [h]
    have := normalizedPath_of_parts (decide (p.head? = some path_separator)) (normParts p)
      (normParts_normal p)
    simpa [rootPrefix] using this

/-- C9: for every path `p`, `normpath p` begins with the separator exactly when
`p` begins with the separator. -/
theorem normpath_head_sep_iff (p : Str) :
    (normpath p).head? = some path_separator ↔ p.head? = some path_separator := by
  by_cases h1 : p = []
  · simp [normpath, h1, dot, path_separator]
  · by_cases h2 : p = dot
    · simp [normpath, h2, dot, path_separator]
    · rw [normpath_eq p h1 h2]
      by_cases hh : p.head? = some path_separator
      · simp [rootPrefix, hh]
      · simp only [rootPrefix, hh, if_false, List.nil_append, iff_false]
        by_cases hp : normParts p = []
        · simp [hp, List.intercalate]
        · have hn := normParts_normal p
          exact (intercalate_shape _ hp
            (fun t ht => ⟨(hn.1 t ht).1, (hn.1 t ht).2.2⟩)).2.1

/-! ## Paths whose kept segments need no cancelling -/

theorem keptSegments_ne_nil (p : Str) (h : keptSegments p ≠ []) : p ≠ [] ∧ p ≠ dot := by
  constructor
  · rintro rfl
    exact h (by simp [keptSegments, segments, kept])
  · rintro rfl
    exact h (by decide)

theorem normpath_of_lead (p : Str) (hne : keptSegments p ≠ [])
    (hord : DotdotsLead (keptSegments p)) :
    normpath p = rootPrefix p ++ [path_separator].intercalate (keptSegments p) := by
  obtain ⟨h1, h2⟩ := keptSegments_ne_nil p hne
  rw [normpath_eq p h1 h2]
  have : normParts p = [] ++ keptSegments p :=
    foldl_normStep_of_lead (keptSegments p) []
      (fun t ht => ⟨(mem_keptSegments p t ht).1, (mem_keptSegments p t ht).2.1⟩)
      (by simpa using hord)
  rw [this, List.nil_append]

theorem filter_kept_normalParts (cs : List Str) (hn : NormalParts cs) :
    cs.filter kept = cs := by
  rw [List.filter_eq_self]
  intro t ht
  simp [kept, (hn.1 t ht).1, (hn.1 t ht).2.1]

/-- A path in normal form, an optional root marker followed by separator-joined
normal parts, is a fixed point of `normpath`. -/
theorem normpath_fixed (b : Bool) (cs : List Str) (hne : cs ≠ []) (hn : NormalParts cs) :
    normpath ((if b then [path_separator] else []) ++ [path_separator].intercalate cs) =
      (if b then [path_separator] else []) ++ [path_separator].intercalate cs := by
  have hp : ∀ t ∈ cs, t ≠ [] ∧ path_separator ∉ t :=
    fun t ht => ⟨(hn.1 t ht).1, (hn.1 t ht).2.2⟩
  obtain ⟨_, x2, _, _⟩ := intercalate_shape cs hne hp
  have hseg := segments_intercalate cs hne (fun t ht => (hp t ht).2)
  have hk : keptSegments ((if b then [path_separator] else []) ++
      [path_separator].intercalate cs) = cs := by
    cases b
    · simp [keptSegments, hseg, filter_kept_normalParts cs hn]
    · simp only [if_true, List.singleton_append, keptSegments, segments_sep_cons, hseg]
      rw [List.filter_cons_of_neg (by simp [kept]), filter_kept_normalParts cs hn]
  have hr : rootPrefix ((if b then [path_separator] else []) ++
      [path_separator].intercalate cs) = (if b then [path_separator] else []) := by
    cases b
    · simp [rootPrefix, x2]
    · simp [rootPrefix]
  rw [normpath_of_lead _ (by rw [hk]; exact hne) (by rw [hk]; exact hn.2), hk, hr]

/-- Outside the inputs that `normpath` maps to the empty string, `normpath` is
idempotent. -/
theorem normpath_idempotent_of_ne_nil (p : Str) (h : normpath p ≠ []) :
    normpath (normpath p) = normpath p := by
  rcases normpath_form p with hd | hf
  · rw [hd]; decide
  · by_cases hp : normParts p = []
    · rw [hf, hp] at h ⊢
      by_cases hh : p.head? = some path_separator
      · simp only [rootPrefix, hh, if_true, List.intercalate, List.intersperse, List.flatten,
          List.append_nil]
        decide
      · simp [rootPrefix, hh, List.intercalate] at h
    · rw [hf]
      have := normpath_fixed (decide (p.head? = some path_separator)) (normParts p) hp
        (normParts_normal p)
      simpa [rootPrefix] using this

/-! ## `normpath`: the claims -/

/-- C1: `normpath` is not idempotent at `"./"`: `normpath "./"` is the empty
string, and `normpath` of the empty string is `"."`, so the second application
changes the result of the first. -/
theorem normpath_twice_dot_slash :
    normpath "./".toList = [] ∧
    normpath (normpath "./".toList) = ".".toList ∧
    normpath (normpath "./".toList) ≠ normpath "./".toList := by
  decide

/-- C3: `normpath` returns `"."` for the inputs `""` and `"."`, and the empty
string for the other inputs made only of `"."` segments, such as `"./"`, `"./."`
and `".//."`. -/
theorem normpath_all_dot_inputs :
    normpath "".toList = ".".toList ∧
    normpath ".".toList = ".".toList ∧
    normpath "./".toList = [] ∧
    normpath "./.".toList = [] ∧
    normpath ".//.".toList = [] := by
  decide

/-- C8, as the claim states it, fails: `normpath "/"` is not `"."`. -/
theorem normpath_root_ne_dot : normpath "/".toList ≠ ".".toList := by
  decide

/-- C8, amended: `normpath "/"` returns `"/"`; the root path is preserved. -/
theorem normpath_root : normpath "/".toList = "/".toList := by
  decide

/-- C10: for every path whose kept segments (its segments without the empty and
the `"."` ones) form a non-empty list in which every `".."` precedes every other
segment, `normpath` returns the kept segments joined by single separators, after
one separator exactly when the input began with one. In particular
`"foo//bar"` and `"./foo/./bar/."` give `"foo/bar"`, `"../../"` gives `"../.."`,
and a path already in normal form is returned unchanged. -/
theorem normpath_kept_segments :
    (∀ p : Str, keptSegments p ≠ [] → DotdotsLead (keptSegments p) →
      normpath p = rootPrefix p ++ [path_separator].intercalate (keptSegments p)) ∧
    normpath "foo//bar".toList = "foo/bar".toList ∧
    normpath "./foo/./bar/.".toList = "foo/bar".toList ∧
    normpath "../../".toList = "../..".toList ∧
    (∀ (b : Bool) (cs : List Str), cs ≠ [] → NormalParts cs →
      normpath ((if b then [path_separator] else []) ++ [path_separator].intercalate cs) =
        (if b then [path_separator] else []) ++ [path_separator].intercalate cs) :=
  ⟨normpath_of_lead, by decide, by decide, by decide, normpath_fixed⟩

/-- C10 at the path `"/..//./a/b/"`: its kept segments are `".."`, `"a"`, `"b"`
and the result is `"/../a/b"`. -/
theorem normpath_kept_segments_witness :
    keptSegments "/..//./a/b/".toList = ["..".toList, "a".toList, "b".toList] ∧
    normpath "/..//./a/b/".toList = "/../a/b".toList := by
  refine ⟨by decide, ?_⟩
  have h := normpath_kept_segments.1 "/..//./a/b/".toList (by decide)
    (by unfold DotdotsLead; decide)
  rw [h]
  decide

/-! ## `find_last_of` -/

theorem find_last_of_none (s : Str) (c : Char) (h : c ∉ s) : find_last_of s c = none := by
  induction s with
  | nil => rfl
  | cons x xs ih =>
    have hx : x ≠ c := fun e => h (by simp [e])
    have hxs : c ∉ xs := fun e => h (List.mem_cons_of_mem _ e)
    simp [find_last_of, ih hxs, hx]

theorem find_last_of_append (r l : Str) (c : Char) (h : c ∉ l) :
    find_last_of (r ++ c :: l) c = some r.length := by
  induction r with
  | nil => simp [find_last_of, find_last_of_none l c h]
  | cons x xs ih => simp [find_last_of, ih]

theorem find_last_of_spec (s : Str) (c : Char) :
    (find_last_of s c = none ∧ c ∉ s) ∨
      ∃ r l, s = r ++ c :: l ∧ c ∉ l ∧ find_last_of s c = some r.length := by
  induction s with
  | nil => left; simp [find_last_of]
  | cons x xs ih =>
    rcases ih with ⟨hn, hm⟩ | ⟨r, l, rfl, hl, _⟩
    · by_cases hx : x = c
      · right
        refine ⟨[], xs, by simp [hx], hm, ?_⟩
        subst hx
        exact find_last_of_append [] xs x hm
      · left
        refine ⟨by simp [find_last_of, hn, hx], ?_⟩
        simp only [List.mem_cons, not_or]
        exact ⟨fun e => hx e.symm, hm⟩
    · right
      exact ⟨x :: r, l, by simp, hl, find_last_of_append (x :: r) l c hl⟩

/-! ## `path_split`, `dirname` and `basename` at the last separator -/

theorem path_split_append (r l : Str) (h : path_separator ∉ l) :
    path_split (r ++ path_separator :: l) = (r, l) := by
  simp [path_split, find_last_of_append r l path_separator h]

theorem dirname_append (r l : Str) (h : path_separator ∉ l) (hlen : r ≠ [] ∨ l ≠ []) :
    dirname (r ++ path_separator :: l) = if r = [] then [path_separator] else r := by
  have h1 : r ++ path_separator :: l ≠ [] := by simp
  have h2 : (r ++ path_separator :: l).length ≠ 1 := by
    rcases hlen with hr | hl
    · have := List.length_pos.2 hr
      simp only [List.length_append, List.length_cons]; omega
    · have := List.length_pos.2 hl
      simp only [List.length_append, List.length_cons]; omega
  unfold dirname
  rw [if_neg h1, if_neg h2, find_last_of_append r l path_separator h]
  by_cases hr : r = []
  · simp [hr]
  · have : r.length ≠ 0 := fun e => hr (List.length_eq_zero.1 e)
    simp [hr, this]

theorem basename_append (r l : Str) (h : path_separator ∉ l) (hlen : r ≠ [] ∨ l ≠ []) :
    basename (r ++ path_separator :: l) = l := by
  have h1 : r ++ path_separator :: l ≠ [] := by simp
  have h2 : (r ++ path_separator :: l).length ≠ 1 := by
    rcases hlen with hr | hl
    · have := List.length_pos.2 hr
      simp only [List.length_append, List.length_cons]; omega
    · have := List.length_pos.2 hl
      simp only [List.length_append, List.length_cons]; omega
  unfold basename
  rw [if_neg h1, if_neg h2, find_last_of_append r l path_separator h]
  simp

/-- C4, as the claim states it, fails: `"/usr"` contains a separator and does not
end with one, yet `dirname` gives `"/"` and `basename` gives `"usr"`, whose
concatenation around a separator is `"//usr"`. -/
theorem dirname_basename_usr :
    path_separator ∈ "/usr".toList ∧
    "/usr".toList.getLast? ≠ some path_separator ∧
    dirname "/usr".toList = "/".toList ∧
    basename "/usr".toList = "usr".toList ∧
    dirname "/usr".toList ++ path_separator :: basename "/usr".toList ≠ "/usr".toList := by
  decide

/-- C4, amended: for every path `p` that contains a separator and does not end
with one, `dirname p`, one separator and `basename p` reconstruct `p` when `p`
holds a separator after its first character; when its only separator is its
first character, `dirname p` is the lone separator and `dirname p` followed by
`basename p` reconstructs `p`. -/
theorem dirname_basename_reconstruct (p : Str) (hsep : path_separator ∈ p)
    (hend : p.getLast? ≠ some path_separator) :
    if path_separator ∈ p.tail then dirname p ++ path_separator :: basename p = p
    else dirname p = [path_separator] ∧ dirname p ++ basename p = p := by
  rcases find_last_of_spec p path_separator with ⟨_, hm⟩ | ⟨r, l, rfl, hl, _⟩
  · exact absurd hsep hm
  · have hlne : l ≠ [] := by
      rintro rfl
      exact hend (by simp)
    rw [dirname_append r l hl (Or.inr hlne), basename_append r l hl (Or.inr hlne)]
    cases r with
    | nil => simp [hl]
    | cons x xs => simp

/-- C4 at the paths `"a/b/c"` and `"/usr"`. -/
theorem dirname_basename_reconstruct_witness :
    dirname "a/b/c".toList ++ path_separator :: basename "a/b/c".toList = "a/b/c".toList ∧
    dirname "/usr".toList = [path_separator] ∧
    dirname "/usr".toList ++ basename "/usr".toList = "/usr".toList := by
  have h1 := dirname_basename_reconstruct "a/b/c".toList (by decide) (by decide)
  have h2 := dirname_basename_reconstruct "/usr".toList (by decide) (by decide)
  rw [if_pos (by decide)] at h1
  rw [if_neg (by decide)] at h2
  exact ⟨h1, h2⟩

/-! ## `path_join` -/

theorem front_ne_sep_iff (d : Str) (hd : d ≠ []) :
    front d ≠ path_separator ↔ d.head? ≠ some path_separator := by
  cases d with
  | nil => exact absurd rfl hd
  | cons x xs => simp [front]

theorem front_ne_sep_of_head (d : Str) (h : d.head? ≠ some path_separator) :
    front d ≠ path_separator := by
  cases d with
  | nil => simp [front]; decide
  | cons x xs => simpa [front] using h

theorem getLast?_append_of_ne_nil (a b : Str) (hb : b ≠ []) :
    (a ++ b).getLast? = b.getLast? := by
  rw [List.getLast?_append]
  cases hl : b.getLast? with
  | none => exact absurd (List.getLast?_eq_none_iff.1 hl) hb
  | some c => simp

/-- One step of the loop of `path_join` when the text joined so far ends with the
non-empty component `c` and the next component `d` is not empty. -/
theorem joinStep_append (pre c d : Str) (hc : c ≠ []) (hd : d ≠ []) :
    joinStep (pre ++ c) d = (pre ++ c ++ glue c d) ++ d := by
  unfold joinStep glue
  rw [getLast?_append_of_ne_nil pre c hc]
  have : pre ++ c ≠ [] := by simp [hc]
  by_cases hg : c.getLast? ≠ some path_separator ∧ d.head? ≠ some path_separator
  · rw [if_pos ⟨this, hg.1, (front_ne_sep_iff d hd).2 hg.2⟩, if_pos hg]
  · rw [if_neg (fun h => hg ⟨h.2.1, (front_ne_sep_iff d hd).1 h.2.2⟩), if_neg hg]
    simp

theorem foldl_joinStep_nonempty (cs : List Str) (pre c : Str) (hc : c ≠ [])
    (hcs : ∀ d ∈ cs, d ≠ []) :
    cs.foldl joinStep (pre ++ c) = pre ++ joinSpec (c :: cs) := by
  induction cs generalizing pre c with
  | nil => simp [joinSpec]
  | cons d ds ih =>
    have hd := hcs d (List.mem_cons_self _ _)
    rw [List.foldl_cons, joinStep_append pre c d hc hd,
      ih (pre ++ c ++ glue c d) d hd (fun e he => hcs e (List.mem_cons_of_mem _ he))]
    simp [joinSpec]

theorem path_join_eq_joinSpec (cs : List Str) (hcs : ∀ c ∈ cs, c ≠ []) :
    path_join cs = joinSpec cs := by
  cases cs with
  | nil => rfl
  | cons c cs =>
    have h := foldl_joinStep_nonempty cs [] c (hcs c (List.mem_cons_self _ _))
      (fun d hd => hcs d (List.mem_cons_of_mem _ hd))
    simp only [List.nil_append] at h
    simpa [path_join, joinStep] using h

theorem joinSpec_eq_intercalate (cs : List Str)
    (hcs : ∀ c ∈ cs, c.head? ≠ some path_separator ∧ c.getLast? ≠ some path_separator) :
    joinSpec cs = [path_separator].intercalate cs := by
  induction cs with
  | nil => simp [joinSpec, List.intercalate]
  | cons c cs ih =>
    cases cs with
    | nil => simp [joinSpec, intercalate_single]
    | cons d ds =>
      have hc := hcs c (List.mem_cons_self _ _)
      have hd := hcs d (List.mem_cons_of_mem _ (List.mem_cons_self _ _))
      rw [intercalate_cons_cons, ← ih (fun e he => hcs e (List.mem_cons_of_mem _ he))]
      simp [joinSpec, glue, hc.2, hd.1]

/-- C5, as the claim states it, fails: `path_join {"/foo/", "/bar"}` is not
`"/foo/bar"`, that is, not `"/foo/"` followed by `"/bar"` without its leading
separator. -/
theorem path_join_foo_bar_ne :
    path_join ["/foo/".toList, "/bar".toList] ≠ "/foo/bar".toList ∧
    path_join ["/foo/".toList, "/bar".toList] ≠ "/foo/".toList ++ "/bar".toList.tail := by
  decide

/-- C5, amended: for every `a` that ends with the separator and every `b` that
begins with it, `path_join {a, b}` is `a` followed by the whole of `b`: no
separator is inserted and none is removed, so both separators stand at the
junction. -/
theorem path_join_both_separators (a b : Str) (ha : a.getLast? = some path_separator)
    (_hb : b.head? = some path_separator) : path_join [a, b] = a ++ b := by
  have hne : a ≠ [] := by
    rintro rfl
    simp at ha
  simp [path_join, joinStep, ha, hne]

/-- C5 at `"/foo/"` and `"/bar"`: the join is `"/foo//bar"`. -/
theorem path_join_both_separators_witness :
    path_join ["/foo/".toList, "/bar".toList] = "/foo//bar".toList :=
  path_join_both_separators "/foo/".toList "/bar".toList (by decide) (by decide)

/-- C6: for every list of non-empty components, `path_join` is the join of the
specification: the components in order, every character kept, with one separator
between an adjacent pair exactly when the left component does not end with the
separator and the right one does not begin with it. For non-empty components
that neither begin nor end with the separator this is the list of components
intercalated with single separators, as in `"foo/bar/baz"`. -/
theorem path_join_nonempty_components :
    (∀ cs : List Str, (∀ c ∈ cs, c ≠ []) → path_join cs = joinSpec cs) ∧
    (∀ cs : List Str,
      (∀ c ∈ cs, c ≠ [] ∧ c.head? ≠ some path_separator ∧ c.getLast? ≠ some path_separator) →
      path_join cs = [path_separator].intercalate cs) ∧
    path_join ["foo".toList, "bar".toList, "baz".toList] = "foo/bar/baz".toList := by
  refine ⟨path_join_eq_joinSpec, ?_, by decide⟩
  intro cs hcs
  rw [path_join_eq_joinSpec cs (fun c hc => (hcs c hc).1),
    joinSpec_eq_intercalate cs (fun c hc => (hcs c hc).2)]

/-- C6 at the components `"/foo"`, `"/bar/"`, `"baz/"`: the join of the
specification, and `path_join`, give `"/foo/bar/baz/"`. -/
theorem path_join_nonempty_components_witness :
    joinSpec ["/foo".toList, "/bar/".toList, "baz/".toList] = "/foo/bar/baz/".toList ∧
    path_join ["/foo".toList, "/bar/".toList, "baz/".toList] = "/foo/bar/baz/".toList := by
  refine ⟨by decide, ?_⟩
  rw [path_join_nonempty_components.1 _ (by decide)]
  decide

/-! ## `path_split` after `path_join` -/

theorem joinStep_ends (r y : Str) : ∃ pre, joinStep r y = pre ++ y := by
  unfold joinStep
  split_ifs
  · exact ⟨r ++ [path_separator], rfl⟩
  · exact ⟨r, rfl⟩

theorem path_join_concat (cs : List Str) (y : Str) :
    path_join (cs ++ [y]) = joinStep (path_join cs) y := by
  simp [path_join, List.foldl_append]

/-- Joining a last component that begins with no separator onto components whose
last one is not empty and ends with no separator puts one separator between. -/
theorem path_join_last (init : List Str) (y last : Str) (hy : y ≠ [])
    (hyl : y.getLast? ≠ some path_separator) (hl : last.head? ≠ some path_separator) :
    path_join (init ++ [y, last]) = path_join (init ++ [y]) ++ path_separator :: last := by
  have e : init ++ [y, last] = (init ++ [y]) ++ [last] := by simp
  rw [e, path_join_concat (init ++ [y]) last, path_join_concat init y]
  obtain ⟨pre, hpre⟩ := joinStep_ends (path_join init) y
  rw [hpre]
  unfold joinStep
  rw [if_pos]
  · simp
  · refine ⟨by simp [hy], ?_, front_ne_sep_of_head last hl⟩
    rw [getLast?_append_of_ne_nil pre y hy]
    exact hyl

/-- C7, as the claim states it, fails. No component of `["a", "b/c"]` begins or
ends with the separator, yet splitting its join gives `("a/b", "c")`, whose file
part is not the last component. No component of `["a", "", "b"]` begins or ends
with the separator, yet splitting its join gives `("a", "b")`, whose dir part is
not the join `"a/"` of the preceding components. -/
theorem path_split_join_fails :
    (∀ c ∈ ["a".toList, "b/c".toList],
      c.head? ≠ some path_separator ∧ c.getLast? ≠ some path_separator) ∧
    path_split (path_join ["a".toList, "b/c".toList]) = ("a/b".toList, "c".toList) ∧
    path_split (path_join ["a".toList, "b/c".toList]) ≠ ("a".toList, "b/c".toList) ∧
    (∀ c ∈ ["a".toList, "".toList, "b".toList],
      c.head? ≠ some path_separator ∧ c.getLast? ≠ some path_separator) ∧
    path_split (path_join ["a".toList, "".toList, "b".toList]) = ("a".toList, "b".toList) ∧
    path_split (path_join ["a".toList, "".toList, "b".toList]) ≠
      (path_join ["a".toList, "".toList], "b".toList) := by
  decide

/-- C7, amended: for every list of at least two components in which no component
begins or ends with the separator, the last component holds no separator and the
component before it is not empty, splitting the join gives the last component as
file part and the join of the preceding components as dir part; for a list of two
components `[a, b]` it gives `(a, b)`. -/
theorem path_split_join (init : List Str) (y last : Str)
    (h : ∀ c ∈ init ++ [y, last],
      c.head? ≠ some path_separator ∧ c.getLast? ≠ some path_separator)
    (hy : y ≠ []) (hlast : path_separator ∉ last) :
    path_split (path_join (init ++ [y, last])) = (path_join (init ++ [y]), last) ∧
    path_split (path_join [y, last]) = (y, last) := by
  have hyl : y.getLast? ≠ some path_separator := (h y (by simp)).2
  have hl : last.head? ≠ some path_separator := (h last (by simp)).1
  constructor
  · rw [path_join_last init y last hy hyl hl, path_split_append _ _ hlast]
  · have := path_join_last [] y last hy hyl hl
    simp only [List.nil_append] at this
    rw [this, path_split_append _ _ hlast]
    simp [path_join, joinStep]

/-- C7 at the components `"foo"`, `"bar"`, `"baz.txt"`. -/
theorem path_split_join_witness :
    path_split (path_join ["foo".toList, "bar".toList, "baz.txt".toList]) =
      ("foo/bar".toList, "baz.txt".toList) ∧
    path_split (path_join ["bar".toList, "baz.txt".toList]) =
      ("bar".toList, "baz.txt".toList) := by
  have h := path_split_join ["foo".toList] "bar".toList "baz.txt".toList
    (by decide) (by decide) (by decide)
  refine ⟨?_, h.2⟩
  have e : path_join (["foo".toList] ++ ["bar".toList]) = "foo/bar".toList := by decide
  rw [← e]
  exact h.1

/-! ## A `".."` after an ordinary component -/

theorem intercalate_concat (cs : List Str) (x : Str) (h : cs ≠ []) :
    [path_separator].intercalate (cs ++ [x]) =
      [path_separator].intercalate cs ++ path_separator :: x := by
  induction cs with
  | nil => exact absurd rfl h
  | cons c cs ih =>
    cases cs with
    | nil => simp [intercalate_cons_cons, intercalate_single]
    | cons d ds =>
      have := ih (by simp)
      simp only [List.cons_append] at this ⊢
      rw [intercalate_cons_cons, this, intercalate_cons_cons]
      simp

/-- The kept segments and the root marker of a root marker followed by
separator-joined parts that are non-empty, are not `"."` and hold no separator. -/
theorem keptSegments_intercalate (b : Bool) (cs : List Str) (hne : cs ≠ [])
    (hcs : ∀ t ∈ cs, t ≠ [] ∧ t ≠ dot ∧ path_separator ∉ t) :
    keptSegments ((if b then [path_separator] else []) ++ [path_separator].intercalate cs) = cs ∧
    rootPrefix ((if b then [path_separator] else []) ++ [path_separator].intercalate cs) =
      (if b then [path_separator] else []) := by
  have hp : ∀ t ∈ cs, t ≠ [] ∧ path_separator ∉ t :=
    fun t ht => ⟨(hcs t ht).1, (hcs t ht).2.2⟩
  obtain ⟨_, x2, _, _⟩ := intercalate_shape cs hne hp
  have hseg := segments_intercalate cs hne (fun t ht => (hp t ht).2)
  have hf : cs.filter kept = cs := by
    rw [List.filter_eq_self]
    intro t ht
    simp [kept, (hcs t ht).1, (hcs t ht).2.1]
  constructor
  · cases b
    · simp [keptSegments, hseg, hf]
    · simp only [if_true, List.singleton_append, keptSegments, segments_sep_cons, hseg]
      rw [List.filter_cons_of_neg (by simp [kept]), hf]
  · cases b
    · simp [rootPrefix, x2]
    · simp [rootPrefix]

theorem normParts_cancel (cs : List Str) (x : Str) (hcs : ∀ c ∈ x :: cs, Ordinary c) :
    (cs ++ [x, dotdot]).foldl normStep [] = cs := by
  have hx := hcs x (List.mem_cons_self _ _)
  have h1 : cs.foldl normStep [] = [] ++ cs := by
    apply foldl_normStep_of_lead
    · intro t ht
      have := hcs t (List.mem_cons_of_mem _ ht)
      exact ⟨this.1, this.2.2.1⟩
    · simp only [List.nil_append, DotdotsLead]
      apply List.pairwise_of_forall_mem_list
      intro a _ b hb hbd
      exact absurd hbd (hcs b (List.mem_cons_of_mem _ hb)).2.2.2
  rw [List.foldl_append, h1, List.nil_append]
  have h2 : normStep cs x = cs ++ [x] := by
    unfold normStep
    rw [if_neg (by simp [hx.1, hx.2.2.1]), if_neg (fun h => hx.2.2.2 h.1)]
  have h3 : normStep (cs ++ [x]) dotdot = cs := by
    unfold normStep
    rw [if_neg (by decide), if_pos]
    · simp
    · refine ⟨rfl, by simp, ?_⟩
      simp only [List.getLast?_append, List.getLast?_singleton, Option.or_some]
      simpa using hx.2.2.2
  simp [h2, h3]

theorem normpath_cancel (b : Bool) (cs : List Str) (x : Str) (hne : cs ≠ [])
    (hcs : ∀ c ∈ x :: cs, Ordinary c) :
    normpath (((if b then [path_separator] else []) ++ [path_separator].intercalate cs) ++
        path_separator :: x ++ path_separator :: dotdot) =
      (if b then [path_separator] else []) ++ [path_separator].intercalate cs := by
  have hall : ∀ t ∈ cs ++ [x, dotdot], t ≠ [] ∧ t ≠ dot ∧ path_separator ∉ t := by
    intro t ht
    rcases List.mem_append.1 ht with h | h
    · have := hcs t (List.mem_cons_of_mem _ h)
      exact ⟨this.1, this.2.2.1, this.2.1⟩
    · simp only [List.mem_cons, List.mem_singleton, List.not_mem_nil, or_false] at h
      rcases h with rfl | rfl
      · have := hcs t (List.mem_cons_self _ _)
        exact ⟨this.1, this.2.2.1, this.2.1⟩
      · decide
  have e : ((if b then [path_separator] else []) ++ [path_separator].intercalate cs) ++
        path_separator :: x ++ path_separator :: dotdot =
      (if b then [path_separator] else []) ++ [path_separator].intercalate (cs ++ [x, dotdot]) := by
    have e1 : cs ++ [x, dotdot] = (cs ++ [x]) ++ [dotdot] := by simp
    rw [e1, intercalate_concat (cs ++ [x]) dotdot (by simp), intercalate_concat cs x hne]
    simp
  obtain ⟨hk, hr⟩ := keptSegments_intercalate b (cs ++ [x, dotdot]) (by simp) hall
  rw [e]
  obtain ⟨n1, n2⟩ := keptSegments_ne_nil _ (by rw [hk]; simp)
  rw [normpath_eq _ n1 n2, hr]
  unfold normParts
  rw [hk, normParts_cancel cs x hcs]

/-- C11: a `".."` segment cancels the ordinary segment right before it. For every
path `p` made of one or more ordinary components joined by single separators,
with or without one leading separator, and every ordinary component `x`,
`normpath (p + sep + x + sep + "..") = p`; and
`normpath "./foo/../bar/./baz/../qux" = "bar/qux"`. -/
theorem normpath_dotdot_cancels :
    (∀ (b : Bool) (cs : List Str) (x : Str), cs ≠ [] → (∀ c ∈ x :: cs, Ordinary c) →
      normpath (((if b then [path_separator] else []) ++ [path_separator].intercalate cs) ++
          path_separator :: x ++ path_separator :: dotdot) =
        (if b then [path_separator] else []) ++ [path_separator].intercalate cs) ∧
    normpath "./foo/../bar/./baz/../qux".toList = "bar/qux".toList :=
  ⟨normpath_cancel, by decide⟩

/-- C11 at `p = "/usr/local"` and `x = "bin"`: `normpath "/usr/local/bin/.."` is
`"/usr/local"`. -/
theorem normpath_dotdot_cancels_witness :
    normpath "/usr/local/bin/..".toList = "/usr/local".toList := by
  have h := normpath_dotdot_cancels.1 true ["usr".toList, "local".toList] "bin".toList
    (by decide) (by unfold Ordinary; decide)
  have e1 : ((if true = true then [path_separator] else []) ++
      [path_separator].intercalate ["usr".toList, "local".toList]) ++
        path_separator :: "bin".toList ++ path_separator :: dotdot = "/usr/local/bin/..".toList := by
    decide
  have e2 : (if true = true then [path_separator] else []) ++
      [path_separator].intercalate ["usr".toList, "local".toList] = "/usr/local".toList := by
    decide
  rw [e1, e2] at h
  exact h

/-! ## `path_split` -/

theorem path_split_of_not_mem (p : Str) (h : path_separator ∉ p) : path_split p = ([], p) := by
  simp [path_split, find_last_of_none p path_separator h]

/-- C12: when the path holds no separator, `path_split` returns `("", path)`;
otherwise it returns `(dir, file)` with `dir + separator + file = path` and no
separator in `file`, so `file` is empty exactly when the path ends with the
separator, and `dir` is then the path without that final separator. -/
theorem path_split_last_separator (p : Str) :
    (path_separator ∉ p → path_split p = ([], p)) ∧
    (path_separator ∈ p →
      (path_split p).1 ++ path_separator :: (path_split p).2 = p ∧
      path_separator ∉ (path_split p).2 ∧
      ((path_split p).2 = [] ↔ p.getLast? = some path_separator) ∧
      (p.getLast? = some path_separator → (path_split p).1 = p.dropLast)) := by
  refine ⟨path_split_of_not_mem p, fun hmem => ?_⟩
  rcases find_last_of_spec p path_separator with ⟨_, hm⟩ | ⟨r, l, rfl, hl, _⟩
  · exact absurd hmem hm
  · rw [path_split_append r l hl]
    refine ⟨rfl, hl, ?_, ?_⟩
    · constructor
      · rintro rfl
        simp
      · intro hlast
        by_contra hne
        rw [show r ++ path_separator :: l = (r ++ [path_separator]) ++ l by simp,
          getLast?_append_of_ne_nil _ l hne] at hlast
        exact hl (List.mem_of_mem_getLast? hlast)
    · intro hlast
      have hnil : l = [] := by
        by_contra hne
        rw [show r ++ path_separator :: l = (r ++ [path_separator]) ++ l by simp,
          getLast?_append_of_ne_nil _ l hne] at hlast
        exact hl (List.mem_of_mem_getLast? hlast)
      subst hnil
      simp [List.dropLast_concat]

/-- C12 at the paths `"foo"`, `"foo/bar/baz.txt"` and `"/foo/bar/"`. -/
theorem path_split_last_separator_witness :
    path_split "foo".toList = ([], "foo".toList) ∧
    (path_split "foo/bar/baz.txt".toList).1 ++
      path_separator :: (path_split "foo/bar/baz.txt".toList).2 = "foo/bar/baz.txt".toList ∧
    (path_split "/foo/bar/".toList).1 = "/foo/bar/".toList.dropLast :=
  ⟨(path_split_last_separator "foo".toList).1 (by decide),
   ((path_split_last_separator "foo/bar/baz.txt".toList).2 (by decide)).1,
   ((path_split_last_separator "/foo/bar/".toList).2 (by decide)).2.2.2 (by decide)⟩

/-! ## `splitext` and the extension helpers -/

theorem splitext_of_not_mem_tail (p : Str) (h : '.' ∉ p.tail) : splitext p = (p, []) := by
  rcases find_last_of_spec p '.' with ⟨hn, _⟩ | ⟨r, l, rfl, _, hf⟩
  · simp [splitext, hn]
  · cases r with
    | nil =>
      simp only [List.nil_append, List.length_nil] at hf
      simp [splitext, hf]
    | cons x xs => simp at h

theorem splitext_append (root e : Str) (hroot : root ≠ []) (he : '.' ∉ e) :
    splitext (root ++ '.' :: e) = (root, '.' :: e) := by
  have : root.length ≠ 0 := fun h => hroot (List.length_eq_zero.1 h)
  simp [splitext, find_last_of_append root e '.' he, this]

theorem splitext_of_mem_tail (p : Str) (h : '.' ∈ p.tail) :
    ∃ root e, root ≠ [] ∧ '.' ∉ e ∧ p = root ++ '.' :: e ∧ splitext p = (root, '.' :: e) := by
  rcases find_last_of_spec p '.' with ⟨_, hm⟩ | ⟨r, l, rfl, hl, _⟩
  · exact absurd (List.mem_of_mem_tail h) hm
  · cases r with
    | nil => exact absurd (by simpa using h) hl
    | cons x xs =>
      exact ⟨x :: xs, l, by simp, hl, rfl, splitext_append (x :: xs) l (by simp) hl⟩

/-- The two shapes of the result of `splitext`. -/
theorem splitext_cases (p : Str) :
    splitext p = (p, []) ∨
      ∃ root e, root ≠ [] ∧ '.' ∉ e ∧ p = root ++ '.' :: e ∧ splitext p = (root, '.' :: e) := by
  by_cases h : '.' ∈ p.tail
  · exact Or.inr (splitext_of_mem_tail p h)
  · exact Or.inl (splitext_of_not_mem_tail p h)

/-- C13: `splitext` returns `(root, ext)` with `root + ext = path`. `ext` is empty
when the path has no `'.'` and when its last `'.'` is at index 0; otherwise `ext`
starts at the last `'.'`: it begins with `'.'` and holds no other `'.'`.
Splitting `root + ext` again gives `(root, ext)`, and any non-empty `root`
followed by a `'.'` and a dot-free suffix is split back into these two. -/
theorem splitext_spec :
    (∀ p : Str, (splitext p).1 ++ (splitext p).2 = p) ∧
    (∀ p : Str, '.' ∉ p → splitext p = (p, [])) ∧
    (∀ p : Str, p.head? = some '.' → '.' ∉ p.tail → splitext p = (p, [])) ∧
    (∀ p : Str, '.' ∈ p.tail →
      (splitext p).2.head? = some '.' ∧ '.' ∉ (splitext p).2.tail ∧
      (splitext p).1 = p.take (p.length - (splitext p).2.length)) ∧
    (∀ p : Str, splitext ((splitext p).1 ++ (splitext p).2) = splitext p) ∧
    (∀ root e : Str, root ≠ [] → '.' ∉ e → splitext (root ++ '.' :: e) = (root, '.' :: e)) := by
  have hcat : ∀ p : Str, (splitext p).1 ++ (splitext p).2 = p := by
    intro p
    rcases splitext_cases p with h | ⟨root, e, _, _, hp, h⟩
    · rw [h]; simp
    · rw [h]; exact hp.symm
  refine ⟨hcat, ?_, ?_, ?_, ?_, splitext_append⟩
  · intro p h
    exact splitext_of_not_mem_tail p (fun ht => h (List.mem_of_mem_tail ht))
  · intro p _ h
    exact splitext_of_not_mem_tail p h
  · intro p h
    obtain ⟨root, e, _, he, hp, hs⟩ := splitext_of_mem_tail p h
    rw [hs]
    refine ⟨rfl, he, ?_⟩
    subst hp
    simp
  · intro p
    rw [hcat p]

/-- C13 at the paths `"foo/bar/baz"`, `".bashrc"`, `"foo/bar/baz.txt"` and
`"test.tar.gz"`. -/
theorem splitext_spec_witness :
    splitext "foo/bar/baz".toList = ("foo/bar/baz".toList, []) ∧
    splitext ".bashrc".toList = (".bashrc".toList, []) ∧
    (splitext "test.tar.gz".toList).2.head? = some '.' ∧
    splitext ("foo/bar/baz".toList ++ '.' :: "txt".toList) =
      ("foo/bar/baz".toList, '.' :: "txt".toList) :=
  ⟨splitext_spec.2.1 _ (by decide), splitext_spec.2.2.1 _ (by decide) (by decide),
   (splitext_spec.2.2.2.1 "test.tar.gz".toList (by decide)).1,
   splitext_spec.2.2.2.2.2 _ _ (by decide) (by decide)⟩

/-- C17: `get_file_ext p` is the second part of `splitext p` without its leading
`'.'`, and empty when that part is empty; it never holds a `'.'`;
`remove_file_ext p` is the first part of `splitext p`. So `"test.tar.gz"` gives
`"gz"` and `"test.tar"`, and `".hidden"` gives `""` and `".hidden"`. -/
theorem file_ext_spec :
    (∀ p : Str, (splitext p).2 = [] → get_file_ext p = []) ∧
    (∀ p : Str, (splitext p).2 = [] ∨ (splitext p).2 = '.' :: get_file_ext p) ∧
    (∀ p : Str, '.' ∉ get_file_ext p) ∧
    (∀ p : Str, remove_file_ext p = (splitext p).1) ∧
    get_file_ext "test.tar.gz".toList = "gz".toList ∧
    remove_file_ext "test.tar.gz".toList = "test.tar".toList ∧
    get_file_ext ".hidden".toList = [] ∧
    remove_file_ext ".hidden".toList = ".hidden".toList := by
  refine ⟨?_, ?_, ?_, fun _ => rfl, by decide, by decide, by decide, by decide⟩
  · intro p h
    simp [get_file_ext, h]
  · intro p
    rcases splitext_cases p with h | ⟨root, e, _, _, _, h⟩
    · left; rw [h]
    · right; simp [get_file_ext, h]
  · intro p
    rcases splitext_cases p with h | ⟨root, e, _, he, _, h⟩
    · simp [get_file_ext, h]
    · simpa [get_file_ext, h] using he

/-- C17 at the path `"photo.jpeg"`, whose second `splitext` part is not empty. -/
theorem file_ext_spec_witness :
    (splitext "photo.jpeg".toList).2 = '.' :: get_file_ext "photo.jpeg".toList ∧
    get_file_ext "README".toList = [] :=
  ⟨(file_ext_spec.2.1 "photo.jpeg".toList).resolve_left (by decide),
   file_ext_spec.1 "README".toList (by decide)⟩

/-! ## `dirname` and `basename`: the cases -/

theorem dirname_of_not_mem (p : Str) (h : path_separator ∉ p) : dirname p = dot := by
  unfold dirname
  by_cases h1 : p = []
  · simp [h1]
  · rw [if_neg h1]
    by_cases h2 : p.length = 1
    · rw [if_pos h2, if_neg]
      intro hh
      exact h (List.mem_of_mem_head? hh)
    · rw [if_neg h2, find_last_of_none p path_separator h]

theorem dirname_sep_cons (l : Str) (h : path_separator ∉ l) :
    dirname (path_separator :: l) = [path_separator] := by
  cases l with
  | nil => decide
  | cons x xs =>
    have := dirname_append [] (x :: xs) h (Or.inr (by simp))
    simpa using this

theorem basename_of_not_mem (p : Str) (h : path_separator ∉ p) : basename p = p := by
  unfold basename
  by_cases h1 : p = []
  · simp [h1]
  · rw [if_neg h1]
    by_cases h2 : p.length = 1
    · have hh : ¬ p.head? = some path_separator := fun hh => h (List.mem_of_mem_head? hh)
      rw [if_pos h2, if_neg hh]
      match p, h2 with
      | [x], _ => rfl
    · rw [if_neg h2, find_last_of_none p path_separator h]

theorem basename_eq_path_split (p : Str) (h : p ≠ [path_separator]) :
    basename p = (path_split p).2 := by
  rcases find_last_of_spec p path_separator with ⟨_, hm⟩ | ⟨r, l, rfl, hl, _⟩
  · rw [basename_of_not_mem p hm, path_split_of_not_mem p hm]
  · have hlen : r ≠ [] ∨ l ≠ [] := by
      by_contra hc
      simp only [not_or, not_not] at hc
      exact h (by simp [hc.1, hc.2])
    rw [basename_append r l hl hlen, path_split_append r l hl]

/-- C14: `dirname p` is `"."` when `p` holds no separator, the empty path
included; it is the lone separator when the last separator of `p` is its first
character, as in `"/"` and `"/usr"`; otherwise it is the part of `p` before its
last separator. -/
theorem dirname_spec :
    (∀ p : Str, path_separator ∉ p → dirname p = dot) ∧
    (∀ l : Str, path_separator ∉ l → dirname (path_separator :: l) = [path_separator]) ∧
    (∀ r l : Str, r ≠ [] → path_separator ∉ l → dirname (r ++ path_separator :: l) = r) ∧
    dirname [] = dot ∧
    dirname "/".toList = "/".toList ∧
    dirname "/usr".toList = "/".toList := by
  refine ⟨dirname_of_not_mem, dirname_sep_cons, ?_, by decide, by decide, by decide⟩
  intro r l hr hl
  rw [dirname_append r l hl (Or.inl hr), if_neg hr]

/-- C14 at the paths `"file.txt"`, `"/file.txt"` and `"/usr/local/bin"`. -/
theorem dirname_spec_witness :
    dirname "file.txt".toList = dot ∧
    dirname (path_separator :: "file.txt".toList) = [path_separator] ∧
    dirname ("/usr/local".toList ++ path_separator :: "bin".toList) = "/usr/local".toList :=
  ⟨dirname_spec.1 _ (by decide), dirname_spec.2.1 _ (by decide),
   dirname_spec.2.2.1 _ _ (by decide) (by decide)⟩

/-- C15: `basename ""` is `""`, `basename` of the lone separator is the separator,
and for every other path `basename p` is the second part of `path_split p`: the
whole path when it holds no separator, the part after the last separator
otherwise. Hence `basename p` holds no separator unless `p` is the lone
separator. -/
theorem basename_spec :
    basename [] = [] ∧
    basename [path_separator] = [path_separator] ∧
    (∀ p : Str, p ≠ [path_separator] → basename p = (path_split p).2) ∧
    (∀ p : Str, path_separator ∉ p → basename p = p) ∧
    (∀ r l : Str, path_separator ∉ l → r ++ path_separator :: l ≠ [path_separator] →
      basename (r ++ path_separator :: l) = l) ∧
    (∀ p : Str, p ≠ [path_separator] → path_separator ∉ basename p) := by
  refine ⟨by decide, by decide, basename_eq_path_split, basename_of_not_mem, ?_, ?_⟩
  · intro r l hl hne
    rw [basename_eq_path_split _ hne, path_split_append r l hl]
  · intro p hne
    rw [basename_eq_path_split p hne]
    rcases find_last_of_spec p path_separator with ⟨_, hm⟩ | ⟨r, l, rfl, hl, _⟩
    · rw [path_split_of_not_mem p hm]; exact hm
    · rw [path_split_append r l hl]; exact hl

/-- C15 at the paths `"/usr/local/bin"`, `"file.txt"` and `"/usr/"`. -/
theorem basename_spec_witness :
    basename "/usr/local/bin".toList = (path_split "/usr/local/bin".toList).2 ∧
    basename "file.txt".toList = "file.txt".toList ∧
    basename ("/usr".toList ++ path_separator :: []) = [] ∧
    path_separator ∉ basename "/usr/local/bin".toList :=
  ⟨basename_spec.2.2.1 _ (by decide), basename_spec.2.2.2.1 _ (by decide),
   basename_spec.2.2.2.2.1 _ _ (by decide) (by decide),
   basename_spec.2.2.2.2.2 _ (by decide)⟩

/-- C16: a trailing separator makes the path its own parent with an empty file
part: for every non-empty path `p`, `dirname (p + separator) = p` and
`basename (p + separator) = ""`. -/
theorem trailing_separator_parent (p : Str) (h : p ≠ []) :
    dirname (p ++ [path_separator]) = p ∧ basename (p ++ [path_separator]) = [] := by
  constructor
  · rw [dirname_append p [] (by simp) (Or.inl h), if_neg h]
  · exact basename_append p [] (by simp) (Or.inl h)

/-- C16 at the path `"/usr/local"`: `dirname "/usr/local/"` is `"/usr/local"` and
`basename "/usr/local/"` is `""`. -/
theorem trailing_separator_parent_witness :
    dirname "/usr/local/".toList = "/usr/local".toList ∧ basename "/usr/local/".toList = [] :=
  trailing_separator_parent "/usr/local".toList (by decide)

/-! ## `path_join` with an empty component -/

theorem path_join_nil_left (x : Str) : path_join [[], x] = x := by
  simp [path_join, joinStep]

theorem path_join_nil_right (x : Str) :
    path_join [x, []] =
      if x = [] ∨ x.getLast? = some path_separator then x else x ++ [path_separator] := by
  have hf : front [] ≠ path_separator := by decide
  by_cases h : x = [] ∨ x.getLast? = some path_separator
  · rw [if_pos h]
    rcases h with h | h
    · subst h; decide
    · simp [path_join, joinStep, h]
  · rw [if_neg h]
    simp only [not_or] at h
    simp [path_join, joinStep, h.1, h.2, hf]

/-- C18: an empty right-hand component yields a trailing separator: for every
non-empty `a` that does not end with the separator, `path_join {a, ""}` is `a`
followed by one separator, as in `path_join("foo", "") = "foo/"`; and
`path_join {"", ""}` is `""`. -/
theorem path_join_empty_right :
    (∀ a : Str, a ≠ [] → a.getLast? ≠ some path_separator →
      path_join [a, []] = a ++ [path_separator]) ∧
    path_join ["foo".toList, []] = "foo/".toList ∧
    path_join [[], []] = ([] : Str) := by
  refine ⟨?_, by decide, by decide⟩
  intro a h1 h2
  rw [path_join_nil_right, if_neg (by simp [h1, h2])]

/-- C18 at the component `"/usr/lib"`. -/
theorem path_join_empty_right_witness :
    path_join ["/usr/lib".toList, []] = "/usr/lib/".toList :=
  path_join_empty_right.1 "/usr/lib".toList (by decide) (by decide)

/-- C19, as the claim states it, fails: `path_join {"foo", ""}` is `"foo/"`, not
`"foo"`, so the empty string is not a right identity. -/
theorem path_join_empty_not_right_identity :
    path_join ["foo".toList, []] = "foo/".toList ∧
    path_join ["foo".toList, []] ≠ "foo".toList := by
  decide

/-- C19, amended: the empty string is a left identity of the join,
`path_join {"", x} = x` for every `x`; on the right, `path_join {x, ""}` is `x`
when `x` is empty or ends with the separator, and `x` followed by one separator
otherwise. -/
theorem path_join_empty_identity :
    (∀ x : Str, path_join [[], x] = x) ∧
    (∀ x : Str, path_join [x, []] =
      if x = [] ∨ x.getLast? = some path_separator then x else x ++ [path_separator]) :=
  ⟨path_join_nil_left, path_join_nil_right⟩

/-! ## `path_walk` -/

theorem Node.size_pos (n : Node) : 0 < n.size := by
  cases n <;> simp [Node.size]

theorem sizeEntries_eq (es : List (Str × Node)) :
    sizeEntries es = (es.map (fun x => x.2.size)).sum := by
  induction es with
  | nil => rfl
  | cons e es ih => simp [sizeEntries, ih]

theorem qsize_cons (x : Str × Node) (q : List (Str × Node)) :
    qsize (x :: q) = x.2.size + qsize q := by
  simp [qsize]

theorem qsize_append (q s : List (Str × Node)) : qsize (q ++ s) = qsize q + qsize s := by
  simp [qsize]

theorem qsize_filter_le (f : Str × Node → Bool) (es : List (Str × Node)) :
    qsize (es.filter f) ≤ qsize es := by
  induction es with
  | nil => simp
  | cons e es ih =>
    by_cases h : f e = true
    · rw [List.filter_cons_of_pos h, qsize_cons, qsize_cons]; omega
    · rw [List.filter_cons_of_neg h, qsize_cons]; omega

theorem size_le_qsize (q : List (Str × Node)) (x : Str × Node) (h : x ∈ q) :
    x.2.size ≤ qsize q := by
  induction q with
  | nil => simp at h
  | cons y q ih =>
    rw [qsize_cons]
    rcases List.mem_cons.1 h with rfl | h
    · omega
    · have := ih h; omega

theorem discovered_eq (subdir : Str) (node : Node) (entries : List (Str × Node))
    (h : node.opendir = some entries) :
    discovered subdir node =
      (subdirEntries node.searchable entries).map
        (fun e => (subdir ++ path_separator :: e.1, e.2)) := by
  unfold discovered subdirEntries
  rw [h]
  by_cases hs : node.searchable = true <;> simp [hs]

theorem qsize_discovered_lt (subdir : Str) (node : Node) :
    qsize (discovered subdir node) < node.size := by
  cases h : node.opendir with
  | none => simp [discovered, h, qsize, Node.size_pos]
  | some entries =>
    rw [discovered_eq subdir node entries h]
    have h1 : qsize ((subdirEntries node.searchable entries).map
        (fun e => (subdir ++ path_separator :: e.1, e.2))) =
        qsize (subdirEntries node.searchable entries) := by
      simp [qsize, List.map_map, Function.comp_def]
    have h2 : qsize (subdirEntries node.searchable entries) ≤ qsize entries := by
      unfold subdirEntries
      by_cases hs : node.searchable = true
      · simp only [hs, if_true]; exact qsize_filter_le _ _
      · simp [hs, qsize]
    have h3 : node.size = 1 + qsize entries := by
      cases node with
      | file => simp [Node.opendir] at h
      | link t => simp [Node.opendir] at h
      | dir o sr es =>
        cases o with
        | false => simp [Node.opendir] at h
        | true =>
          simp only [Node.opendir, Option.some.injEq] at h
          subst h
          simp [Node.size, sizeEntries_eq, qsize]
    omega

theorem allOpenableEntries_mem (es : List (Str × Node)) (h : allOpenableEntries es = true)
    (e : Str × Node) (he : e ∈ es) : e.2.allOpenable = true := by
  induction es with
  | nil => simp at he
  | cons x es ih =>
    simp only [allOpenableEntries, Bool.and_eq_true] at h
    rcases List.mem_cons.1 he with rfl | he
    · exact h.1
    · exact ih h.2 he

theorem opendir_of_allOpenable (node : Node) (hd : node.isDir = true)
    (ho : node.allOpenable = true) :
    ∃ entries, node.opendir = some entries ∧ allOpenableEntries entries = true := by
  cases node with
  | file => simp [Node.isDir] at hd
  | link t => simp [Node.isDir] at hd
  | dir o sr es =>
    simp only [Node.allOpenable, Bool.and_eq_true] at ho
    obtain ⟨h1, h2⟩ := ho
    subst h1
    exact ⟨es, rfl, h2⟩

theorem queueOk_discovered (subdir : Str) (node : Node) (hd : node.isDir = true)
    (ho : node.allOpenable = true) : QueueOk (discovered subdir node) := by
  obtain ⟨entries, h, hall⟩ := opendir_of_allOpenable node hd ho
  rw [discovered_eq subdir node entries h]
  intro x hx
  obtain ⟨e, he, rfl⟩ := List.mem_map.1 hx
  unfold subdirEntries at he
  by_cases hs : node.searchable = true
  · simp only [hs, if_true, List.mem_filter, Bool.and_eq_true] at he
    exact ⟨he.2.2, allOpenableEntries_mem entries hall e he.1⟩
  · simp [hs] at he

/-- The `readdir` loop pushes the subdirectory entries and records their names. -/
theorem foldl_scanStep (subdir : Str) (ok : Bool) (entries : List (Str × Node)) (st : Scan) :
    (entries.foldl (scanStep subdir ok) st).pushed =
      st.pushed ++ (subdirEntries ok entries).map
        (fun e => (subdir ++ path_separator :: e.1, e.2)) ∧
    (entries.foldl (scanStep subdir ok) st).dirnames =
      st.dirnames ++ (subdirEntries ok entries).map Prod.fst := by
  induction entries generalizing st with
  | nil => cases ok <;> simp [subdirEntries]
  | cons e es ih =>
    rw [List.foldl_cons]
    obtain ⟨i1, i2⟩ := ih (scanStep subdir ok st e)
    rw [i1, i2]
    cases ok with
    | false =>
      have : scanStep subdir false st e = st := by
        unfold scanStep; split_ifs <;> simp_all
      simp [this, subdirEntries]
    | true =>
      have hpos : (decide (e.1 ≠ dot ∧ e.1 ≠ dotdot) && e.2.isDir) = true →
          subdirEntries true (e :: es) = e :: subdirEntries true es := by
        intro h
        simp only [subdirEntries, if_true]
        rw [List.filter_cons]
        exact if_pos h
      have hneg : ¬ (decide (e.1 ≠ dot ∧ e.1 ≠ dotdot) && e.2.isDir) = true →
          subdirEntries true (e :: es) = subdirEntries true es := by
        intro h
        simp only [subdirEntries, if_true]
        rw [List.filter_cons]
        exact if_neg h
      by_cases hn : e.1 = dot ∨ e.1 = dotdot
      · have hf : ¬ (decide (e.1 ≠ dot ∧ e.1 ≠ dotdot) && e.2.isDir) = true := by
          rcases hn with h | h <;> simp [h]
        have hst : scanStep subdir true st e = st := by
          unfold scanStep; rw [if_pos hn]
        rw [hneg hf, hst]
        exact ⟨rfl, rfl⟩
      · have hd : decide (e.1 ≠ dot ∧ e.1 ≠ dotdot) = true := by
          simp only [not_or] at hn
          simp [hn.1, hn.2]
        by_cases hdir : e.2.isDir = true
        · have hst : scanStep subdir true st e =
              ⟨st.pushed ++ [(subdir ++ path_separator :: e.1, e.2)],
                st.dirnames ++ [e.1], st.filenames⟩ := by
            unfold scanStep; rw [if_neg hn, if_neg (by simp), if_pos hdir]
          rw [hpos (by rw [hd, hdir]; rfl), hst]
          simp
        · have hst : scanStep subdir true st e =
              ⟨st.pushed, st.dirnames, st.filenames ++ [e.1]⟩ := by
            unfold scanStep; rw [if_neg hn, if_neg (by simp), if_neg hdir]
          rw [hneg (by rw [hd]; simpa using hdir), hst]
          exact ⟨rfl, rfl⟩

/-- One iteration of the loop of `path_walk` on a directory that can be opened:
the tuple of the directory is recorded and the discovered subdirectories are
queued behind the pending ones. -/
theorem walkLoop_cons_some (fuel : Nat) (subdir : Str) (node : Node)
    (pending : List (Str × Node)) (result : List WalkTuple) (entries : List (Str × Node))
    (h : node.opendir = some entries) :
    walkLoop (fuel + 1) ((subdir, node) :: pending) result =
      walkLoop fuel (pending ++ discovered subdir node)
        (result ++ [visitTuple subdir node entries]) := by
  obtain ⟨h1, _⟩ := foldl_scanStep subdir node.searchable entries ⟨[], [], []⟩
  simp only [List.nil_append] at h1
  simp only [walkLoop, h, visitTuple]
  rw [h1, discovered_eq subdir node entries h]

/-- The subdirectory names that a visit records are the names of the discovered
subdirectories. -/
theorem subdirPaths_visitTuple (subdir : Str) (node : Node) (entries : List (Str × Node))
    (h : node.opendir = some entries) :
    subdirPaths (visitTuple subdir node entries) = (discovered subdir node).map Prod.fst := by
  obtain ⟨_, h2⟩ := foldl_scanStep subdir node.searchable entries ⟨[], [], []⟩
  simp only [List.nil_append] at h2
  simp only [subdirPaths, visitTuple]
  rw [h2, discovered_eq subdir node entries h]
  simp [List.map_map, Function.comp_def]

theorem walkLoop_visit (fuel : Nat) (subdir : Str) (node : Node)
    (pending : List (Str × Node)) (result : List WalkTuple) (entries : List (Str × Node))
    (h : node.opendir = some entries) :
    ∃ t : WalkTuple, t.1 = subdir ∧
      subdirPaths t = (discovered subdir node).map Prod.fst ∧
      walkLoop (fuel + 1) ((subdir, node) :: pending) result =
        walkLoop fuel (pending ++ discovered subdir node) (result ++ [t]) :=
  ⟨visitTuple subdir node entries, rfl, subdirPaths_visitTuple subdir node entries h,
    walkLoop_cons_some fuel subdir node pending result entries h⟩

theorem queueOk_step (x : Str × Node) (pending : List (Str × Node))
    (h : QueueOk (x :: pending)) : QueueOk (pending ++ discovered x.1 x.2) := by
  intro y hy
  rcases List.mem_append.1 hy with hy | hy
  · exact h y (List.mem_cons_of_mem _ hy)
  · have hx := h x (List.mem_cons_self _ _)
    exact queueOk_discovered x.1 x.2 hx.1 hx.2 y hy

theorem qsize_step (x : Str × Node) (pending : List (Str × Node)) (fuel : Nat)
    (h : qsize (x :: pending) ≤ fuel + 1) :
    qsize (pending ++ discovered x.1 x.2) ≤ fuel := by
  have := qsize_discovered_lt x.1 x.2
  rw [qsize_cons] at h
  rw [qsize_append]
  omega

theorem qsize_eq_zero (q : List (Str × Node)) (h : qsize q ≤ 0) : q = [] := by
  cases q with
  | nil => rfl
  | cons x q =>
    rw [qsize_cons] at h
    have := Node.size_pos x.2
    omega

/-- The invariant of the loop of `path_walk`: the paths recorded so far followed
by the pending paths are the root path followed by the subdirectory paths of the
recorded tuples. It carries to the final result, where nothing is pending. -/
theorem walkLoop_paths (root_path : Str) (fuel : Nat) (q : List (Str × Node))
    (r : List WalkTuple) (hfuel : qsize q ≤ fuel) (hq : QueueOk q)
    (hinv : r.map Prod.fst ++ q.map Prod.fst = root_path :: r.flatMap subdirPaths) :
    (walkLoop fuel q r).map Prod.fst = root_path :: (walkLoop fuel q r).flatMap subdirPaths := by
  induction fuel generalizing q r with
  | zero =>
    have := qsize_eq_zero q hfuel
    subst this
    simpa [walkLoop] using hinv
  | succ fuel ih =>
    cases q with
    | nil => simpa [walkLoop] using hinv
    | cons x pending =>
      obtain ⟨subdir, node⟩ := x
      have hx := hq (subdir, node) (List.mem_cons_self _ _)
      obtain ⟨entries, hopen, _⟩ := opendir_of_allOpenable node hx.1 hx.2
      obtain ⟨t, ht1, ht2, hstep⟩ := walkLoop_visit fuel subdir node pending r entries hopen
      rw [hstep]
      apply ih _ _ (qsize_step (subdir, node) pending fuel hfuel)
        (queueOk_step (subdir, node) pending hq)
      simp only [List.map_append, List.map_cons, List.map_nil, List.flatMap_append,
        List.flatMap_cons, List.flatMap_nil, List.append_nil, ht1, ht2]
      simp only [List.map_cons] at hinv
      rw [← List.cons_append, ← hinv]
      simp

theorem dirsAtDepth_of_size_le (d : Nat) (x : Str × Node) (h : x.2.size ≤ d) :
    dirsAtDepth d x = [] := by
  induction d generalizing x with
  | zero =>
    have := Node.size_pos x.2
    omega
  | succ d ih =>
    simp only [dirsAtDepth, List.flatMap_eq_nil_iff]
    intro y hy
    apply ih
    have h1 := size_le_qsize _ y hy
    have h2 := qsize_discovered_lt x.1 x.2
    omega

theorem levelOrder_succ (n : Nat) (q : List (Str × Node)) :
    levelOrder (n + 1) q = levelOrder n q ++ q.flatMap (dirsAtDepth n) := by
  simp [levelOrder, List.range_succ]

/-- Visiting the head of a work list moves its subdirectories behind the pending
directories without changing the order depth by depth. -/
theorem levelOrder_shift (n : Nat) (x : Str × Node) (pending : List (Str × Node)) :
    levelOrder n (x :: pending) ++ dirsAtDepth n x =
      x :: levelOrder n (pending ++ discovered x.1 x.2) := by
  induction n with
  | zero => simp [levelOrder, dirsAtDepth]
  | succ n ih =>
    rw [levelOrder_succ, levelOrder_succ]
    have e : levelOrder n (x :: pending) ++ (x :: pending).flatMap (dirsAtDepth n) ++
        dirsAtDepth (n + 1) x =
        (levelOrder n (x :: pending) ++ dirsAtDepth n x) ++
          (pending.flatMap (dirsAtDepth n) ++ dirsAtDepth (n + 1) x) := by
      simp
    rw [e, ih]
    simp [dirsAtDepth]

theorem levelOrder_cons (n : Nat) (x : Str × Node) (pending : List (Str × Node))
    (h : x.2.size ≤ n) :
    levelOrder n (x :: pending) = x :: levelOrder n (pending ++ discovered x.1 x.2) := by
  have := levelOrder_shift n x pending
  rwa [dirsAtDepth_of_size_le n x h, List.append_nil] at this

/-- The loop of `path_walk` records the directories depth by depth. -/
theorem walkLoop_levelOrder (n fuel : Nat) (q : List (Str × Node)) (r : List WalkTuple)
    (hfuel : qsize q ≤ fuel) (hn : qsize q ≤ n) (hq : QueueOk q) :
    (walkLoop fuel q r).map Prod.fst = r.map Prod.fst ++ (levelOrder n q).map Prod.fst := by
  induction fuel generalizing q r with
  | zero =>
    have := qsize_eq_zero q hfuel
    subst this
    simp [walkLoop, levelOrder]
  | succ fuel ih =>
    cases q with
    | nil => simp [walkLoop, levelOrder]
    | cons x pending =>
      obtain ⟨subdir, node⟩ := x
      have hx := hq (subdir, node) (List.mem_cons_self _ _)
      obtain ⟨entries, hopen, _⟩ := opendir_of_allOpenable node hx.1 hx.2
      obtain ⟨t, ht1, _, hstep⟩ := walkLoop_visit fuel subdir node pending r entries hopen
      have hsz : node.size ≤ n := by
        rw [qsize_cons] at hn
        exact Nat.le_trans (Nat.le_add_right _ _) hn
      have hn2 : qsize (pending ++ discovered subdir node) ≤ n := by
        have h1 := qsize_discovered_lt subdir node
        rw [qsize_cons] at hn
        rw [qsize_append]
        simp only at hn
        omega
      rw [hstep, ih _ _ (qsize_step (subdir, node) pending fuel hfuel) hn2
        (queueOk_step (subdir, node) pending hq),
        levelOrder_cons n (subdir, node) pending hsz]
      simp [ht1]

/-- The bound on the iterations of the loop of `path_walk` is never what ends
it: with any two bounds that are at least the number of nodes of the pending
trees the loop gives the same result, on every tree. -/
theorem walkLoop_fuel_irrelevant (fuel fuel2 : Nat) (q : List (Str × Node))
    (r : List WalkTuple) (h1 : qsize q ≤ fuel) (h2 : qsize q ≤ fuel2) :
    walkLoop fuel q r = walkLoop fuel2 q r := by
  induction fuel generalizing fuel2 q r with
  | zero =>
    have := qsize_eq_zero q h1
    subst this
    cases fuel2 <;> simp [walkLoop]
  | succ fuel ih =>
    cases q with
    | nil => cases fuel2 <;> simp [walkLoop]
    | cons x pending =>
      obtain ⟨subdir, node⟩ := x
      cases fuel2 with
      | zero =>
        have := qsize_eq_zero _ h2
        simp at this
      | succ fuel2 =>
        have hp1 : qsize pending ≤ fuel := by
          rw [qsize_cons] at h1
          have := Node.size_pos node
          simp only at h1
          omega
        have hp2 : qsize pending ≤ fuel2 := by
          rw [qsize_cons] at h2
          have := Node.size_pos node
          simp only at h2
          omega
        cases hopen : node.opendir with
        | none =>
          simp only [walkLoop, hopen]
          exact ih fuel2 pending r hp1 hp2
        | some entries =>
          rw [walkLoop_cons_some fuel subdir node pending r entries hopen,
            walkLoop_cons_some fuel2 subdir node pending r entries hopen]
          exact ih fuel2 _ _ (qsize_step (subdir, node) pending fuel h1)
            (qsize_step (subdir, node) pending fuel2 h2)

/-- C20: over a directory tree in which every directory can be opened, the
directory paths of the result of `path_walk` are in breadth-first discovery
order. The first path is the root path and the remaining paths are, in order,
for each result tuple in sequence, the path of the tuple, one separator, and
each of its subdirectory names in enumeration order. Equivalently the paths are
the directories of depth 0, then of depth 1, and so on, so that a directory
comes after its parent and before every directory of a greater depth. -/
theorem path_walk_breadth_first (root_path : Str) (root : Node)
    (hdir : root.isDir = true) (hopen : root.allOpenable = true) :
    (path_walk root_path root).map Prod.fst =
      root_path :: (path_walk root_path root).flatMap subdirPaths ∧
    (path_walk root_path root).map Prod.fst =
      ((List.range root.size).flatMap (fun d => dirsAtDepth d (root_path, root))).map
        Prod.fst := by
  have hq : QueueOk [(root_path, root)] := by
    intro x hx
    simp only [List.mem_singleton] at hx
    subst hx
    exact ⟨hdir, hopen⟩
  have hsz : qsize [(root_path, root)] ≤ root.size := by simp [qsize]
  constructor
  · exact walkLoop_paths root_path root.size _ _ hsz hq (by simp)
  · have := walkLoop_levelOrder root.size root.size _ [] hsz hsz hq
    simpa [path_walk, levelOrder] using this

/-- C20 on the tree of the test of `path_walk`: the paths of the result are
`test_dir`, `test_dir/sub3`, `test_dir/sub1`, `test_dir/sub1/sub2`. -/
theorem path_walk_breadth_first_witness :
    root_path_of_test :: (path_walk root_path_of_test testTree).flatMap subdirPaths =
      ["test_dir".toList, "test_dir/sub3".toList, "test_dir/sub1".toList,
        "test_dir/sub1/sub2".toList] := by
  rw [← (path_walk_breadth_first root_path_of_test testTree (by decide) (by decide)).1]
  decide

theorem path_walk_testTree :
    path_walk "test_dir".toList testTree =
      [("test_dir".toList, ["sub3".toList, "sub1".toList], ["file.txt".toList]),
       ("test_dir/sub3".toList, [], ["file4.txt".toList]),
       ("test_dir/sub1".toList, ["sub2".toList], ["file2.txt".toList]),
       ("test_dir/sub1/sub2".toList, [], ["file3.txt".toList])] := by
  decide

/-! ## `path_walk`: the tuples and the skipped directories -/

/-- The `readdir` loop records the names of the file entries. -/
theorem foldl_scanStep_filenames (subdir : Str) (ok : Bool) (entries : List (Str × Node))
    (st : Scan) :
    (entries.foldl (scanStep subdir ok) st).filenames =
      st.filenames ++ (fileEntries ok entries).map Prod.fst := by
  induction entries generalizing st with
  | nil => cases ok <;> simp [fileEntries]
  | cons e es ih =>
    rw [List.foldl_cons, ih (scanStep subdir ok st e)]
    cases ok with
    | false =>
      have : scanStep subdir false st e = st := by
        unfold scanStep; split_ifs <;> simp_all
      simp [this, fileEntries]
    | true =>
      have hpos : (decide (e.1 ≠ dot ∧ e.1 ≠ dotdot) && !e.2.isDir) = true →
          fileEntries true (e :: es) = e :: fileEntries true es := by
        intro h
        simp only [fileEntries, if_true]
        rw [List.filter_cons]
        exact if_pos h
      have hneg : ¬ (decide (e.1 ≠ dot ∧ e.1 ≠ dotdot) && !e.2.isDir) = true →
          fileEntries true (e :: es) = fileEntries true es := by
        intro h
        simp only [fileEntries, if_true]
        rw [List.filter_cons]
        exact if_neg h
      by_cases hn : e.1 = dot ∨ e.1 = dotdot
      · have hf : ¬ (decide (e.1 ≠ dot ∧ e.1 ≠ dotdot) && !e.2.isDir) = true := by
          rcases hn with h | h <;> simp [h]
        have hst : scanStep subdir true st e = st := by
          unfold scanStep; rw [if_pos hn]
        rw [hneg hf, hst]
      · have hd : decide (e.1 ≠ dot ∧ e.1 ≠ dotdot) = true := by
          simp only [not_or] at hn
          simp [hn.1, hn.2]
        by_cases hdir : e.2.isDir = true
        · have hst : scanStep subdir true st e =
              ⟨st.pushed ++ [(subdir ++ path_separator :: e.1, e.2)],
                st.dirnames ++ [e.1], st.filenames⟩ := by
            unfold scanStep; rw [if_neg hn, if_neg (by simp), if_pos hdir]
          rw [hneg (by rw [hd, hdir]; simp), hst]
        · have hst : scanStep subdir true st e =
              ⟨st.pushed, st.dirnames, st.filenames ++ [e.1]⟩ := by
            unfold scanStep; rw [if_neg hn, if_neg (by simp), if_neg hdir]
          rw [hpos (by rw [hd]; simpa using hdir), hst]
          simp

/-- The tuple of a visit: the path, the names of the subdirectory entries, the
names of the file entries. -/
theorem visitTuple_eq (subdir : Str) (node : Node) (entries : List (Str × Node)) :
    visitTuple subdir node entries =
      (subdir, (subdirEntries node.searchable entries).map Prod.fst,
        (fileEntries node.searchable entries).map Prod.fst) := by
  obtain ⟨_, h2⟩ := foldl_scanStep subdir node.searchable entries ⟨[], [], []⟩
  have h3 := foldl_scanStep_filenames subdir node.searchable entries ⟨[], [], []⟩
  simp only [List.nil_append] at h2 h3
  simp only [visitTuple, h2, h3]

theorem subdirEntries_eq_filter (ok : Bool) (entries : List (Str × Node)) :
    subdirEntries ok entries = (stattedEntries ok entries).filter (fun e => e.2.isDir) := by
  unfold subdirEntries stattedEntries
  cases ok
  · simp
  · simp only [if_true, List.filter_filter]
    congr 1
    funext e
    exact Bool.and_comm _ _

theorem fileEntries_eq_filter (ok : Bool) (entries : List (Str × Node)) :
    fileEntries ok entries = (stattedEntries ok entries).filter (fun e => !e.2.isDir) := by
  unfold fileEntries stattedEntries
  cases ok
  · simp
  · simp only [if_true, List.filter_filter]
    congr 1
    funext e
    exact Bool.and_comm _ _

/-- One iteration of the loop of `path_walk` on something that cannot be opened:
nothing is recorded, nothing is queued. -/
theorem walkLoop_cons_none (fuel : Nat) (subdir : Str) (node : Node)
    (pending : List (Str × Node)) (result : List WalkTuple) (h : node.opendir = none) :
    walkLoop (fuel + 1) ((subdir, node) :: pending) result = walkLoop fuel pending result := by
  simp only [walkLoop, h]

theorem discovered_of_none (subdir : Str) (node : Node) (h : node.opendir = none) :
    discovered subdir node = [] := by
  simp [discovered, h]

/-- The loop of `path_walk` adds to the result the tuples of the queued
directories that can be opened, in the order of the queue. -/
theorem walkLoop_eq_filterMap (n fuel : Nat) (q : List (Str × Node)) (r : List WalkTuple)
    (hfuel : qsize q ≤ fuel) (hn : qsize q ≤ n) :
    walkLoop fuel q r = r ++ (levelOrder n q).filterMap visit := by
  induction fuel generalizing q r with
  | zero =>
    have := qsize_eq_zero q hfuel
    subst this
    simp [walkLoop, levelOrder]
  | succ fuel ih =>
    cases q with
    | nil => simp [walkLoop, levelOrder]
    | cons x pending =>
      obtain ⟨subdir, node⟩ := x
      have hsz : node.size ≤ n := by
        rw [qsize_cons] at hn
        exact Nat.le_trans (Nat.le_add_right _ _) hn
      have hn2 : qsize (pending ++ discovered subdir node) ≤ n := by
        have h1 := qsize_discovered_lt subdir node
        rw [qsize_cons] at hn
        rw [qsize_append]
        simp only at hn
        omega
      rw [levelOrder_cons n (subdir, node) pending hsz]
      cases hopen : node.opendir with
      | none =>
        have hp : qsize pending ≤ fuel := by
          rw [qsize_cons] at hfuel
          have := Node.size_pos node
          simp only at hfuel
          omega
        have hp2 : qsize pending ≤ n := by
          rw [qsize_cons] at hn
          simp only at hn
          omega
        rw [walkLoop_cons_none fuel subdir node pending r hopen, ih pending r hp hp2]
        simp [discovered_of_none subdir node hopen, visit, hopen]
      | some entries =>
        rw [walkLoop_cons_some fuel subdir node pending r entries hopen,
          ih _ _ (qsize_step (subdir, node) pending fuel hfuel) hn2]
        simp [visit, hopen]

theorem path_walk_eq_filterMap (root_path : Str) (root : Node) :
    path_walk root_path root = (queued root_path root).filterMap visit := by
  have hsz : qsize [(root_path, root)] ≤ root.size := by simp [qsize]
  have := walkLoop_eq_filterMap root.size root.size [(root_path, root)] [] hsz hsz
  simpa [path_walk, queued] using this

/-- Every tuple of the result of `path_walk` is the tuple of a queued directory
that can be opened. -/
theorem mem_path_walk (root_path : Str) (root : Node) (t : WalkTuple)
    (ht : t ∈ path_walk root_path root) :
    ∃ x ∈ queued root_path root, ∃ entries, x.2.opendir = some entries ∧
      t = (x.1, (subdirEntries x.2.searchable entries).map Prod.fst,
        (fileEntries x.2.searchable entries).map Prod.fst) := by
  rw [path_walk_eq_filterMap] at ht
  obtain ⟨x, hx, hv⟩ := List.mem_filterMap.1 ht
  refine ⟨x, hx, ?_⟩
  unfold visit at hv
  cases hopen : x.2.opendir with
  | none => simp [hopen] at hv
  | some entries =>
    simp only [hopen, Option.some.injEq] at hv
    exact ⟨entries, rfl, by rw [← hv, visitTuple_eq]⟩

theorem discovered_isDir (subdir : Str) (node : Node) (y : Str × Node)
    (hy : y ∈ discovered subdir node) : y.2.isDir = true := by
  cases hopen : node.opendir with
  | none => simp [discovered, hopen] at hy
  | some entries =>
    rw [discovered_eq subdir node entries hopen] at hy
    obtain ⟨e, he, rfl⟩ := List.mem_map.1 hy
    unfold subdirEntries at he
    by_cases hs : node.searchable = true
    · simp only [hs, if_true, List.mem_filter, Bool.and_eq_true] at he
      exact he.2.2
    · simp [hs] at he

theorem dirsAtDepth_succ_isDir (d : Nat) (x y : Str × Node) (hy : y ∈ dirsAtDepth (d + 1) x) :
    y.2.isDir = true := by
  induction d generalizing x with
  | zero =>
    simp only [dirsAtDepth, List.mem_flatMap, List.mem_singleton] at hy
    obtain ⟨w, hw, rfl⟩ := hy
    exact discovered_isDir x.1 x.2 y hw
  | succ d ih =>
    rw [dirsAtDepth] at hy
    obtain ⟨w, _, hw⟩ := List.mem_flatMap.1 hy
    exact ih w hw

/-- Every queued directory other than the root was reported as a directory by
`lstat`. -/
theorem queued_isDir (root_path : Str) (root : Node) (y : Str × Node)
    (hy : y ∈ queued root_path root) : y = (root_path, root) ∨ y.2.isDir = true := by
  simp only [queued, levelOrder, List.mem_flatMap, List.mem_range, List.mem_singleton] at hy
  obtain ⟨d, _, x, rfl, hy⟩ := hy
  cases d with
  | zero => left; simpa [dirsAtDepth] using hy
  | succ d => right; exact dirsAtDepth_succ_isDir d _ y hy

/-- C21, as the claim states it, fails. On a directory that can be read but not
searched, `lstat` fails on every child: the tuple of the directory lists neither
the child directory `d` among its subdirectories nor the child file `a` among
its files. -/
theorem path_walk_unsearchable :
    unsearchableTree.opendir =
      some [("a".toList, Node.file), ("d".toList, Node.dir true true [])] ∧
    path_walk "r".toList unsearchableTree = [("r".toList, [], [])] ∧
    (subdirEntries true [("a".toList, Node.file), ("d".toList, Node.dir true true [])]).map
      Prod.fst = ["d".toList] ∧
    (fileEntries true [("a".toList, Node.file), ("d".toList, Node.dir true true [])]).map
      Prod.fst = ["a".toList] :=
  ⟨rfl, by decide, by decide, by decide⟩

/-- C21, amended: every tuple `(dir, subdirs, files)` of the result of `path_walk`
is the tuple of a queued directory that can be opened, and lists the children of
that directory on which `lstat` succeeds, `"."` and `".."` excluded: `subdirs`
holds the names of those that `lstat` reports as directories, `files` the names
of all the others, each in enumeration order. So `subdirs` and `files` partition
these children, and when the enumerated names are distinct no name is in both.
A child on which `lstat` fails is in neither list. -/
theorem path_walk_tuple_children (root_path : Str) (root : Node) (t : WalkTuple)
    (ht : t ∈ path_walk root_path root) :
    ∃ x ∈ queued root_path root, ∃ entries, x.2.opendir = some entries ∧ t.1 = x.1 ∧
      t.2.1 = ((stattedEntries x.2.searchable entries).filter (fun e => e.2.isDir)).map
        Prod.fst ∧
      t.2.2 = ((stattedEntries x.2.searchable entries).filter (fun e => !e.2.isDir)).map
        Prod.fst ∧
      t.2.1.Sublist (entries.map Prod.fst) ∧ t.2.2.Sublist (entries.map Prod.fst) ∧
      (t.2.1 ++ t.2.2).Perm ((stattedEntries x.2.searchable entries).map Prod.fst) ∧
      ((entries.map Prod.fst).Nodup → List.Disjoint t.2.1 t.2.2) := by
  obtain ⟨x, hx, entries, hopen, rfl⟩ := mem_path_walk root_path root t ht
  have hsub : (stattedEntries x.2.searchable entries).Sublist entries := by
    unfold stattedEntries
    split_ifs
    · exact List.filter_sublist _
    · exact List.nil_sublist _
  refine ⟨x, hx, entries, hopen, rfl, ?_, ?_, ?_, ?_, ?_, ?_⟩
  · simp only [subdirEntries_eq_filter]
  · simp only [fileEntries_eq_filter]
  · simp only [subdirEntries_eq_filter]
    exact ((List.filter_sublist _).trans hsub).map _
  · simp only [fileEntries_eq_filter]
    exact ((List.filter_sublist _).trans hsub).map _
  · simp only [subdirEntries_eq_filter, fileEntries_eq_filter]
    rw [← List.map_append]
    exact (List.filter_append_perm _ _).map _
  · intro hnd a ha hb
    simp only [subdirEntries_eq_filter, List.mem_map, List.mem_filter] at ha
    simp only [fileEntries_eq_filter, List.mem_map, List.mem_filter] at hb
    obtain ⟨e1, ⟨h1, hd1⟩, rfl⟩ := ha
    obtain ⟨e2, ⟨h2, hd2⟩, he⟩ := hb
    have := List.inj_on_of_nodup_map hnd (hsub.subset h2) (hsub.subset h1) he
    subst this
    simp [hd1] at hd2

/-- C21 on the tree of the test of `path_walk`, at the tuple of `test_dir/sub1`. -/
theorem path_walk_tuple_children_witness :
    ∃ x ∈ queued root_path_of_test testTree, ∃ entries, x.2.opendir = some entries ∧
      "test_dir/sub1".toList = x.1 ∧
      ["sub2".toList] =
        ((stattedEntries x.2.searchable entries).filter (fun e => e.2.isDir)).map Prod.fst ∧
      ["file2.txt".toList] =
        ((stattedEntries x.2.searchable entries).filter (fun e => !e.2.isDir)).map Prod.fst ∧
      ["sub2".toList].Sublist (entries.map Prod.fst) ∧
      ["file2.txt".toList].Sublist (entries.map Prod.fst) ∧
      (["sub2".toList] ++ ["file2.txt".toList]).Perm
        ((stattedEntries x.2.searchable entries).map Prod.fst) ∧
      ((entries.map Prod.fst).Nodup → List.Disjoint ["sub2".toList] ["file2.txt".toList]) :=
  path_walk_tuple_children root_path_of_test testTree
    ("test_dir/sub1".toList, ["sub2".toList], ["file2.txt".toList]) (by decide)

/-- C22: a directory that cannot be opened is skipped by `path_walk`. The result
is the sequence of the queued directories in which every directory that cannot
be opened is left out and every other one is replaced by its tuple, so the
tuples keep the order of the queue; the step of the loop on a directory that
cannot be opened changes neither the result nor the queue behind it; and on a
root that cannot be opened the result is empty. -/
theorem path_walk_skips_unopenable :
    (∀ (root_path : Str) (root : Node),
      path_walk root_path root = (queued root_path root).filterMap visit) ∧
    (∀ x : Str × Node, x.2.opendir = none → visit x = none) ∧
    (∀ (x : Str × Node) (entries : List (Str × Node)), x.2.opendir = some entries →
      visit x = some (visitTuple x.1 x.2 entries)) ∧
    (∀ (fuel : Nat) (subdir : Str) (node : Node) (pending : List (Str × Node))
      (result : List WalkTuple), node.opendir = none →
      walkLoop (fuel + 1) ((subdir, node) :: pending) result = walkLoop fuel pending result) ∧
    (∀ (root_path : Str) (root : Node), root.opendir = none → path_walk root_path root = []) := by
  refine ⟨path_walk_eq_filterMap, ?_, ?_, walkLoop_cons_none, ?_⟩
  · intro x h
    simp [visit, h]
  · intro x entries h
    simp [visit, h]
  · intro root_path root h
    unfold path_walk
    obtain ⟨k, hk⟩ : ∃ k, root.size = k + 1 := ⟨root.size - 1, by have := root.size_pos; omega⟩
    rw [hk, walkLoop_cons_none k root_path root [] [] h]
    cases k <;> rfl

/-- C22 on a tree with a directory `locked` that cannot be opened: `r/locked` is
queued between `r/x` and `r/y`, gets no tuple, and its subdirectory is never
queued; a root that cannot be opened gives an empty result. -/
theorem path_walk_skips_unopenable_witness :
    (queued "r".toList lockedTree).map Prod.fst =
      ["r".toList, "r/x".toList, "r/locked".toList, "r/y".toList, "r/y/z".toList] ∧
    (queued "r".toList lockedTree).filterMap visit =
      [("r".toList, ["x".toList, "locked".toList, "y".toList], []),
       ("r/x".toList, [], ["f".toList]),
       ("r/y".toList, ["z".toList], []),
       ("r/y/z".toList, [], [])] ∧
    path_walk "r".toList (Node.dir false true [("f".toList, Node.file)]) = [] := by
  refine ⟨by decide, ?_, path_walk_skips_unopenable.2.2.2.2 _ _ rfl⟩
  rw [← path_walk_skips_unopenable.1]
  decide

/-- C29, as the claim states it, fails: in a directory `r` that holds a directory
`real` and a symbolic link `lnk` to it, `path_walk` lists `lnk` among the files
of `r`, not among its subdirectories, and never visits `r/lnk`. -/
theorem path_walk_link_to_dir :
    path_walk "r".toList linkTree =
      [("r".toList, ["real".toList], ["lnk".toList]),
       ("r/real".toList, [], ["f".toList])] ∧
    (∀ t ∈ path_walk "r".toList linkTree, "lnk".toList ∉ t.2.1 ∧ t.1 ≠ "r/lnk".toList) := by
  decide

/-- C29, amended: `path_walk` classifies a child by the type that `lstat` reports
for the child itself; a symbolic link is not followed. Every queued directory
other than the root is a real directory, every subdirectory name of a tuple is
the name of an entry that is a real directory, and a symbolic link, whatever its
target, is listed among the file names of the tuple of its parent whenever
`lstat` succeeds on it. -/
theorem path_walk_links_are_files (root_path : Str) (root : Node) :
    (∀ y ∈ queued root_path root, y = (root_path, root) ∨ y.2.isDir = true) ∧
    (∀ t ∈ path_walk root_path root, ∃ x ∈ queued root_path root, ∃ entries,
      x.2.opendir = some entries ∧ t.1 = x.1 ∧
      (∀ name ∈ t.2.1, ∃ e ∈ entries, e.1 = name ∧ e.2.isDir = true) ∧
      (∀ name target, (name, Node.link target) ∈ entries → name ≠ dot → name ≠ dotdot →
        x.2.searchable = true → name ∈ t.2.2)) := by
  refine ⟨queued_isDir root_path root, ?_⟩
  intro t ht
  obtain ⟨x, hx, entries, hopen, rfl⟩ := mem_path_walk root_path root t ht
  refine ⟨x, hx, entries, hopen, rfl, ?_, ?_⟩
  · intro name hname
    simp only [subdirEntries_eq_filter, List.mem_map, List.mem_filter] at hname
    obtain ⟨e, ⟨he, hd⟩, rfl⟩ := hname
    have hsub : e ∈ entries := by
      unfold stattedEntries at he
      split_ifs at he
      · exact (List.mem_filter.1 he).1
      · simp at he
    exact ⟨e, hsub, rfl, hd⟩
  · intro name target hmem h1 h2 hs
    simp only [fileEntries, hs, if_true, List.mem_map, List.mem_filter]
    exact ⟨(name, Node.link target), ⟨hmem, by simp [h1, h2, Node.isDir]⟩, rfl⟩

/-- C29 on the tree with the link `lnk`: the tuple of `r` lists `lnk` among its
files. -/
theorem path_walk_links_are_files_witness :
    ∃ x ∈ queued "r".toList linkTree, ∃ entries,
      x.2.opendir = some entries ∧ "r".toList = x.1 ∧
      (∀ name ∈ ["real".toList], ∃ e ∈ entries, e.1 = name ∧ e.2.isDir = true) ∧
      (∀ name target, (name, Node.link target) ∈ entries → name ≠ dot → name ≠ dotdot →
        x.2.searchable = true → name ∈ ["lnk".toList]) :=
  (path_walk_links_are_files "r".toList linkTree).2
    ("r".toList, ["real".toList], ["lnk".toList]) (by decide)

/-! ## `list_dir` -/

theorem foldl_listStep (names acc : List Str) :
    names.foldl listStep acc =
      acc ++ names.filter (fun n => decide (n ≠ dot ∧ n ≠ dotdot)) := by
  induction names generalizing acc with
  | nil => simp
  | cons n ns ih =>
    rw [List.foldl_cons, ih, List.filter_cons]
    by_cases h : n ≠ dot ∧ n ≠ dotdot
    · simp [listStep, h]
    · rw [if_neg (by simpa using h)]
      simp only [listStep, if_neg h]

/-- C27: `list_dir(path, entries)` returns false and leaves `entries` empty,
whatever it held before, when the directory cannot be opened; otherwise it
returns true and `entries` holds the enumerated names in enumeration order
without `"."` and `".."`, whatever it held before. -/
theorem list_dir_entries :
    (∀ before : List Str, list_dir none before = (false, [])) ∧
    (∀ (names before : List Str), list_dir (some names) before =
      (true, names.filter (fun n => decide (n ≠ dot ∧ n ≠ dotdot)))) ∧
    (∀ (node : Node) (before : List Str), node.opendir = none →
      list_dir node.readdirNames before = (false, [])) ∧
    (∀ (node : Node) (entries : List (Str × Node)) (before : List Str),
      node.opendir = some entries →
      list_dir node.readdirNames before =
        (true, (entries.map Prod.fst).filter (fun n => decide (n ≠ dot ∧ n ≠ dotdot)))) := by
  have h1 : ∀ before : List Str, list_dir none before = (false, []) := fun _ => rfl
  have h2 : ∀ (names before : List Str), list_dir (some names) before =
      (true, names.filter (fun n => decide (n ≠ dot ∧ n ≠ dotdot))) := by
    intro names before
    simp [list_dir, clear, foldl_listStep]
  refine ⟨h1, h2, ?_, ?_⟩
  · intro node before h
    simp [Node.readdirNames, h, h1]
  · intro node entries before h
    simp only [Node.readdirNames, h, Option.map_some', h2]

/-- C27 on the root of the tree of the test of `path_walk`, with a vector that
held two names before the call, and on a directory that cannot be opened. -/
theorem list_dir_entries_witness :
    list_dir testTree.readdirNames ["old".toList, "stale".toList] =
      (true, ["sub3".toList, "file.txt".toList, "sub1".toList]) ∧
    list_dir (Node.dir false true [("f".toList, Node.file)]).readdirNames ["old".toList] =
      (false, []) := by
  constructor
  · rw [list_dir_entries.2.2.2 testTree _ _ rfl]
    decide
  · exact list_dir_entries.2.2.1 _ _ rfl

theorem foldl_filterStep (filter : Str → Bool) (namelist : List (Str × DType))
    (acc : List Str) :
    namelist.foldl (filterStep filter) acc =
      acc ++ (namelist.filter (fun f => decide (f.2 = DType.reg) && filter f.1)).map
        Prod.fst := by
  induction namelist generalizing acc with
  | nil => simp
  | cons f fs ih =>
    rw [List.foldl_cons, ih, List.filter_cons]
    by_cases h : f.2 = DType.reg ∧ filter f.1 = true
    · simp [filterStep, h]
    · rw [if_neg (by simpa using h)]
      simp only [filterStep, if_neg h]

theorem list_dir_filter_eq (versionLe : Str → Str → Bool) (filter : Str → Bool) (node : Node)
    (entries : List (Str × Node)) (hopen : node.opendir = some entries) :
    list_dir_filter versionLe filter node =
      ((((entries.map (fun e => (e.1, dtype e))).insertionSort
        (fun a b => versionLe a.1 b.1 = true)).filter
          (fun f => decide (f.2 = DType.reg) && filter f.1)).map Prod.fst) := by
  simp [list_dir_filter, scandir, hopen, foldl_filterStep]

theorem byteLe_total (a b : Str) : byteLe a b = true ∨ byteLe b a = true := by
  induction a generalizing b with
  | nil => left; rfl
  | cons x xs ih =>
    cases b with
    | nil => right; rfl
    | cons y ys =>
      simp only [byteLe]
      by_cases h1 : x.toNat < y.toNat
      · left; simp [h1]
      · by_cases h2 : y.toNat < x.toNat
        · right; simp [h2]
        · simp only [h1, h2, if_false]
          exact ih ys

theorem byteLe_trans (a b c : Str) (h1 : byteLe a b = true) (h2 : byteLe b c = true) :
    byteLe a c = true := by
  induction a generalizing b c with
  | nil => rfl
  | cons x xs ih =>
    cases b with
    | nil => simp [byteLe] at h1
    | cons y ys =>
      cases c with
      | nil => simp [byteLe] at h2
      | cons z zs =>
        simp only [byteLe] at h1 h2 ⊢
        by_cases hxy : x.toNat < y.toNat
        · by_cases hyz : y.toNat < z.toNat
          · have : x.toNat < z.toNat := by omega
            simp [this]
          · by_cases hzy : z.toNat < y.toNat
            · simp [hyz, hzy] at h2
            · have : x.toNat < z.toNat := by omega
              simp [this]
        · by_cases hyx : y.toNat < x.toNat
          · simp [hxy, hyx] at h1
          · simp only [hxy, hyx, if_false] at h1
            by_cases hyz : y.toNat < z.toNat
            · have : x.toNat < z.toNat := by omega
              simp [this]
            · by_cases hzy : z.toNat < y.toNat
              · simp [hyz, hzy] at h2
              · simp only [hyz, hzy, if_false] at h2
                have e1 : ¬ x.toNat < z.toNat := by omega
                have e2 : ¬ z.toNat < x.toNat := by omega
                simp only [e1, e2, if_false]
                exact ih ys zs h1 h2

/-- C26, as the claim states it, fails: `readdir` enumerates the regular files of
the directory as `b`, `a`, which is the order of `list_dir(path, entries)`, and
`list_dir(path, filter)` with a filter that accepts every name returns them as
`a`, `b`. -/
theorem list_dir_filter_not_enumeration_order :
    list_dir unsortedDir.readdirNames [] =
      (true, ["b".toList, "sub".toList, "a".toList]) ∧
    list_dir_filter byteLe (fun _ => true) unsortedDir = ["a".toList, "b".toList] ∧
    list_dir_filter byteLe (fun _ => true) unsortedDir ≠ ["b".toList, "a".toList] := by
  decide

/-- C26, amended: `list_dir(path, filter)` returns the names of the regular-file
children of `path` that satisfy `filter`, each once, in the order in which
`versionsort` sorts the names, which is an order by name and not the
enumeration order of `list_dir(path, entries)`. Directories, the pseudo-entries
`"."` and `".."` and symbolic links are never included, whatever the filter
returns, and the result is empty when the directory cannot be scanned. -/
theorem list_dir_filter_spec (versionLe : Str → Str → Bool)
    (htotal : ∀ a b, versionLe a b = true ∨ versionLe b a = true)
    (htrans : ∀ a b c, versionLe a b = true → versionLe b c = true → versionLe a c = true) :
    (∀ (filter : Str → Bool) (node : Node), node.opendir = none →
      list_dir_filter versionLe filter node = []) ∧
    (∀ (filter : Str → Bool) (node : Node) (entries : List (Str × Node)),
      node.opendir = some entries →
      (list_dir_filter versionLe filter node).Perm
        ((entries.filter (fun e => decide (dtype e = DType.reg) && filter e.1)).map Prod.fst) ∧
      (list_dir_filter versionLe filter node).Pairwise (fun a b => versionLe a b = true) ∧
      (∀ name ∈ list_dir_filter versionLe filter node,
        ∃ e ∈ entries, e.1 = name ∧ e.2.isDir = false ∧ dtype e = DType.reg ∧
          filter name = true)) := by
  constructor
  · intro filter node h
    simp [list_dir_filter, scandir, h]
  · intro filter node entries hopen
    rw [list_dir_filter_eq versionLe filter node entries hopen]
    have hperm : List.Perm ((((entries.map (fun e => (e.1, dtype e))).insertionSort
        (fun a b => versionLe a.1 b.1 = true)).filter
          (fun f => decide (f.2 = DType.reg) && filter f.1)).map Prod.fst)
        ((entries.filter (fun e => decide (dtype e = DType.reg) && filter e.1)).map
          Prod.fst) := by
      have h1 := ((List.perm_insertionSort (fun a b : Str × DType => versionLe a.1 b.1 = true)
        (entries.map (fun e => (e.1, dtype e)))).filter
          (fun f => decide (f.2 = DType.reg) && filter f.1)).map Prod.fst
      refine h1.trans (List.Perm.of_eq ?_)
      rw [List.filter_map, List.map_map]
      rfl
    refine ⟨hperm, ?_, ?_⟩
    · haveI : IsTotal (Str × DType) (fun a b => versionLe a.1 b.1 = true) :=
        ⟨fun a b => htotal a.1 b.1⟩
      haveI : IsTrans (Str × DType) (fun a b => versionLe a.1 b.1 = true) :=
        ⟨fun a b c => htrans a.1 b.1 c.1⟩
      have hs := List.sorted_insertionSort (fun a b : Str × DType => versionLe a.1 b.1 = true)
        (entries.map (fun e => (e.1, dtype e)))
      have hf := List.Sorted.filter (fun f : Str × DType => decide (f.2 = DType.reg) && filter f.1) hs
      exact List.Pairwise.map Prod.fst (fun a b h => h) hf
    · intro name hname
      have := hperm.subset hname
      simp only [List.mem_map, List.mem_filter, Bool.and_eq_true, decide_eq_true_eq] at this
      obtain ⟨e, ⟨he, hreg, hfil⟩, rfl⟩ := this
      refine ⟨e, he, rfl, ?_, hreg, hfil⟩
      unfold dtype at hreg
      split_ifs at hreg
      cases hn : e.2 with
      | file => rfl
      | link t => rfl
      | dir o s es => simp [hn] at hreg

/-- C26 on the directory enumerated as `b`, `sub`, `a`, with the order of
`strcmp` and a filter that accepts every name. -/
theorem list_dir_filter_spec_witness :
    (list_dir_filter byteLe (fun _ => true) unsortedDir).Perm ["b".toList, "a".toList] ∧
    (list_dir_filter byteLe (fun _ => true) unsortedDir).Pairwise
      (fun a b => byteLe a b = true) := by
  have h := (list_dir_filter_spec byteLe byteLe_total byteLe_trans).2 (fun _ => true)
    unsortedDir _ rfl
  exact ⟨h.1, h.2.1⟩

/-! ## `walkdir` -/

theorem size_lt_of_mem_entries (es : List (Str × Node)) (e : Str × Node) (he : e ∈ es) :
    e.2.size ≤ sizeEntries es := by
  rw [sizeEntries_eq]
  exact size_le_qsize es e he

theorem dtype_eq_dir_iff (e : Str × Node) (h : e.1 ≠ dot ∧ e.1 ≠ dotdot) :
    dtype e = DType.dir ↔ e.2.isDir = true := by
  unfold dtype
  rw [if_neg (by simp [h.1, h.2])]
  cases e.2 <;> simp [Node.isDir]

theorem walkdirLoop_nil (path : Str) (calls : List Str) :
    walkdirLoop path [] calls = calls := rfl

theorem walkdirLoop_cons (path : Str) (e : Str × Node) (es : List (Str × Node))
    (calls : List Str) :
    walkdirLoop path (e :: es) calls =
      if e.1 ≠ dot ∧ e.1 ≠ dotdot then
        if dtype e = DType.dir then
          walkdirLoop path es (walkdir (path ++ path_separator :: e.1) e.2 calls)
        else walkdirLoop path es (calls ++ [path ++ path_separator :: e.1])
      else walkdirLoop path es calls := by
  obtain ⟨filename, child⟩ := e
  rfl

theorem walkdir_dir (path : Str) (s : Bool) (es : List (Str × Node)) (calls : List Str) :
    walkdir path (Node.dir true s es) calls = walkdirLoop path es calls := rfl

theorem walkdir_of_none (path : Str) (node : Node) (calls : List Str)
    (h : node.opendir = none) : walkdir path node calls = calls := by
  cases node with
  | file => rfl
  | link t => rfl
  | dir o s es =>
    cases o with
    | false => rfl
    | true => simp [Node.opendir] at h

theorem walkdirLoop_append (path : Str) (es : List (Str × Node))
    (H : ∀ e ∈ es, ∀ (p : Str) (calls : List Str),
      walkdir p e.2 calls = calls ++ walkdir p e.2 [])
    (calls : List Str) :
    walkdirLoop path es calls = calls ++ walkdirLoop path es [] := by
  induction es generalizing calls with
  | nil => simp [walkdirLoop_nil]
  | cons e es ih =>
    have ih2 := ih (fun e2 he2 => H e2 (List.mem_cons_of_mem _ he2))
    have he := H e (List.mem_cons_self _ _)
    simp only [walkdirLoop_cons]
    split_ifs
    · rw [ih2 (walkdir _ e.2 calls), ih2 (walkdir _ e.2 []), he _ calls]
      simp
    · rw [ih2 (calls ++ _), ih2 ([] ++ _)]
      simp
    · exact ih2 calls

/-- The calls that `walkdir` makes are appended to the calls made before. -/
theorem walkdir_append (node : Node) (path : Str) (calls : List Str) :
    walkdir path node calls = calls ++ walkdir path node [] := by
  generalize hn : node.size = n
  induction n using Nat.strong_induction_on generalizing node path calls with
  | _ n ih =>
    cases hopen : node.opendir with
    | none => simp [walkdir_of_none path node _ hopen]
    | some entries =>
      cases node with
      | file => simp [Node.opendir] at hopen
      | link t => simp [Node.opendir] at hopen
      | dir o s es =>
        cases o with
        | false => simp [Node.opendir] at hopen
        | true =>
          simp only [walkdir_dir]
          apply walkdirLoop_append
          intro e he p c
          have h1 := size_lt_of_mem_entries es e he
          have h2 : e.2.size < n := by
            rw [← hn]
            simp only [Node.size]
            omega
          exact ih e.2.size h2 e.2 p c rfl

theorem walkdirLoop_eq_flatMap (path : Str) (es : List (Str × Node)) :
    walkdirLoop path es [] =
      (es.filter (fun e => decide (e.1 ≠ dot ∧ e.1 ≠ dotdot))).flatMap
        (fun e => if e.2.isDir = true then walkdir (path ++ path_separator :: e.1) e.2 []
          else [path ++ path_separator :: e.1]) := by
  induction es with
  | nil => simp [walkdirLoop_nil]
  | cons e es ih =>
    have happ := walkdirLoop_append path es (fun e2 _ p c => walkdir_append e2.2 p c)
    rw [walkdirLoop_cons, List.filter_cons]
    by_cases hv : e.1 ≠ dot ∧ e.1 ≠ dotdot
    · have hv2 : decide (e.1 ≠ dot ∧ e.1 ≠ dotdot) = true := by simpa using hv
      rw [if_pos hv, if_pos hv2, List.flatMap_cons, ← ih]
      by_cases hd : e.2.isDir = true
      · rw [if_pos ((dtype_eq_dir_iff e hv).2 hd), if_pos hd, happ]
      · rw [if_neg (fun h => hd ((dtype_eq_dir_iff e hv).1 h)), if_neg hd, happ]
        simp
    · have hv2 : ¬ decide (e.1 ≠ dot ∧ e.1 ≠ dotdot) = true := by simpa using hv
      rw [if_neg hv, if_neg hv2, ih]

/-- The calls of `walkdir` on a directory: its children in enumeration order,
one call for a child that is not a directory, the calls of the whole subtree for
a child that is one. -/
theorem walkdir_eq_flatMap (path : Str) (node : Node) :
    walkdir path node [] =
      (walkChildren (path, node)).flatMap
        (fun c => if c.2.isDir = true then walkdir c.1 c.2 [] else [c.1]) := by
  cases hopen : node.opendir with
  | none => simp [walkdir_of_none path node _ hopen, walkChildren, hopen]
  | some entries =>
    cases node with
    | file => simp [Node.opendir] at hopen
    | link t => simp [Node.opendir] at hopen
    | dir o s es =>
      cases o with
      | false => simp [Node.opendir] at hopen
      | true =>
        simp only [Node.opendir, Option.some.injEq] at hopen
        subst hopen
        simp only [walkdir_dir, walkChildren, Node.opendir, walkdirLoop_eq_flatMap,
          List.flatMap_map]

theorem walkdir_of_not_openable (path : Str) (node : Node) (h : node.opendir = none) :
    walkdir path node [] = [] :=
  walkdir_of_none path node [] h

theorem flatMap_ite_perm {α β : Type} (p : α → Bool) (f : α → List β) (g : α → β)
    (l : List α) :
    List.Perm (l.flatMap (fun c => if p c = true then f c else [g c]))
      (((l.filter (fun c => !p c)).map g) ++ (l.filter p).flatMap f) := by
  induction l with
  | nil => simp
  | cons c cs ih =>
    simp only [List.flatMap_cons, List.filter_cons]
    by_cases h : p c = true
    · simp only [h, if_true, Bool.not_true, Bool.false_eq_true, if_false, List.flatMap_cons]
      refine (List.Perm.append_left (f c) ih).trans ?_
      rw [← List.append_assoc, ← List.append_assoc]
      exact List.Perm.append_right _ List.perm_append_comm
    · have hf : p c = false := by simpa using h
      simp only [hf, Bool.not_false, if_true, List.map_cons, List.cons_append,
        List.singleton_append, Bool.false_eq_true, if_false]
      exact List.Perm.cons _ ih

theorem flatMap_swap_perm {α β γ : Type} (l₁ : List α) (l₂ : List β) (f : α → β → List γ) :
    List.Perm (l₁.flatMap (fun a => l₂.flatMap (f a)))
      (l₂.flatMap (fun b => l₁.flatMap (fun a => f a b))) := by
  induction l₁ with
  | nil => simp
  | cons a l ih =>
    simp only [List.flatMap_cons]
    exact (List.Perm.append_left _ ih).trans (List.flatMap_append_perm l₂ _ _)

theorem walkSubdirs_size_lt (x c : Str × Node) (hc : c ∈ walkSubdirs x) :
    c.2.size < x.2.size := by
  obtain ⟨path, node⟩ := x
  simp only [walkSubdirs, walkChildren, List.mem_filter] at hc
  cases node with
  | file => simp [Node.opendir] at hc
  | link t => simp [Node.opendir] at hc
  | dir o s es =>
    cases o with
    | false => simp [Node.opendir] at hc
    | true =>
      simp only [Node.opendir, List.mem_map, List.mem_filter] at hc
      obtain ⟨⟨e, ⟨he, _⟩, rfl⟩, _⟩ := hc
      have := size_lt_of_mem_entries es e he
      simp only [Node.size]
      omega

theorem filesBelow_succ (n : Nat) (x : Str × Node) :
    filesBelow (n + 1) x =
      walkFiles x ++ (List.range n).flatMap
        (fun d => (walkSubdirs x).flatMap (fun c => (subdirsAtDepth d c).flatMap walkFiles)) := by
  simp only [filesBelow, List.range_succ_eq_map, List.flatMap_cons, List.flatMap_map,
    subdirsAtDepth, List.flatMap_singleton, List.flatMap_assoc, List.flatMap_nil,
    List.append_nil]

/-- The calls of `walkdir` are, each once, the paths of the children that are not
directories of the directories that it can reach. -/
theorem walkdir_perm_filesBelow (n : Nat) (x : Str × Node) (h : x.2.size ≤ n) :
    List.Perm (walkdir x.1 x.2 []) (filesBelow n x) := by
  induction n generalizing x with
  | zero =>
    have := Node.size_pos x.2
    omega
  | succ n ih =>
    rw [walkdir_eq_flatMap, filesBelow_succ]
    refine (flatMap_ite_perm (fun c => c.2.isDir) (fun c => walkdir c.1 c.2 []) Prod.fst
      (walkChildren x)).trans ?_
    refine List.Perm.append_left _ ?_
    have h1 : List.Perm ((walkSubdirs x).flatMap (fun c => walkdir c.1 c.2 []))
        ((walkSubdirs x).flatMap (filesBelow n)) := by
      apply List.Perm.flatMap_left
      intro c hc
      have := walkSubdirs_size_lt x c hc
      exact ih c (by omega)
    exact h1.trans (flatMap_swap_perm (walkSubdirs x) (List.range n)
      (fun c d => (subdirsAtDepth d c).flatMap walkFiles))

/-- C28: `walkdir` is a depth-first pre-order traversal. Its calls of `cb` are
appended to those made before; the calls on a directory go through its children
other than `"."` and `".."` in enumeration order, with the one call
`cb(dir + separator + name)` for a child that is not a directory and, for a
child that is one, all the calls of its subtree before those of any later
sibling; what cannot be opened contributes no call; and the calls are, each
once, the paths of the non-directory children of the reachable directories, so
that no directory gets a call. -/
theorem walkdir_preorder :
    (∀ (path : Str) (node : Node) (calls : List Str),
      walkdir path node calls = calls ++ walkdir path node []) ∧
    (∀ (path : Str) (node : Node),
      walkdir path node [] =
        (walkChildren (path, node)).flatMap
          (fun c => if c.2.isDir = true then walkdir c.1 c.2 [] else [c.1])) ∧
    (∀ (path : Str) (node : Node), node.opendir = none → walkdir path node [] = []) ∧
    (∀ (path : Str) (node : Node),
      List.Perm (walkdir path node []) (filesBelow node.size (path, node))) :=
  ⟨fun path node calls => walkdir_append node path calls, walkdir_eq_flatMap,
    walkdir_of_not_openable,
    fun path node => walkdir_perm_filesBelow node.size (path, node) (Nat.le_refl _)⟩

/-- C28 on the tree of the test of `path_walk` and on the tree with a directory
that cannot be opened. -/
theorem walkdir_preorder_witness :
    walkdir root_path_of_test testTree ["earlier".toList] =
      ["earlier".toList, "test_dir/sub3/file4.txt".toList, "test_dir/file.txt".toList,
        "test_dir/sub1/sub2/file3.txt".toList, "test_dir/sub1/file2.txt".toList] ∧
    walkdir "r".toList (Node.dir false true [("f".toList, Node.file)]) [] = [] ∧
    walkdir "r".toList lockedTree [] = ["r/x/f".toList] := by
  refine ⟨?_, walkdir_preorder.2.2.1 _ _ rfl, by decide⟩
  rw [walkdir_preorder.1]
  decide

/-! ## `makedirs` -/

theorem find_first_of_zero (b : Str) (c : Char) :
    (find_first_of b c 0 = none ∧ c ∉ b) ∨
      ∃ u v, b = u ++ c :: v ∧ c ∉ u ∧ find_first_of b c 0 = some u.length := by
  induction b with
  | nil => left; simp [find_first_of]
  | cons x xs ih =>
    by_cases hx : x = c
    · right
      exact ⟨[], xs, by simp [hx], by simp, by simp [find_first_of, hx]⟩
    · rcases ih with ⟨hn, hm⟩ | ⟨u, v, rfl, hu, hf⟩
      · left
        refine ⟨by simp [find_first_of, hx, hn], ?_⟩
        simp only [List.mem_cons, not_or]
        exact ⟨fun e => hx e.symm, hm⟩
      · right
        refine ⟨x :: u, v, by simp, ?_, by simp [find_first_of, hx, hf]⟩
        simp only [List.mem_cons, not_or]
        exact ⟨fun e => hx e.symm, hu⟩

theorem find_first_of_append (a b : Str) (c : Char) :
    find_first_of (a ++ b) c a.length =
      match find_first_of b c 0 with
      | some i => some (i + a.length)
      | none => none := by
  induction a with
  | nil => cases h : find_first_of b c 0 <;> simp [h]
  | cons x xs ih =>
    simp only [List.cons_append, List.length_cons, find_first_of]
    have e : xs.append b = xs ++ b := rfl
    rw [e, ih]
    cases h : find_first_of b c 0 <;> simp [Nat.add_assoc]

theorem prefixesBeforeSep_of_not_mem (pre b : Str) (h : path_separator ∉ b) :
    prefixesBeforeSep pre b = [] := by
  induction b generalizing pre with
  | nil => rfl
  | cons x xs ih =>
    have hx : x ≠ path_separator := fun e => h (by simp [e])
    have hxs : path_separator ∉ xs := fun e => h (List.mem_cons_of_mem _ e)
    simp [prefixesBeforeSep, hx, ih _ hxs]

theorem prefixesBeforeSep_append (pre u v : Str) (hu : path_separator ∉ u)
    (hne : pre ++ u ≠ []) :
    prefixesBeforeSep pre (u ++ path_separator :: v) =
      (pre ++ u) :: prefixesBeforeSep (pre ++ u ++ [path_separator]) v := by
  induction u generalizing pre with
  | nil =>
    have : pre ≠ [] := by simpa using hne
    simp [prefixesBeforeSep, this]
  | cons x xs ih =>
    have hx : x ≠ path_separator := fun e => hu (by simp [e])
    have hxs : path_separator ∉ xs := fun e => hu (List.mem_cons_of_mem _ e)
    have := ih (pre ++ [x]) hxs (by simp)
    simp only [List.append_assoc, List.singleton_append] at this
    simp [prefixesBeforeSep, hx, this]

/-- The loop of `makedirs`, entered after the non-empty part `a` of the path,
calls `mkdir` on the prefixes that end before the separators of the rest `b`. -/
theorem makedirsLoop_eq {σ : Type} (os : OS σ) (fuel : Nat) (a b : Str) (s : σ)
    (ha : a ≠ []) (hfuel : b.length < fuel) :
    makedirsLoop os (a ++ b) fuel (a.length - 1) s =
      attemptAll os (prefixesBeforeSep a b) s := by
  induction fuel generalizing a b s with
  | zero => omega
  | succ fuel ih =>
    have hlen : a.length - 1 + 1 = a.length := by
      have := List.length_pos.2 ha
      omega
    rw [makedirsLoop, hlen, find_first_of_append]
    rcases find_first_of_zero b path_separator with ⟨hn, hm⟩ | ⟨u, v, rfl, hu, hf⟩
    · rw [hn, prefixesBeforeSep_of_not_mem a b hm]
      rfl
    · rw [hf, prefixesBeforeSep_append a u v hu (by simp [ha])]
      have htake : (a ++ (u ++ path_separator :: v)).take (u.length + a.length) = a ++ u := by
        rw [← List.append_assoc, Nat.add_comm, ← List.length_append]
        exact List.take_left' rfl
      have hne : a ++ u ≠ [] := by simp [ha]
      have hpos : u.length + a.length = (a ++ u ++ [path_separator]).length - 1 := by
        simp only [List.length_append, List.length_singleton]
        omega
      have hpath : a ++ (u ++ path_separator :: v) = (a ++ u ++ [path_separator]) ++ v := by
        simp
      have hv : v.length < fuel := by
        simp only [List.length_append, List.length_cons] at hfuel
        omega
      simp only [htake, if_neg hne, attemptAll]
      cases hmk : os.mkdir s (a ++ u) with
      | mk r s2 =>
        cases r with
        | error => rfl
        | created =>
          simp only
          rw [hpos, hpath]
          exact ih _ _ s2 (by simp) hv
        | eexist =>
          simp only
          rw [hpos, hpath]
          exact ih _ _ s2 (by simp) hv

theorem attemptAll_concat {σ : Type} (os : OS σ) (ts : List Str) (t : Str) (s : σ) :
    attemptAll os (ts ++ [t]) s =
      match attemptAll os ts s with
      | (false, s2) => (false, s2)
      | (true, s2) =>
        match os.mkdir s2 t with
        | (MkdirResult.error, s3) => (false, s3)
        | (_, s3) => (true, s3) := by
  induction ts generalizing s with
  | nil =>
    simp only [List.nil_append, attemptAll]
  | cons u us ih =>
    simp only [List.cons_append, attemptAll]
    cases hmk : os.mkdir s u with
    | mk r s2 =>
      cases r with
      | error => rfl
      | created => exact ih s2
      | eexist => exact ih s2

theorem makedirs_eq_attemptAll {σ : Type} (os : OS σ) (path : Str) (s : σ) (h : path ≠ []) :
    makedirs os path s = attemptAll os (mkdirTargets path) s := by
  cases path with
  | nil => exact absurd rfl h
  | cons c rest =>
    have hloop := makedirsLoop_eq os (c :: rest).length [c] rest s (by simp) (by simp)
    simp only [List.singleton_append, List.length_singleton, Nat.sub_self] at hloop
    have hp : prefixesBeforeSep [] (c :: rest) = prefixesBeforeSep [c] rest := by
      simp [prefixesBeforeSep]
    rw [makedirs, if_neg h, hloop, mkdirTargets, attemptAll_concat, hp]

theorem mem_prefixesBeforeSep (pre b t : Str) :
    t ∈ prefixesBeforeSep pre b ↔
      ∃ i, b[i]? = some path_separator ∧ pre ++ b.take i ≠ [] ∧ t = pre ++ b.take i := by
  induction b generalizing pre with
  | nil => simp [prefixesBeforeSep]
  | cons c cs ih =>
    simp only [prefixesBeforeSep, List.mem_append, ih]
    constructor
    · rintro (h | ⟨j, h1, h2, h3⟩)
      · split_ifs at h with hc
        · refine ⟨0, by simp [hc.1], by simpa using hc.2, by simpa using h⟩
        · simp at h
      · exact ⟨j + 1, by simp [h1], by simp, by simpa using h3⟩
    · rintro ⟨i, h1, h2, h3⟩
      cases i with
      | zero =>
        left
        have hc : c = path_separator := by simpa using h1
        have hp : pre ≠ [] := by simpa using h2
        rw [if_pos ⟨hc, hp⟩]
        simpa using h3
      | succ j =>
        right
        exact ⟨j, by simp at h1; exact h1, by simp, by simpa using h3⟩

theorem mem_prefixesBeforeSep_nil (path t : Str) :
    t ∈ prefixesBeforeSep [] path ↔
      ∃ i, 1 ≤ i ∧ path[i]? = some path_separator ∧ t = path.take i := by
  rw [mem_prefixesBeforeSep]
  constructor
  · rintro ⟨i, h1, h2, h3⟩
    refine ⟨i, ?_, h1, by simpa using h3⟩
    cases i with
    | zero => simp at h2
    | succ j => omega
  · rintro ⟨i, h1, h2, h3⟩
    refine ⟨i, h2, ?_, by simpa using h3⟩
    have hlt : i < path.length := by
      by_contra hge
      rw [List.getElem?_eq_none (by omega)] at h2
      simp at h2
    simp only [List.nil_append, ne_eq, List.take_eq_nil_iff, not_or]
    constructor
    · omega
    · intro hnil
      rw [hnil] at hlt
      simp at hlt

theorem length_of_mem_prefixesBeforeSep (pre b t : Str) (h : t ∈ prefixesBeforeSep pre b) :
    pre.length ≤ t.length ∧ t.length < pre.length + b.length := by
  obtain ⟨i, h1, _, rfl⟩ := (mem_prefixesBeforeSep pre b t).1 h
  have hlt : i < b.length := by
    by_contra hge
    rw [List.getElem?_eq_none (by omega)] at h1
    simp at h1
  simp only [List.length_append, List.length_take]
  omega

theorem prefixesBeforeSep_pairwise (pre b : Str) :
    (prefixesBeforeSep pre b).Pairwise (fun t u => t.length < u.length) := by
  induction b generalizing pre with
  | nil => simp [prefixesBeforeSep]
  | cons c cs ih =>
    simp only [prefixesBeforeSep]
    refine List.pairwise_append.2 ⟨?_, ih _, ?_⟩
    · split_ifs <;> simp
    · intro t ht u hu
      have hl := (length_of_mem_prefixesBeforeSep _ _ u hu).1
      simp only [List.length_append, List.length_singleton] at hl
      split_ifs at ht
      · have : t = pre := by simpa using ht
        subst this
        omega
      · simp at ht

theorem mkdirTargets_pairwise (path : Str) :
    (mkdirTargets path).Pairwise (fun t u => t.length < u.length) := by
  unfold mkdirTargets
  refine List.pairwise_append.2 ⟨prefixesBeforeSep_pairwise [] path, by simp, ?_⟩
  intro t ht u hu
  have hl := (length_of_mem_prefixesBeforeSep _ _ t ht).2
  have : u = path := by simpa using hu
  subst this
  simpa using hl

theorem attemptAll_recording_ok (outcome : Str → MkdirResult) (targets : List Str)
    (log : List Call) (h : ∀ t ∈ targets, outcome t ≠ MkdirResult.error) :
    attemptAll (recordingOS outcome) targets log = (true, log ++ targets.map Call.mkdir) := by
  induction targets generalizing log with
  | nil => simp [attemptAll]
  | cons t ts ih =>
    have ht := h t (List.mem_cons_self _ _)
    have := ih (log ++ [Call.mkdir t]) (fun u hu => h u (List.mem_cons_of_mem _ hu))
    simp only [attemptAll, recordingOS]
    cases ho : outcome t with
    | error => exact absurd ho ht
    | created => simpa [recordingOS] using this
    | eexist => simpa [recordingOS] using this

theorem attemptAll_recording_error (outcome : Str → MkdirResult) (pre post : List Str)
    (t : Str) (log : List Call) (h : ∀ u ∈ pre, outcome u ≠ MkdirResult.error)
    (ht : outcome t = MkdirResult.error) :
    attemptAll (recordingOS outcome) (pre ++ t :: post) log =
      (false, log ++ (pre ++ [t]).map Call.mkdir) := by
  induction pre generalizing log with
  | nil => simp [attemptAll, recordingOS, ht]
  | cons u us ih =>
    have hu := h u (List.mem_cons_self _ _)
    have := ih (log ++ [Call.mkdir u]) (fun v hv => h v (List.mem_cons_of_mem _ hv))
    simp only [List.cons_append, attemptAll, recordingOS]
    cases ho : outcome u with
    | error => exact absurd ho hu
    | created => simpa [recordingOS] using this
    | eexist => simpa [recordingOS] using this

/-- C25: `makedirs ""` returns false and calls nothing. For a non-empty path
`makedirs` calls `mkdir` on the targets of the path in order, each prefix that
ends just before a separator at an index of 1 or more, in order of increasing
length, and last the path itself. A call that fails with `EEXIST` counts as a
success; at the first call that fails with another error `makedirs` returns
false, having called `mkdir` on no longer prefix and having called neither
`rmdir` nor `unlink`; it returns true when no call fails that way. -/
theorem makedirs_attempts :
    (∀ (σ : Type) (os : OS σ) (s : σ), makedirs os [] s = (false, s)) ∧
    (∀ (σ : Type) (os : OS σ) (path : Str) (s : σ), path ≠ [] →
      makedirs os path s = attemptAll os (mkdirTargets path) s) ∧
    (∀ path t : Str, t ∈ prefixesBeforeSep [] path ↔
      ∃ i, 1 ≤ i ∧ path[i]? = some path_separator ∧ t = path.take i) ∧
    (∀ path : Str, (mkdirTargets path).Pairwise (fun t u => t.length < u.length)) ∧
    (∀ (outcome : Str → MkdirResult) (path : Str), path ≠ [] →
      (∀ t ∈ mkdirTargets path, outcome t ≠ MkdirResult.error) →
      makedirs (recordingOS outcome) path [] = (true, (mkdirTargets path).map Call.mkdir)) ∧
    (∀ (outcome : Str → MkdirResult) (path : Str) (pre post : List Str) (t : Str),
      path ≠ [] → mkdirTargets path = pre ++ t :: post →
      (∀ u ∈ pre, outcome u ≠ MkdirResult.error) → outcome t = MkdirResult.error →
      makedirs (recordingOS outcome) path [] = (false, (pre ++ [t]).map Call.mkdir)) := by
  refine ⟨fun σ os s => by simp [makedirs], fun σ os path s h => makedirs_eq_attemptAll os path s h,
    mem_prefixesBeforeSep_nil, mkdirTargets_pairwise, ?_, ?_⟩
  · intro outcome path hne h
    rw [makedirs_eq_attemptAll _ path [] hne, attemptAll_recording_ok outcome _ [] h]
    simp
  · intro outcome path pre post t hne htargets h ht
    rw [makedirs_eq_attemptAll _ path [] hne, htargets,
      attemptAll_recording_error outcome pre post t [] h ht]
    simp

/-- C25 on the path `"/a//b/"`, whose targets are `"/a"`, `"/a/"`, `"/a//b"` and
the path itself, and on the path `"a/b/c"` when `a` exists already and `mkdir`
fails on `a/b` with another error. -/
theorem makedirs_attempts_witness :
    makedirs (recordingOS (fun _ => MkdirResult.created)) "/a//b/".toList [] =
      (true, [Call.mkdir "/a".toList, Call.mkdir "/a/".toList, Call.mkdir "/a//b".toList,
        Call.mkdir "/a//b/".toList]) ∧
    makedirs (recordingOS (fun p => if p = "a".toList then MkdirResult.eexist
        else if p = "a/b".toList then MkdirResult.error else MkdirResult.created))
      "a/b/c".toList [] = (false, [Call.mkdir "a".toList, Call.mkdir "a/b".toList]) := by
  constructor
  · rw [makedirs_attempts.2.2.2.2.1 _ "/a//b/".toList (by decide) (by decide)]
    decide
  · rw [makedirs_attempts.2.2.2.2.2 _ "a/b/c".toList ["a".toList] ["a/b/c".toList]
      "a/b".toList (by decide) (by decide) (by decide) (by decide)]
    decide

/-! ## `remove_path`: failure without rollback -/

theorem removeEntries_append {σ : Type} (remove : Str → σ → Option (Bool × σ)) (path : Str)
    (pre rest : List Str) (s : σ) :
    removeEntries remove path (pre ++ rest) s =
      match removeEntries remove path pre s with
      | none => none
      | some (false, s2) => some (false, s2)
      | some (true, s2) => removeEntries remove path rest s2 := by
  induction pre generalizing s with
  | nil => simp [removeEntries]
  | cons e es ih =>
    simp only [List.cons_append, removeEntries]
    split_ifs
    · cases hr : remove (path_join [path, e]) s with
      | none => rfl
      | some r =>
        obtain ⟨b, s2⟩ := r
        cases b
        · rfl
        · exact ih s2
    · exact ih s

theorem list_dir_some_eq (enumeration : Option (List Str)) (entries : List Str)
    (h : list_dir enumeration [] = (true, entries)) :
    ∃ names, enumeration = some names ∧
      entries = names.filter (fun n => decide (n ≠ dot ∧ n ≠ dotdot)) := by
  cases enumeration with
  | none => simp [list_dir] at h
  | some names =>
    refine ⟨names, rfl, ?_⟩
    simp only [list_dir, clear, foldl_listStep, List.nil_append, Prod.mk.injEq, true_and] at h
    exact h.symm

/-- C24: `remove_path` fails without rollback. When the directory `path` lists
the entries `pre`, then `entry`, then `post`, the removal of the entries of `pre`
succeeds and leaves the state `s1`, and the removal of `entry` then returns
false and leaves the state `s2`, `remove_path` on the directory returns false
and leaves that same state `s2`: what was removed before stays removed, and
nothing is attempted on the later entries or on the directory itself. -/
theorem remove_path_no_rollback {σ : Type} (os : OS σ) (depth : Nat) (path : Str)
    (s s1 s2 : σ) (pre post : List Str) (entry : Str)
    (hdir : is_dir os s path = true)
    (hlist : list_dir (os.readdir s path) [] = (true, pre ++ entry :: post))
    (hpre : removeEntries (remove_path os depth) path pre s = some (true, s1))
    (hfail : remove_path os depth (path_join [path, entry]) s1 = some (false, s2)) :
    remove_path os (depth + 1) path s = some (false, s2) := by
  obtain ⟨names, _, hnames⟩ := list_dir_some_eq _ _ hlist
  have hvis : entry ≠ dot ∧ entry ≠ dotdot := by
    have hmem : entry ∈ names.filter (fun n => decide (n ≠ dot ∧ n ≠ dotdot)) := by
      rw [← hnames]; simp
    simpa using (List.mem_filter.1 hmem).2
  have hloop : removeEntries (remove_path os depth) path (pre ++ entry :: post) s =
      some (false, s2) := by
    rw [removeEntries_append, hpre]
    simp only [removeEntries, if_pos hvis, hfail]
  simp only [remove_path, hdir, if_true, hlist, hloop]

/-- C24 on the model file system: in the directory `d` with the files `x`, `y`,
`z`, where `unlink` is refused on `d/y`, `remove_path` on `d` returns false; `x`
is gone, and `y`, `z` and `d` itself are still there. -/
theorem remove_path_no_rollback_witness :
    remove_path (modelOS (fun k => decide (k = ["d".toList, "y".toList]))) 2 "d".toList
        siblingsFS =
      some (false, [(["d".toList], true), (["w".toList], false),
        (["d".toList, "y".toList], false), (["d".toList, "z".toList], false)]) :=
  remove_path_no_rollback (modelOS (fun k => decide (k = ["d".toList, "y".toList])))
    1 "d".toList siblingsFS
    [(["d".toList], true), (["w".toList], false),
      (["d".toList, "y".toList], false), (["d".toList, "z".toList], false)]
    [(["d".toList], true), (["w".toList], false),
      (["d".toList, "y".toList], false), (["d".toList, "z".toList], false)]
    ["x".toList] ["z".toList] "y".toList (by decide) (by decide) (by decide) (by decide)

/-! ## `makedirs` over something that exists -/

theorem lookupKey_append_new (fs : ModelFS) (k : Key) (h : lookupKey fs k = none) :
    lookupKey (fs ++ [(k, true)]) k = some true := by
  induction fs with
  | nil => simp [lookupKey]
  | cons e es ih =>
    simp only [lookupKey] at h
    split_ifs at h with he
    simp only [List.cons_append, lookupKey, if_neg he]
    exact ih h

theorem makedirs_true_final {σ : Type} (os : OS σ) (path : Str) (s s3 : σ)
    (h : makedirs os path s = (true, s3)) :
    path ≠ [] ∧ ∃ s2 r, os.mkdir s2 path = (r, s3) ∧ r ≠ MkdirResult.error := by
  by_cases hp : path = []
  · simp [makedirs, hp] at h
  · refine ⟨hp, ?_⟩
    rw [makedirs, if_neg hp] at h
    cases hl : makedirsLoop os path path.length 0 s with
    | mk b s2 =>
      rw [hl] at h
      cases b with
      | false => simp at h
      | true =>
        simp only at h
        cases hm : os.mkdir s2 path with
        | mk r s4 =>
          rw [hm] at h
          cases r with
          | error => simp at h
          | created =>
            simp only [Prod.mk.injEq, true_and] at h
            exact ⟨s2, MkdirResult.created, by rw [hm, h], by decide⟩
          | eexist =>
            simp only [Prod.mk.injEq, true_and] at h
            exact ⟨s2, MkdirResult.eexist, by rw [hm, h], by decide⟩

/-- On the model file system, when `makedirs` returns true the path is a
directory afterwards unless a regular file stands at it. -/
theorem makedirs_true_model (path : Str) (fs fs3 : ModelFS)
    (h : makedirs (modelOS allowAll) path fs = (true, fs3)) :
    is_dir (modelOS allowAll) fs3 path = true ∨ is_file (modelOS allowAll) fs3 path = true := by
  obtain ⟨hp, fs2, r, hm, hr⟩ := makedirs_true_final _ path fs fs3 h
  simp only [modelOS, modelMkdir, if_neg hp] at hm
  simp only [is_dir, is_file, modelOS, modelStat, if_neg hp]
  by_cases hroot : resolve path = []
  · simp [hroot]
  · rw [if_neg hroot] at hm ⊢
    by_cases hdd : dotdot ∈ resolve path
    · rw [if_pos hdd] at hm
      simp only [Prod.mk.injEq] at hm
      exact absurd hm.1.symm hr
    · rw [if_neg hdd] at hm
      cases hl : lookupKey fs2 (resolve path) with
      | some b =>
        rw [hl] at hm
        simp only [Prod.mk.injEq] at hm
        rw [← hm.2, hl]
        cases b <;> simp
      | none =>
        rw [hl] at hm
        simp only at hm
        by_cases hpar : (resolve path).dropLast = [] ∨
            lookupKey fs2 (resolve path).dropLast = some true
        · rw [if_pos hpar] at hm
          simp only [Prod.mk.injEq] at hm
          rw [← hm.2, lookupKey_append_new fs2 _ hl]
          simp
        · rw [if_neg hpar] at hm
          simp only [Prod.mk.injEq] at hm
          exact absurd hm.1.symm hr

/-- C30: where a regular file `w` stands, `mkdir` on `w` fails with `EEXIST`,
`makedirs` on `w` counts that as a success and returns true, leaving the file
system as it was, and `is_dir` on `w` is false afterwards. -/
theorem makedirs_over_file :
    is_file (modelOS allowAll) siblingsFS "w".toList = true ∧
    (modelOS allowAll).mkdir siblingsFS "w".toList = (MkdirResult.eexist, siblingsFS) ∧
    makedirs (modelOS allowAll) "w".toList siblingsFS = (true, siblingsFS) ∧
    is_dir (modelOS allowAll) (makedirs (modelOS allowAll) "w".toList siblingsFS).2
      "w".toList = false := by
  decide

/-! ## The model file system: resolution of joined paths -/

theorem segments_append_sep (a b : Str) :
    segments (a ++ path_separator :: b) = segments a ++ segments b := by
  induction a with
  | nil =>
    rw [List.nil_append, segments_sep_cons]
    simp [segments]
  | cons x xs ih =>
    simp only [segments, List.splitOn, List.cons_append, List.splitOnP_cons] at ih ⊢
    by_cases hx : (x == path_separator) = true
    · simp only [hx, if_true, ih, List.cons_append]
    · simp only [hx, Bool.false_eq_true, if_false, ih]
      cases hs : List.splitOnP (fun x => x == path_separator) xs with
      | nil => exact absurd hs (List.splitOnP_ne_nil _ _)
      | cons h t => simp

theorem keptSegments_append_sep (a b : Str) :
    keptSegments (a ++ path_separator :: b) = keptSegments a ++ keptSegments b := by
  simp [keptSegments, segments_append_sep]

theorem keptSegments_ordinary (n : Str) (h : Ordinary n) : keptSegments n = [n] := by
  have hs : segments n = [n] := by
    unfold segments List.splitOn
    apply List.splitOnP_eq_single
    intro x hx hsep
    have : x = path_separator := by simpa using hsep
    exact h.2.1 (this ▸ hx)
  simp [keptSegments, hs, kept, h.1, h.2.2.1]

theorem keptSegments_nil : keptSegments [] = [] := by
  decide

/-- The path that `remove_path` builds for an entry of a directory resolves to
the key of the directory followed by the name of the entry. -/
theorem resolve_path_join (path n : Str) (hp : path ≠ []) (hn : Ordinary n) :
    path_join [path, n] ≠ [] ∧ resolve (path_join [path, n]) = resolve path ++ [n] := by
  have hfront : front n ≠ path_separator := by
    apply front_ne_sep_of_head
    intro hh
    exact hn.2.1 (List.mem_of_mem_head? hh)
  have hj : path_join [path, n] = joinStep path n := by
    simp [path_join, joinStep]
  rw [hj]
  unfold joinStep resolve
  by_cases hl : path.getLast? = some path_separator
  · rw [if_neg (fun h => h.2.1 hl)]
    obtain ⟨p2, rfl⟩ : ∃ p2, path = p2 ++ [path_separator] := by
      rcases List.eq_nil_or_concat path with rfl | ⟨init, b, rfl⟩
      · exact absurd rfl hp
      · have hb : b = path_separator := by simpa using hl
        exact ⟨init, by simp [hb]⟩
    refine ⟨by simp, ?_⟩
    have e1 : p2 ++ [path_separator] ++ n = p2 ++ path_separator :: n := by simp
    have e2 : p2 ++ [path_separator] = p2 ++ path_separator :: [] := by simp
    rw [e1, e2, keptSegments_append_sep, keptSegments_append_sep, keptSegments_nil,
      keptSegments_ordinary n hn]
    simp
  · rw [if_pos ⟨hp, hl, hfront⟩]
    refine ⟨by simp, ?_⟩
    have e1 : path ++ [path_separator] ++ n = path ++ path_separator :: n := by simp
    rw [e1, keptSegments_append_sep, keptSegments_ordinary n hn]

/-! ## The model file system: lookups -/

theorem lookupKey_of_mem (fs : ModelFS) (k : Key) (b : Bool)
    (hnd : (fs.map Prod.fst).Nodup) (h : (k, b) ∈ fs) : lookupKey fs k = some b := by
  induction fs with
  | nil => simp at h
  | cons e es ih =>
    simp only [List.map_cons, List.nodup_cons] at hnd
    rcases List.mem_cons.1 h with rfl | h
    · simp [lookupKey]
    · have hne : e.1 ≠ k := by
        intro he
        exact hnd.1 (he ▸ List.mem_map_of_mem Prod.fst h)
      simp only [lookupKey, if_neg hne]
      exact ih hnd.2 h

theorem lookupKey_eq_some (fs : ModelFS) (k : Key) (b : Bool) (h : lookupKey fs k = some b) :
    (k, b) ∈ fs := by
  induction fs with
  | nil => simp [lookupKey] at h
  | cons e es ih =>
    simp only [lookupKey] at h
    split_ifs at h with he
    · simp only [Option.some.injEq] at h
      have : e = (k, b) := by
        rw [← he, ← h]
      rw [this]
      exact List.mem_cons_self _ _
    · exact List.mem_cons_of_mem _ (ih h)

theorem mem_childNames (fs : ModelFS) (k : Key) (n : Str) :
    n ∈ childNames fs k ↔ (k ++ [n]) ∈ fs.map Prod.fst := by
  simp only [childNames, List.mem_filterMap]
  constructor
  · rintro ⟨key, hkey, hn⟩
    split_ifs at hn with hd
    have : key = k ++ [n] := by
      rw [← hd]
      exact (List.dropLast_append_getLast? n hn).symm
    rw [← this]
    exact hkey
  · intro h
    refine ⟨k ++ [n], h, ?_⟩
    simp

theorem childNames_nodup (fs : ModelFS) (k : Key) (hnd : (fs.map Prod.fst).Nodup) :
    (childNames fs k).Nodup := by
  unfold childNames
  apply List.Nodup.filterMap _ hnd
  intro a a2 n ha ha2
  simp only [Option.mem_def] at ha ha2
  split_ifs at ha with h1
  split_ifs at ha2 with h2
  rw [← List.dropLast_append_getLast? n ha, ← List.dropLast_append_getLast? n ha2, h1, h2]

/-! ## The model file system: well-formed states -/

theorem wellFormed_removeTree (K : Key) (fs : ModelFS) (h : WellFormed fs) :
    WellFormed (removeTree K fs) := by
  refine ⟨?_, ?_⟩
  · exact List.Nodup.sublist ((List.filter_sublist _).map Prod.fst) h.1
  · intro e he
    simp only [removeTree, List.mem_filter, decide_eq_true_eq] at he
    obtain ⟨h1, h2, h3⟩ := h.2 e he.1
    refine ⟨h1, h2, ?_⟩
    rcases h3 with h3 | h3
    · exact Or.inl h3
    · right
      simp only [removeTree, List.mem_filter, decide_eq_true_eq]
      exact ⟨h3, fun hp => he.2 (hp.trans (List.dropLast_prefix _))⟩

theorem prefix_dropLast (k l : Key) (h : k <+: l) (hne : k ≠ l) : k <+: l.dropLast := by
  obtain ⟨r, rfl⟩ := h
  have hr : r ≠ [] := by
    rintro rfl
    exact hne (by simp)
  rw [List.dropLast_append_of_ne_nil k hr]
  exact List.prefix_append _ _

/-- In a well-formed state every proper ancestor of an entry, the root aside, is
a directory of the state. -/
theorem ancestor_mem (fs : ModelFS) (h : WellFormed fs) (n : Nat) :
    ∀ e ∈ fs, e.1.length ≤ n → ∀ k : Key, k <+: e.1 → k ≠ e.1 → k ≠ [] → (k, true) ∈ fs := by
  induction n with
  | zero =>
    intro e he hlen k hk hne hnil
    have : e.1 = [] := List.length_eq_zero.1 (Nat.le_zero.1 hlen)
    exact absurd this (h.2 e he).1
  | succ n ih =>
    intro e he hlen k hk hne hnil
    have hp := prefix_dropLast k e.1 hk hne
    obtain ⟨h1, _, h3⟩ := h.2 e he
    rcases h3 with h3 | h3
    · rw [h3] at hp
      exact absurd (List.prefix_nil.1 hp) hnil
    · by_cases hkp : k = e.1.dropLast
      · rw [hkp]; exact h3
      · apply ih (e.1.dropLast, true) h3 _ k hp hkp hnil
        simp only [List.length_dropLast]
        omega

/-- In a well-formed state an entry is properly beneath a key exactly when it
is, or is beneath, one of the children of the key. -/
theorem beneath_iff_child (fs : ModelFS) (h : WellFormed fs) (k : Key) (e : Key × Bool)
    (he : e ∈ fs) :
    (k <+: e.1 ∧ k ≠ e.1) ↔ ∃ n ∈ childNames fs k, (k ++ [n]) <+: e.1 := by
  constructor
  · rintro ⟨⟨r, hr⟩, hne⟩
    cases r with
    | nil => exact absurd (by simpa using hr) hne
    | cons n r =>
      have hpre : (k ++ [n]) <+: e.1 := ⟨r, by rw [← hr]; simp⟩
      refine ⟨n, ?_, hpre⟩
      rw [mem_childNames]
      by_cases heq : k ++ [n] = e.1
      · rw [heq]; exact List.mem_map_of_mem Prod.fst he
      · have := ancestor_mem fs h e.1.length e he (Nat.le_refl _) (k ++ [n]) hpre heq (by simp)
        exact List.mem_map_of_mem Prod.fst this
  · rintro ⟨n, _, hpre⟩
    refine ⟨(List.prefix_append k [n]).trans hpre, ?_⟩
    intro heq
    have := hpre.length_le
    rw [← heq] at this
    simp at this

theorem ordinary_of_mem_childNames (fs : ModelFS) (h : WellFormed fs) (k : Key) (n : Str)
    (hn : n ∈ childNames fs k) : Ordinary n := by
  rw [mem_childNames] at hn
  obtain ⟨e, he, hk⟩ := List.mem_map.1 hn
  exact (h.2 e he).2.1 n (by rw [hk]; simp)

theorem list_dir_modelReaddir (fs : ModelFS) (h : WellFormed fs) (path : Str)
    (hdir : modelStat fs path = some StatKind.directory) :
    list_dir (modelReaddir fs path) [] = (true, childNames fs (resolve path)) := by
  simp only [modelReaddir, hdir, list_dir, clear, foldl_listStep, List.nil_append]
  have h1 : decide (dot ≠ dot ∧ dot ≠ dotdot) = false := by decide
  have h2 : decide (dotdot ≠ dot ∧ dotdot ≠ dotdot) = false := by decide
  rw [List.filter_cons_of_neg (by simp [h1]), List.filter_cons_of_neg (by simp [h2])]
  congr 1
  rw [List.filter_eq_self]
  intro n hn
  have := ordinary_of_mem_childNames fs h _ n hn
  simp [this.2.2.1, this.2.2.2]

/-! ## The function `remove_path` on the model file system -/

/-- The loop of `remove_path` on the model, given that the recursive call removes
the tree at each child: it removes the trees at all the listed children. -/
theorem removeEntries_model (remove : Str → ModelFS → Option (Bool × ModelFS)) (path : Str)
    (depth : Nat)
    (hrem : ∀ (n : Str) (fs : ModelFS), WellFormed fs → Ordinary n →
        (resolve path ++ [n]) ∈ fs.map Prod.fst →
        (∀ e ∈ fs, resolve path <+: e.1 → e.1.length < (resolve path).length + (depth + 1)) →
        remove (path_join [path, n]) fs = some (true, removeTree (resolve path ++ [n]) fs))
    (ns : List Str) : ∀ (fs : ModelFS), WellFormed fs → ns.Nodup →
      (∀ n ∈ ns, Ordinary n ∧ (resolve path ++ [n]) ∈ fs.map Prod.fst) →
      (∀ e ∈ fs, resolve path <+: e.1 → e.1.length < (resolve path).length + (depth + 1)) →
      removeEntries remove path ns fs =
        some (true, fs.filter (fun e => decide (∀ n ∈ ns, ¬ (resolve path ++ [n]) <+: e.1))) := by
  induction ns with
  | nil =>
    intro fs _ _ _ _
    simp [removeEntries]
  | cons n ns ih =>
    intro fs hwf hnd hmem hb
    obtain ⟨hn, hk⟩ := hmem n (List.mem_cons_self _ _)
    have hne : n ≠ dot ∧ n ≠ dotdot := ⟨hn.2.2.1, hn.2.2.2⟩
    have hnd2 := List.nodup_cons.1 hnd
    rw [removeEntries, if_pos hne, hrem n fs hwf hn hk hb]
    simp only []
    have h1 := ih (removeTree (resolve path ++ [n]) fs) (wellFormed_removeTree _ _ hwf) hnd2.2
      (by
        intro m hm
        obtain ⟨hmo, hmk⟩ := hmem m (List.mem_cons_of_mem _ hm)
        refine ⟨hmo, ?_⟩
        obtain ⟨e, he, hek⟩ := List.mem_map.1 hmk
        refine List.mem_map.2 ⟨e, ?_, hek⟩
        simp only [removeTree, List.mem_filter, decide_eq_true_eq]
        refine ⟨he, ?_⟩
        intro hpre
        rw [hek] at hpre
        have := hpre.eq_of_length (by simp)
        have hnm : n = m := by simpa using this
        exact hnd2.1 (hnm ▸ hm))
      (by
        intro e he
        simp only [removeTree, List.mem_filter] at he
        exact hb e he.1)
    rw [h1]
    simp only [removeTree, List.filter_filter]
    congr 2
    apply List.filter_congr
    intro e _
    simp only [List.forall_mem_cons, Bool.decide_and, Bool.and_comm]

/-- The function `remove_path` on the model where `unlink` and `rmdir` succeed:
on an existing entry, with a recursion bound above the depth of the tree at the
entry, it returns true with the state without the entry and all beneath it. -/
theorem remove_path_model (depth : Nat) : ∀ (path : Str) (fs : ModelFS), WellFormed fs →
    path ≠ [] → resolve path ∈ fs.map Prod.fst →
    (∀ e ∈ fs, resolve path <+: e.1 → e.1.length < (resolve path).length + depth) →
    remove_path (modelOS allowAll) depth path fs = some (true, removeTree (resolve path) fs) := by
  induction depth with
  | zero =>
    intro path fs hwf hp hk hb
    obtain ⟨e, he, hek⟩ := List.mem_map.1 hk
    have := hb e he (by rw [hek])
    rw [hek] at this
    omega
  | succ depth ih =>
    intro path fs hwf hp hk hb
    obtain ⟨e, he, hek⟩ := List.mem_map.1 hk
    have hkne : resolve path ≠ [] := hek ▸ (hwf.2 e he).1
    have hmem : (resolve path, e.2) ∈ fs := by rw [← hek]; exact he
    have hl : lookupKey fs (resolve path) = some e.2 := lookupKey_of_mem fs _ _ hwf.1 hmem
    cases hb2 : e.2 with
    | false =>
      rw [hb2] at hl hmem
      have hdir : is_dir (modelOS allowAll) fs path = false := by
        simp [is_dir, modelOS, modelStat, hp, hkne, hl]
      have hun : (modelOS allowAll).unlink fs path =
          (true, fs.filter (fun e => decide (e.1 ≠ resolve path))) := by
        simp [modelOS, modelUnlink, hp, hl, allowAll]
      rw [remove_path, hdir, hun]
      simp only [Bool.false_eq_true, if_false]
      congr 2
      apply List.filter_congr
      intro x hx
      apply decide_eq_decide.2
      constructor
      · intro hne hpre
        have := ancestor_mem fs hwf x.1.length x hx (Nat.le_refl _) (resolve path) hpre
          (fun h => hne h.symm) hkne
        have h2 := lookupKey_of_mem fs _ _ hwf.1 this
        rw [hl] at h2
        cases h2
      · intro hnp heq
        exact hnp (heq ▸ List.prefix_refl _)
    | true =>
      rw [hb2] at hl hmem
      have hstat : modelStat fs path = some StatKind.directory := by
        simp [modelStat, hp, hkne, hl]
      have hdir : is_dir (modelOS allowAll) fs path = true := by
        simp [is_dir, modelOS, hstat]
      have hlist : list_dir ((modelOS allowAll).readdir fs path) [] =
          (true, childNames fs (resolve path)) := list_dir_modelReaddir fs hwf path hstat
      have hloop := removeEntries_model (remove_path (modelOS allowAll) depth) path depth
        (by
          intro n fs2 hwf2 hn hk2 hb3
          obtain ⟨hj, hr⟩ := resolve_path_join path n hp hn
          have := ih (path_join [path, n]) fs2 hwf2 hj (by rw [hr]; exact hk2)
            (by
              intro x hx hpre
              rw [hr] at hpre ⊢
              have := hb3 x hx ((List.prefix_append _ _).trans hpre)
              simp only [List.length_append, List.length_singleton]
              omega)
          rw [this, hr])
        (childNames fs (resolve path)) fs hwf (childNames_nodup fs _ hwf.1)
        (fun n hn => ⟨ordinary_of_mem_childNames fs hwf _ n hn, (mem_childNames fs _ n).1 hn⟩)
        hb
      have hfilter : fs.filter (fun e => decide (∀ n ∈ childNames fs (resolve path),
            ¬ (resolve path ++ [n]) <+: e.1)) =
          fs.filter (fun e => decide (¬ (resolve path <+: e.1 ∧ resolve path ≠ e.1))) := by
        apply List.filter_congr
        intro x hx
        apply decide_eq_decide.2
        rw [beneath_iff_child fs hwf (resolve path) x hx]
        simp
      rw [hfilter] at hloop
      have hmem1 : (resolve path, true) ∈
          fs.filter (fun e => decide (¬ (resolve path <+: e.1 ∧ resolve path ≠ e.1))) := by
        simp only [List.mem_filter, decide_eq_true_eq]
        exact ⟨hmem, fun h => h.2 rfl⟩
      have hnd1 : ((fs.filter (fun e => decide (¬ (resolve path <+: e.1 ∧
          resolve path ≠ e.1)))).map Prod.fst).Nodup :=
        List.Nodup.sublist ((List.filter_sublist _).map Prod.fst) hwf.1
      have hl1 := lookupKey_of_mem _ _ _ hnd1 hmem1
      have hch : childNames (fs.filter (fun e => decide (¬ (resolve path <+: e.1 ∧
          resolve path ≠ e.1)))) (resolve path) = [] := by
        apply List.eq_nil_iff_forall_not_mem.2
        intro n hn
        rw [mem_childNames] at hn
        obtain ⟨x, hx, hxk⟩ := List.mem_map.1 hn
        simp only [List.mem_filter, decide_eq_true_eq] at hx
        apply hx.2
        rw [hxk]
        exact ⟨List.prefix_append _ _, by simp⟩
      have hrm : (modelOS allowAll).rmdir (fs.filter (fun e => decide (¬ (resolve path <+: e.1 ∧
          resolve path ≠ e.1)))) path =
          (true, (fs.filter (fun e => decide (¬ (resolve path <+: e.1 ∧
            resolve path ≠ e.1)))).filter (fun e => decide (e.1 ≠ resolve path))) := by
        simp only [modelOS, modelRmdir]
        rw [if_pos ⟨hp, hl1, hch, rfl⟩]
      rw [remove_path, hdir, if_pos rfl, hlist]
      simp only []
      rw [hloop]
      simp only []
      rw [hrm]
      simp only [removeTree, List.filter_filter]
      congr 2
      apply List.filter_congr
      intro x _
      rw [← Bool.decide_and]
      apply decide_eq_decide.2
      constructor
      · rintro ⟨hne, hnb⟩ hpre
        exact hnb ⟨hpre, fun h => hne h.symm⟩
      · intro hnp
        exact ⟨fun heq => hnp (heq ▸ List.prefix_refl _), fun h => hnp h.1⟩

/-! ## The model file system stays well-formed -/

theorem lookupKey_eq_none (fs : ModelFS) (k : Key) (h : lookupKey fs k = none) :
    k ∉ fs.map Prod.fst := by
  induction fs with
  | nil => simp
  | cons e es ih =>
    simp only [lookupKey] at h
    split_ifs at h with he
    simp only [List.map_cons, List.mem_cons, not_or]
    exact ⟨fun hk => he hk.symm, ih h⟩

theorem lookupKey_of_not_mem (fs : ModelFS) (k : Key) (h : k ∉ fs.map Prod.fst) :
    lookupKey fs k = none := by
  cases hl : lookupKey fs k with
  | none => rfl
  | some b => exact absurd (List.mem_map_of_mem Prod.fst (lookupKey_eq_some fs k b hl)) h

theorem lookupKey_filter (fs : ModelFS) (k : Key) (p : Key × Bool → Bool)
    (h : ∀ e ∈ fs, e.1 = k → p e = true) : lookupKey (fs.filter p) k = lookupKey fs k := by
  induction fs with
  | nil => rfl
  | cons e es ih =>
    have ih2 := ih (fun x hx => h x (List.mem_cons_of_mem _ hx))
    by_cases he : e.1 = k
    · rw [List.filter_cons, if_pos (h e (List.mem_cons_self _ _) he)]
      simp only [lookupKey, if_pos he]
    · by_cases hpe : p e = true
      · rw [List.filter_cons, if_pos hpe]
        simp only [lookupKey, if_neg he]
        exact ih2
      · rw [List.filter_cons, if_neg hpe]
        simp only [lookupKey, if_neg he]
        exact ih2

theorem wellFormed_modelMkdir (fs : ModelFS) (path : Str) (h : WellFormed fs) :
    WellFormed (modelMkdir fs path).2 := by
  unfold modelMkdir
  by_cases hp : path = []
  · rw [if_pos hp]; exact h
  rw [if_neg hp]
  by_cases hr : resolve path = []
  · rw [if_pos hr]; exact h
  rw [if_neg hr]
  by_cases hdd : dotdot ∈ resolve path
  · rw [if_pos hdd]; exact h
  rw [if_neg hdd]
  cases hl : lookupKey fs (resolve path) with
  | some b => exact h
  | none =>
    simp only []
    by_cases hpar : (resolve path).dropLast = [] ∨
        lookupKey fs (resolve path).dropLast = some true
    · rw [if_pos hpar]
      refine ⟨?_, ?_⟩
      · simp only [List.map_append, List.map_cons, List.map_nil]
        apply List.Nodup.append h.1 (List.nodup_singleton _)
        intro k hk hk2
        rw [List.mem_singleton] at hk2
        exact lookupKey_eq_none fs _ hl (hk2 ▸ hk)
      · intro e he
        rcases List.mem_append.1 he with he | he
        · obtain ⟨h1, h2, h3⟩ := h.2 e he
          refine ⟨h1, h2, ?_⟩
          rcases h3 with h3 | h3
          · exact Or.inl h3
          · exact Or.inr (List.mem_append_left _ h3)
        · rw [List.mem_singleton] at he
          subst he
          refine ⟨hr, ?_, ?_⟩
          · intro c hc
            obtain ⟨c1, c2, c3⟩ := mem_keptSegments path c hc
            exact ⟨c1, c3, c2, fun hd => hdd (hd ▸ hc)⟩
          · rcases hpar with hpar | hpar
            · exact Or.inl hpar
            · exact Or.inr (List.mem_append_left _ (lookupKey_eq_some fs _ _ hpar))
    · rw [if_neg hpar]; exact h

theorem wellFormed_attemptAll (deny : Key → Bool) (ts : List Str) :
    ∀ fs : ModelFS, WellFormed fs → WellFormed (attemptAll (modelOS deny) ts fs).2 := by
  induction ts with
  | nil => intro fs h; exact h
  | cons t ts ih =>
    intro fs h
    have hw := wellFormed_modelMkdir fs t h
    have hm : (modelOS deny).mkdir fs t = modelMkdir fs t := rfl
    rw [attemptAll, hm]
    cases hr : modelMkdir fs t with
    | mk r fs2 =>
      rw [hr] at hw
      cases r with
      | created => exact ih fs2 hw
      | eexist => exact ih fs2 hw
      | error => exact hw

theorem wellFormed_makedirs (deny : Key → Bool) (path : Str) (fs : ModelFS)
    (h : WellFormed fs) : WellFormed (makedirs (modelOS deny) path fs).2 := by
  by_cases hp : path = []
  · rw [makedirs, if_pos hp]; exact h
  · rw [makedirs_eq_attemptAll _ path fs hp]
    exact wellFormed_attemptAll deny _ fs h

/-- The keys of a state have a common bound on their lengths. -/
theorem exists_depth_bound (fs : ModelFS) : ∃ d, ∀ e ∈ fs, e.1.length < d := by
  induction fs with
  | nil => exact ⟨0, fun e he => absurd he (List.not_mem_nil e)⟩
  | cons x xs ih =>
    obtain ⟨d, hd⟩ := ih
    refine ⟨max d (x.1.length + 1), ?_⟩
    intro e he
    rcases List.mem_cons.1 he with rfl | he
    · exact lt_of_lt_of_le (Nat.lt_succ_self _) (le_max_right _ _)
    · exact lt_of_lt_of_le (hd e he) (le_max_left _ _)

/-- After the tree at a key is removed, `stat` fails on every path that
resolves to the key or beneath it. -/
theorem modelStat_removeTree_beneath (fs : ModelFS) (k : Key) (hk : k ≠ []) (q : Str)
    (hq : k <+: resolve q) : modelStat (removeTree k fs) q = none := by
  unfold modelStat
  by_cases hp : q = []
  · rw [if_pos hp]
  rw [if_neg hp]
  have hr : resolve q ≠ [] := by
    intro h0
    rw [h0] at hq
    exact hk (List.prefix_nil.1 hq)
  rw [if_neg hr]
  have : lookupKey (removeTree k fs) (resolve q) = none := by
    apply lookupKey_of_not_mem
    intro hm
    obtain ⟨e, he, hek⟩ := List.mem_map.1 hm
    simp only [removeTree, List.mem_filter, decide_eq_true_eq] at he
    exact he.2 (hek ▸ hq)
  rw [this]

/-- Removing the tree at a key leaves `stat` as it was on every path that
resolves outside the tree. -/
theorem modelStat_removeTree_outside (fs : ModelFS) (k : Key) (q : Str)
    (hq : ¬ k <+: resolve q) : modelStat (removeTree k fs) q = modelStat fs q := by
  unfold modelStat
  have : lookupKey (removeTree k fs) (resolve q) = lookupKey fs (resolve q) := by
    apply lookupKey_filter
    intro e _ hek
    simp only [decide_eq_true_eq]
    rw [hek]
    exact hq
  rw [this]

theorem wellFormed_siblingsFS : WellFormed siblingsFS := by
  unfold WellFormed Ordinary
  decide

/-- C23: on the model file system in which `unlink` and `rmdir` succeed on the
existing entries, `remove_path` on a path that resolves to an entry of a
well-formed state, with a recursion bound above the depth of the tree at that
entry, returns true and leaves the state without that entry and everything
beneath it: `stat` fails afterwards on every path that resolves to the entry or
beneath it, the entries outside are the ones left, in their order, and `stat` is
unchanged on every path that resolves outside. In particular, when
`makedirs("a/b/c")` returns true on a well-formed state, `remove_path("a")`
afterwards returns true under every large enough recursion bound and
`path_exists("a")` is false then. -/
theorem remove_path_removes_tree (path : Str) (fs : ModelFS) (depth : Nat)
    (hwf : WellFormed fs) (hp : path ≠ []) (hex : resolve path ∈ fs.map Prod.fst)
    (hdepth : ∀ e ∈ fs, resolve path <+: e.1 → e.1.length < (resolve path).length + depth) :
    remove_path (modelOS allowAll) depth path fs =
      some (true, removeTree (resolve path) fs) ∧
    (∀ q : Str, resolve path <+: resolve q →
      path_exists (modelOS allowAll) (removeTree (resolve path) fs) q = false) ∧
    (∀ e, e ∈ removeTree (resolve path) fs ↔ e ∈ fs ∧ ¬ resolve path <+: e.1) ∧
    List.Sublist (removeTree (resolve path) fs) fs ∧
    (∀ q : Str, ¬ resolve path <+: resolve q →
      (modelOS allowAll).stat (removeTree (resolve path) fs) q = (modelOS allowAll).stat fs q) ∧
    (∀ fs0 fs1 : ModelFS, WellFormed fs0 →
      makedirs (modelOS allowAll) "a/b/c".toList fs0 = (true, fs1) →
      ∃ d, ∀ bound, d ≤ bound → ∃ fs2,
        remove_path (modelOS allowAll) bound "a".toList fs1 = some (true, fs2) ∧
        path_exists (modelOS allowAll) fs2 "a".toList = false) := by
  have hkne : resolve path ≠ [] := by
    obtain ⟨e, he, hek⟩ := List.mem_map.1 hex
    exact hek ▸ (hwf.2 e he).1
  refine ⟨remove_path_model depth path fs hwf hp hex hdepth, ?_, ?_, ?_, ?_, ?_⟩
  · intro q hq
    have : (modelOS allowAll).stat (removeTree (resolve path) fs) q = none :=
      modelStat_removeTree_beneath fs _ hkne q hq
    rw [path_exists, this]
  · intro e
    simp only [removeTree, List.mem_filter, decide_eq_true_eq]
  · exact List.filter_sublist _
  · intro q hq
    exact modelStat_removeTree_outside fs _ q hq
  · intro fs0 fs1 hwf0 hmk
    have hwf1 : WellFormed fs1 := by
      have := wellFormed_makedirs allowAll "a/b/c".toList fs0 hwf0
      rw [hmk] at this
      exact this
    have hra : resolve "a".toList = ["a".toList] := by decide
    have hrc : resolve "a/b/c".toList = ["a".toList, "b".toList, "c".toList] := by decide
    have hpc : "a/b/c".toList ≠ [] := by decide
    have hmem : ∃ b, (["a".toList, "b".toList, "c".toList], b) ∈ fs1 := by
      have h := makedirs_true_model _ fs0 fs1 hmk
      simp only [is_dir, is_file, modelOS, modelStat, if_neg hpc, hrc] at h
      cases hl : lookupKey fs1 ["a".toList, "b".toList, "c".toList] with
      | none =>
        rw [hl] at h
        simp at h
      | some b => exact ⟨b, lookupKey_eq_some fs1 _ b hl⟩
    obtain ⟨b, hb⟩ := hmem
    have ha : (["a".toList], true) ∈ fs1 :=
      ancestor_mem fs1 hwf1 3 _ hb (by simp) ["a".toList] ⟨["b".toList, "c".toList], rfl⟩
        (by simp) (by simp)
    obtain ⟨d, hd⟩ := exists_depth_bound fs1
    refine ⟨d, fun bound hbound => ⟨removeTree (resolve "a".toList) fs1, ?_, ?_⟩⟩
    · apply remove_path_model bound "a".toList fs1 hwf1 (by decide)
      · rw [hra]; exact List.mem_map_of_mem Prod.fst ha
      · intro e he _
        have := hd e he
        omega
    · have : (modelOS allowAll).stat (removeTree (resolve "a".toList) fs1) "a".toList = none :=
        modelStat_removeTree_beneath fs1 (resolve "a".toList) (by decide) "a".toList
          (List.prefix_refl _)
      rw [path_exists, this]

/-- C23 on the directory `d` with the files `x`, `y`, `z` and the file `w` beside
it: `remove_path("d")` returns true and leaves `w` alone. -/
theorem remove_path_removes_tree_witness :
    remove_path (modelOS allowAll) 2 "d".toList siblingsFS =
      some (true, [(["w".toList], false)]) :=
  (remove_path_removes_tree "d".toList siblingsFS 2 wellFormed_siblingsFS (by decide)
    (by decide) (by decide)).1

/-! ## The loop of `path_walk` ends, and visits each directory once -/

theorem treeDirs_dir (path : Str) (o s : Bool) (entries : List (Str × Node)) :
    treeDirs path (.dir o s entries) = (path, .dir o s entries) :: treeDirsEntries path entries := by
  rw [treeDirs]

theorem treeDirsEntries_nil (path : Str) : treeDirsEntries path [] = [] := by
  rw [treeDirsEntries]

theorem treeDirsEntries_cons (path : Str) (e : Str × Node) (es : List (Str × Node)) :
    treeDirsEntries path (e :: es) =
      (if e.1 ≠ dot ∧ e.1 ≠ dotdot then treeDirs (path ++ path_separator :: e.1) e.2 else []) ++
        treeDirsEntries path es := by
  obtain ⟨filename, child⟩ := e
  rw [treeDirsEntries]
  by_cases h : filename ≠ dot ∧ filename ≠ dotdot
  · simp only [if_pos h]
  · simp only [if_neg h, List.nil_append]

/-- The directories beneath the subdirectories that a visit discovers are among
the directories beneath the visited directory, in the same order. -/
theorem discovered_treeDirs_sublist (path : Str) (o s : Bool) (entries : List (Str × Node)) :
    List.Sublist ((discovered path (.dir o s entries)).flatMap (fun y => treeDirs y.1 y.2))
      (treeDirsEntries path entries) := by
  cases o with
  | false => simp [discovered, Node.opendir]
  | true =>
    cases s with
    | false => simp [discovered, Node.opendir, Node.searchable]
    | true =>
      simp only [discovered, Node.opendir, Node.searchable, if_true]
      induction entries with
      | nil => simp [treeDirsEntries_nil]
      | cons e es ih =>
        rw [treeDirsEntries_cons]
        by_cases hn : e.1 ≠ dot ∧ e.1 ≠ dotdot
        · rw [if_pos hn]
          by_cases hd : e.2.isDir = true
          · have hf : (decide (e.1 ≠ dot ∧ e.1 ≠ dotdot) && e.2.isDir) = true := by
              simp [hn, hd]
            rw [List.filter_cons, if_pos hf, List.map_cons, List.flatMap_cons]
            exact List.Sublist.append (List.Sublist.refl _) ih
          · have hf : ¬ (decide (e.1 ≠ dot ∧ e.1 ≠ dotdot) && e.2.isDir) = true := by
              simp [hd]
            rw [List.filter_cons, if_neg hf]
            exact ih.trans (List.sublist_append_right _ _)
        · rw [if_neg hn, List.nil_append]
          have hf : ¬ (decide (e.1 ≠ dot ∧ e.1 ≠ dotdot) && e.2.isDir) = true := by
            simp [hn]
          rw [List.filter_cons, if_neg hf]
          exact ih

/-- The directories of a work list of directories, level by level, are among
the directories of the trees of the work list, each as often as it is there. -/
theorem levelOrder_subperm (n m : Nat) : ∀ q : List (Str × Node), qsize q ≤ m → qsize q ≤ n →
    (∀ x ∈ q, x.2.isDir = true) →
    List.Subperm (levelOrder n q) (q.flatMap (fun x => treeDirs x.1 x.2)) := by
  induction m with
  | zero =>
    intro q hm _ _
    have := qsize_eq_zero q hm
    subst this
    simp [levelOrder]
  | succ m ih =>
    intro q hm hn hq
    cases q with
    | nil => simp [levelOrder]
    | cons x pending =>
      obtain ⟨subdir, node⟩ := x
      have hsz : node.size ≤ n := by
        rw [qsize_cons] at hn
        exact Nat.le_trans (Nat.le_add_right _ _) hn
      have hn2 : qsize (pending ++ discovered subdir node) ≤ n := by
        have h1 := qsize_discovered_lt subdir node
        rw [qsize_cons] at hn
        rw [qsize_append]
        simp only at hn
        omega
      have hq2 : ∀ y ∈ pending ++ discovered subdir node, y.2.isDir = true := by
        intro y hy
        rcases List.mem_append.1 hy with hy | hy
        · exact hq y (List.mem_cons_of_mem _ hy)
        · exact discovered_isDir subdir node y hy
      have h := ih (pending ++ discovered subdir node)
        (qsize_step (subdir, node) pending m hm) hn2 hq2
      rw [levelOrder_cons n (subdir, node) pending hsz]
      have hd := hq (subdir, node) (List.mem_cons_self _ _)
      cases node with
      | file => simp [Node.isDir] at hd
      | link t => simp [Node.isDir] at hd
      | dir o s entries =>
        rw [List.flatMap_cons, treeDirs_dir, List.cons_append]
        apply (List.subperm_cons _).2
        rw [List.flatMap_append] at h
        refine h.trans ?_
        refine (List.perm_append_comm.subperm).trans ?_
        exact (List.Sublist.append (discovered_treeDirs_sublist subdir o s entries)
          (List.Sublist.refl _)).subperm

theorem filterMap_visit_paths (q : List (Str × Node)) :
    List.Sublist ((q.filterMap visit).map Prod.fst) (q.map Prod.fst) := by
  induction q with
  | nil => simp
  | cons x q ih =>
    cases hv : visit x with
    | none =>
      rw [List.filterMap_cons_none hv, List.map_cons]
      exact ih.trans (List.sublist_cons_self _ _)
    | some t =>
      rw [List.filterMap_cons_some hv, List.map_cons, List.map_cons]
      have : t.1 = x.1 := by
        unfold visit at hv
        cases ho : x.2.opendir with
        | none => simp [ho] at hv
        | some entries =>
          simp only [ho, Option.some.injEq] at hv
          rw [← hv, visitTuple]
      rw [this]
      exact ih.cons₂ _

theorem path_walk_of_not_dir (root_path : Str) (root : Node) (h : root.isDir = false) :
    path_walk root_path root = [] := by
  cases root with
  | file => simp [path_walk, walkLoop, Node.size, Node.opendir]
  | link t => simp [path_walk, walkLoop, Node.size, Node.opendir]
  | dir o s entries => simp [Node.isDir] at h

theorem path_walk_paths_subperm (root_path : Str) (root : Node) :
    List.Subperm ((path_walk root_path root).map Prod.fst)
      ((treeDirs root_path root).map Prod.fst) := by
  by_cases hd : root.isDir = true
  · rw [path_walk_eq_filterMap]
    refine (filterMap_visit_paths _).subperm.trans ?_
    have h := levelOrder_subperm root.size root.size [(root_path, root)] (by simp [qsize])
      (by simp [qsize]) (by simpa using hd)
    simp only [List.flatMap_cons, List.flatMap_nil, List.append_nil] at h
    obtain ⟨l, hp, hs⟩ := h
    exact ⟨l.map Prod.fst, hp.map Prod.fst, hs.map Prod.fst⟩
  · rw [path_walk_of_not_dir root_path root (by simpa using hd)]
    simp


/-- After as many iterations as the trees of the work list have nodes, nothing
is left of the work list: the loop of `path_walk` has ended. -/
theorem walkPending_eq_nil (fuel : Nat) : ∀ q : List (Str × Node), qsize q ≤ fuel →
    walkPending fuel q = [] := by
  induction fuel with
  | zero =>
    intro q h
    rw [qsize_eq_zero q h, walkPending]
  | succ fuel ih =>
    intro q h
    cases q with
    | nil => rw [walkPending]
    | cons x pending =>
      obtain ⟨subdir, node⟩ := x
      have hstep := qsize_step (subdir, node) pending fuel h
      cases hopen : node.opendir with
      | none =>
        simp only [walkPending, hopen]
        rw [discovered_of_none subdir node hopen, List.append_nil] at hstep
        exact ih pending hstep
      | some entries =>
        obtain ⟨h1, _⟩ := foldl_scanStep subdir node.searchable entries ⟨[], [], []⟩
        simp only [List.nil_append] at h1
        simp only [walkPending, hopen]
        rw [h1, ← discovered_eq subdir node entries hopen]
        exact ih _ hstep

/-- C31: `path_walk` ends on every tree, whatever symbolic links it holds. After
at most as many iterations as the tree has nodes nothing is left of the work
list, and a larger bound on the iterations gives the same result; each queued
directory is visited once, in the order of the queue; whatever is queued besides
the root path is a directory by `lstat`, never a symbolic link; and the paths of
the result are among the paths of the directories of the tree, none more often
than the tree has it, so that the result has at most as many tuples as the tree
has directories. -/
theorem path_walk_terminates (root_path : Str) (root : Node) :
    walkPending root.size [(root_path, root)] = [] ∧
    (∀ fuel, root.size ≤ fuel →
      walkPending fuel [(root_path, root)] = [] ∧
      walkLoop fuel [(root_path, root)] [] = path_walk root_path root) ∧
    path_walk root_path root = (queued root_path root).filterMap visit ∧
    (∀ y ∈ queued root_path root,
      y = (root_path, root) ∨ (y.2.isDir = true ∧ ∀ t, y.2 ≠ Node.link t)) ∧
    (root.isDir = true →
      List.Subperm (queued root_path root) (treeDirs root_path root)) ∧
    List.Subperm ((path_walk root_path root).map Prod.fst)
      ((treeDirs root_path root).map Prod.fst) ∧
    (path_walk root_path root).length ≤ (treeDirs root_path root).length := by
  have hsz : qsize [(root_path, root)] = root.size := by simp [qsize]
  refine ⟨walkPending_eq_nil _ _ (by rw [hsz]), ?_, path_walk_eq_filterMap root_path root,
    ?_, ?_, path_walk_paths_subperm root_path root, ?_⟩
  · intro fuel hfuel
    refine ⟨walkPending_eq_nil _ _ (by rw [hsz]; exact hfuel), ?_⟩
    exact walkLoop_fuel_irrelevant fuel root.size _ [] (by rw [hsz]; exact hfuel)
      (by rw [hsz])
  · intro y hy
    rcases queued_isDir root_path root y hy with h | h
    · exact Or.inl h
    · refine Or.inr ⟨h, ?_⟩
      intro t ht
      rw [ht] at h
      simp [Node.isDir] at h
  · intro hd
    have h := levelOrder_subperm root.size root.size [(root_path, root)] (by rw [hsz])
      (by rw [hsz]) (by simpa using hd)
    simpa [queued] using h
  · have h := (path_walk_paths_subperm root_path root).length_le
    simpa using h

/-- C31 on a tree whose symbolic links form cycles: the loop ends, the links
are listed as files, and only the two directories are visited. -/
theorem path_walk_terminates_witness :
    walkPending cycleTree.size [("r".toList, cycleTree)] = [] ∧
    walkLoop 100 [("r".toList, cycleTree)] [] = path_walk "r".toList cycleTree ∧
    path_walk "r".toList cycleTree =
      [("r".toList, ["sub".toList], ["self".toList]),
       ("r/sub".toList, [], ["back".toList, "twin".toList])] ∧
    List.Subperm (queued "r".toList cycleTree) (treeDirs "r".toList cycleTree) :=
  ⟨(path_walk_terminates "r".toList cycleTree).1,
    ((path_walk_terminates "r".toList cycleTree).2.1 100 (by decide)).2,
    by decide,
    (path_walk_terminates "r".toList cycleTree).2.2.2.2.1 rfl⟩

end FsUtils

namespace PrintUtils

/-! ## `operator<<` for `std::list` against `operator<<` for `std::vector` -/

/-- When the last element occurs nowhere before the last position, the loop for
`std::list` writes what the loop for `std::vector` writes. -/
theorem listLoop_eq_vectorLoop {T : Type} [DecidableEq T] (render : T → Option (List Char))
    (addr : Nat → List Char) (back : T) (size : Nat) :
    ∀ (l : List T) (i : Nat), i + (l.length + 1) = size → back ∉ l →
      listLoop render addr back i (l ++ [back]) =
        vectorLoop render addr size i (l ++ [back]) := by
  intro l
  induction l with
  | nil =>
    intro i hi _
    have h1 : ¬ i ≠ size - 1 := by simp at hi; omega
    simp only [List.nil_append, listLoop, vectorLoop, if_neg h1, ne_eq, not_true_eq_false,
      if_false]
  | cons v l ih =>
    intro i hi hb
    have hv : v ≠ back := fun h => hb (h ▸ List.mem_cons_self _ _)
    have hl : back ∉ l := fun h => hb (List.mem_cons_of_mem _ h)
    have h1 : i ≠ size - 1 := by simp at hi; omega
    have e := ih (i + 1) (by simp at hi ⊢; omega) hl
    rw [List.cons_append, listLoop, vectorLoop, if_pos hv, if_pos h1, e]

/-- The loop for `std::vector` writes one separator less than it has elements,
the loop for `std::list` one separator for each element that differs from the
last one. -/
theorem loops_length {T : Type} [DecidableEq T] (render : T → Option (List Char))
    (addr : Nat → List Char) (back : T) (size : Nat) :
    ∀ (l : List T) (i : Nat), l ≠ [] → i + l.length = size →
      (vectorLoop render addr size i l).length + 2 =
        (listLoop render addr back i l).length + 2 * l.count back := by
  intro l
  induction l with
  | nil => intro i h; exact absurd rfl h
  | cons v l ih =>
    intro i _ hi
    cases l with
    | nil =>
      have h1 : ¬ i ≠ size - 1 := by simp at hi; omega
      by_cases hv : v = back
      · subst hv
        simp [listLoop, vectorLoop, h1]
      · simp [listLoop, vectorLoop, h1, hv, List.count_cons]
    | cons w l =>
      have h1 : i ≠ size - 1 := by simp at hi; omega
      have h := ih (i + 1) (by simp) (by simp at hi ⊢; omega)
      have hV : (vectorLoop render addr size i (v :: w :: l)).length =
          (elementText render addr i v).length + 2 +
            (vectorLoop render addr size (i + 1) (w :: l)).length := by
        rw [vectorLoop, if_pos h1]
        simp only [List.length_append, String.toList, String.length]
        rfl
      by_cases hv : v = back
      · have hL : (listLoop render addr back i (v :: w :: l)).length =
            (elementText render addr i v).length +
              (listLoop render addr back (i + 1) (w :: l)).length := by
          rw [listLoop, if_neg (by simpa using hv)]
          simp only [List.length_append, List.append_nil]
        have hc : (v :: w :: l).count back = (w :: l).count back + 1 := by
          rw [List.count_cons, if_pos (by simpa using hv)]
        rw [hV, hL, hc]
        omega
      · have hL : (listLoop render addr back i (v :: w :: l)).length =
            (elementText render addr i v).length + 2 +
              (listLoop render addr back (i + 1) (w :: l)).length := by
          rw [listLoop, if_pos hv]
          simp only [List.length_append]
          rfl
        have hc : (v :: w :: l).count back = (w :: l).count back := by
          rw [List.count_cons, if_neg (by simpa using hv)]
          simp
        rw [hV, hL, hc]
        omega

/-- The two operators write the same text exactly when the last element of the
list occurs nowhere before the last position (the texts for the addresses taken
to be the same in both containers). -/
theorem operatorLtLt_list_eq_vector_iff {T : Type} [DecidableEq T]
    (render : T → Option (List Char)) (addr : Nat → List Char) (l : List T) :
    operatorLtLt_list render addr l = operatorLtLt_vector render addr l ↔
      ∀ back, l.getLast? = some back → back ∉ l.dropLast := by
  rcases List.eq_nil_or_concat l with rfl | ⟨init, b, hl⟩
  · simp [operatorLtLt_list, operatorLtLt_vector, vectorLoop]
  · rw [List.concat_eq_append] at hl
    subst hl
    have hlast : (init ++ [b]).getLast? = some b := by simp
    have hdrop : (init ++ [b]).dropLast = init := by simp
    simp only [operatorLtLt_list, operatorLtLt_vector, hlast, hdrop, Option.some.injEq,
      forall_eq', List.append_cancel_left_eq, List.append_cancel_right_eq]
    constructor
    · intro heq hmem
      have h := loops_length render addr b (init ++ [b]).length (init ++ [b]) 0 (by simp)
        (by simp)
      rw [heq] at h
      have hc : 0 < init.count b := List.count_pos_iff.2 hmem
      simp only [List.count_append, List.count_singleton_self] at h
      omega
    · intro hb
      exact listLoop_eq_vectorLoop render addr b (init ++ [b]).length init 0 (by simp) hb

/-- C32: on the list `a`, `b`, `a` the operator for `std::list` leaves out the
separator after the first element, which equals the last one, while the
operator for `std::vector` writes it: the two texts differ. -/
theorem operatorLtLt_list_repeated_back :
    operatorLtLt_list renderChar addrText ['a', 'b', 'a'] = "[ab, a]".toList ∧
    operatorLtLt_vector renderChar addrText ['a', 'b', 'a'] = "[a, b, a]".toList ∧
    operatorLtLt_list renderChar addrText ['a', 'b', 'a'] ≠
      operatorLtLt_vector renderChar addrText ['a', 'b', 'a'] := by
  decide

end PrintUtils
